import Mathlib

/-
  A shallow embedding of the resource cache core of resclient
  (src/class/ResClient.js), covering the cache coordinator, the
  reference-state engine, the event pipeline, the request multiplexer
  and the collection diff, together with theorems about them.

  JS objects keyed by (non-integer) strings preserve insertion order, so
  JS object maps are embedded as association lists with set-or-append
  update.  JS numbers used as counters are embedded as Int where the code
  can drive them negative (indirect counts via removeIndirect with an
  argument) and as Nat where it cannot.  Code that throws is embedded in
  Except.
-/

namespace Res

/-- Resource kinds (ResClient.js `resourceTypes`). -/
inductive RType
| model
| collection
| err
deriving DecidableEq, Repr

/-- A materialized value held in a model field or a collection slot:
a primitive (abstracted to Nat), a materialized resource object, or a
plain non-resource object kept as-is by data preparation.  Cached
resource objects are identity-stable and keyed by rid, so a resource
object is embedded as its rid. -/
inductive Value
| prim (n : Nat)
| res (rid : String)
| other
deriving DecidableEq, Repr

/-- ResClient.js `_isResource`. -/
def isResource : Value → Bool
| Value.res _ => true
| _ => false

/-- A value as it appears on the wire inside event data or snapshots:
a primitive, a resource reference `{rid: r}`, the delete sentinel
`{action: "delete"}`, or an object of any other unsupported shape. -/
inductive WireVal
| prim (n : Nat)
| ref (rid : String)
| act
| obj
deriving DecidableEq, Repr

/-- The materialized data of a resource: model fields, collection
elements, or an error resource (whose payload the claims do not need). -/
inductive ResData
| model (fields : List (String × Value))
| collection (elems : List Value)
| errData
deriving DecidableEq, Repr

/-- Modelled from the spec: `CacheItem` (src/class/CacheItem.js is not in
the sources).  Per-resource record of spec section 3: rid, kind, the
materialized item, direct-listener count, indirect-reference count and
the subscribed flag.  The in-flight promise and the unsubscribe callback
are represented by the handler functions that use them. -/
structure CacheItem where
  rid : String
  type : Option RType := none
  item : Option ResData := none
  direct : Nat := 0
  indirect : Int := 0
  subscribed : Bool := false
deriving DecidableEq, Repr

/-- Modelled from the spec: CacheItem.addIndirect (increments the
indirect count by one). -/
def CacheItem.addIndirect (ci : CacheItem) : CacheItem :=
  { ci with indirect := ci.indirect + 1 }

/-- Modelled from the spec: CacheItem.removeIndirect with an explicit
count, as ResClient.js calls `ci.removeIndirect(r)` with a possibly
negative accumulated count; decrements the indirect count by `n`. -/
def CacheItem.removeIndirectN (ci : CacheItem) (n : Int) : CacheItem :=
  { ci with indirect := ci.indirect - n }

/-- Modelled from the spec: CacheItem.removeIndirect with the default
count of one. -/
def CacheItem.removeIndirect (ci : CacheItem) : CacheItem :=
  ci.removeIndirectN 1

/-- Modelled from the spec: CacheItem.setSubscribed. -/
def CacheItem.setSubscribed (ci : CacheItem) (b : Bool) : CacheItem :=
  { ci with subscribed := b }

/-- Modelled from the spec: CacheItem.setItem, recording the materialized
resource object and fixing the resource kind. -/
def CacheItem.setItem (ci : CacheItem) (d : ResData) (t : RType) : CacheItem :=
  { ci with item := some d, type := some t }

/-- Modelled from the spec: CacheItem.addDirect. -/
def CacheItem.addDirect (ci : CacheItem) : CacheItem :=
  { ci with direct := ci.direct + 1 }

/-- Modelled from the spec: CacheItem.removeDirect. -/
def CacheItem.removeDirect (ci : CacheItem) : CacheItem :=
  { ci with direct := ci.direct - 1 }

/-! ### Association maps (JS objects keyed by strings, insertion order) -/

/-- A JS object used as a map from strings, embedded as an association
list in insertion order. -/
def AMap (β : Type) : Type := List (String × β)

namespace AMap

/-- Property lookup `o[k]`. -/
def find? {β : Type} : AMap β → String → Option β
| [], _ => none
| (k, v) :: rest, key => if k = key then some v else find? rest key

/-- Property assignment `o[k] = v`: updates in place if the key exists,
appends otherwise (JS objects keep insertion order). -/
def set {β : Type} : AMap β → String → β → AMap β
| [], key, v => [(key, v)]
| (k, w) :: rest, key, v =>
    if k = key then (k, v) :: rest else (k, w) :: set rest key v

/-- Property deletion `delete o[k]`. -/
def erase {β : Type} : AMap β → String → AMap β
| [], _ => []
| (k, w) :: rest, key => if k = key then rest else (k, w) :: erase rest key

/-- `o.hasOwnProperty(k)`. -/
def contains {β : Type} (m : AMap β) (key : String) : Bool :=
  (m.find? key).isSome

/-- The keys, in insertion order. -/
def keys {β : Type} (m : AMap β) : List String := m.map Prod.fst

end AMap

instance {β : Type} [DecidableEq β] : DecidableEq (AMap β) :=
  inferInstanceAs (DecidableEq (List (String × β)))

instance {ε α : Type} [DecidableEq ε] [DecidableEq α] : DecidableEq (Except ε α) :=
  fun a b =>
    match a, b with
    | Except.error x, Except.error y =>
      decidable_of_iff (x = y) ⟨fun h => congrArg Except.error h, fun h => by injection h⟩
    | Except.error _, Except.ok _ => isFalse (by intro h; cases h)
    | Except.ok _, Except.error _ => isFalse (by intro h; cases h)
    | Except.ok x, Except.ok y =>
      decidable_of_iff (x = y) ⟨fun h => congrArg Except.ok h, fun h => by injection h⟩

instance {β : Type} [Repr β] : Repr (AMap β) :=
  inferInstanceAs (Repr (List (String × β)))

/-- The resource cache `this.cache`: rid-keyed map of CacheItems. -/
abbrev Cache : Type := AMap CacheItem

/-- The rids of the resource values of a materialized item, in field or
element order (the values `v` for which ResClient.js `_isResource(v)`
holds). -/
def resRids : ResData → List String
| ResData.model fields => fields.filterMap fun kv =>
    match kv.2 with
    | Value.res rid => some rid
    | _ => none
| ResData.collection elems => elems.filterMap fun v =>
    match v with
    | Value.res rid => some rid
    | _ => none
| ResData.errData => []

/-- The rids reachable in one step from a cache item through
`_traverse` / `_deleteRef`: resource values of its item for which
`_getRefItem` finds a cache entry.  An item without a materialized value
(or of error kind) has no children. -/
def childRids (cache : Cache) (ci : CacheItem) : List String :=
  match ci.type, ci.item with
  | some RType.model, some d => (resRids d).filter fun rid => (cache.find? rid).isSome
  | some RType.collection, some d => (resRids d).filter fun rid => (cache.find? rid).isSome
  | _, _ => []

/-- The rids of all resource values of an item, without the cache-presence
filter; `_deleteRef` iterates these and checks the cache per value. -/
def rawRids (ci : CacheItem) : List String :=
  match ci.type, ci.item with
  | some RType.model, some d => resRids d
  | some RType.collection, some d => resRids d
  | _, _ => []

/-- Runtime exceptions thrown from the message-handling turn. -/
inductive Err
| noMatchingRequest
| invalidMessage
| malformedEventName
| notFoundInCache
| unsupportedChangeValue
| removedModelNotInCache
| missingCacheEntry
| outOfFuel
deriving DecidableEq, Repr

/-- The cache-coordinator state the claims need: the cache, the stale
set (`this.stale`, embedded as a list of rids in insertion order), the
connected flag and the console log (`console.error` output). -/
structure ClientState where
  cache : Cache := []
  stale : List String := []
  connected : Bool := true
  log : List String := []
deriving DecidableEq, Repr

/-- `_addStale`: put the rid in the stale set (JS sets a property; a rid
already present keeps its place). -/
def addStale (st : ClientState) (rid : String) : ClientState :=
  if rid ∈ st.stale then st else { st with stale := st.stale ++ [rid] }

/-- `_removeStale`. -/
def removeStale (st : ClientState) (rid : String) : ClientState :=
  { st with stale := st.stale.erase rid }

/-- `_setStale`: adds to the stale set; the delayed `_subscribeToStale`
timer re-checks staleness at fire time and is outside this model. -/
def setStale (st : ClientState) (rid : String) : ClientState :=
  addStale st rid

/-! ### The reference-state engine (`_getRefState`, `_seekRefs`,
`_markDelete`, `_traverse`) -/

/-- Traverse states `stateNone` .. `stateStale`. -/
inductive TState
| tsNone
| tsDelete
| tsKeep
| tsStale
deriving DecidableEq, Repr

/-- A `RefState` entry: external reference count and state.  The cache
item itself is recovered from the cache by rid. -/
structure RefEntry where
  rc : Int
  st : TState
deriving DecidableEq, Repr

/-- The reference-state map `refs` built by `_getRefState`. -/
abbrev RefMap : Type := AMap RefEntry

/-- The parent state handed down by `_traverse` during the
`_markDelete` pass: either `stateDelete` or a stale-root rid token. -/
inductive MState
| mdel
| mtoken (rid : String)
deriving DecidableEq, Repr

/-- One visit of the `_seekRefs` pass: the callback applied to a child
rid, followed by descent into its children on first visit.  The JS
recursion terminates because `refs` only grows; the fuel is sized by the
caller so that it never runs out (`seekVisit_fuel_irrel` below). -/
def seekVisit (cache : Cache) : Nat → RefMap → String → RefMap
| fuel, refs, rid =>
  match cache.find? rid with
  | none => refs
  | some ci =>
    if ci.subscribed then refs
    else
      match refs.find? rid with
      | some r => refs.set rid { r with rc := r.rc - 1 }
      | none =>
        match fuel with
        | 0 => refs.set rid ⟨ci.indirect - 1, TState.tsNone⟩
        | fuel + 1 =>
          (childRids cache ci).foldl (seekVisit cache fuel)
            (refs.set rid ⟨ci.indirect - 1, TState.tsNone⟩)

/-- The pure branch logic of `_markDelete` on one entry: `none` means do
not descend; otherwise the updated entry and the state passed to the
children. -/
def markStep (ci : CacheItem) (r : RefEntry) (pst : MState) (rid : String) :
    Option (RefEntry × MState) :=
  if r.st = TState.tsKeep then none
  else
    match pst with
    | MState.mdel =>
      if r.rc > 0 then some ({ r with st := TState.tsKeep }, MState.mtoken rid)
      else if r.st ≠ TState.tsNone then none
      else if ci.direct ≠ 0 then some ({ r with st := TState.tsStale }, MState.mtoken rid)
      else some ({ r with st := TState.tsDelete }, MState.mdel)
    | MState.mtoken t =>
      if rid = t then none
      else some ({ r with st := TState.tsKeep },
                 if r.rc > 0 then MState.mtoken rid else MState.mtoken t)

/-- One visit of the `_markDelete` pass.  A rid missing from `refs`
would fault in JS; after a complete `_seekRefs` pass every reachable
non-subscribed rid is present, so the `none` branch is unreachable from
`getRefState`. -/
def markVisit (cache : Cache) : Nat → RefMap → MState → String → RefMap
| fuel, refs, pst, rid =>
  match cache.find? rid with
  | none => refs
  | some ci =>
    if ci.subscribed then refs
    else
      match refs.find? rid with
      | none => refs
      | some r =>
        match markStep ci r pst rid with
        | none => refs
        | some (r2, childSt) =>
          match fuel with
          | 0 => refs.set rid r2
          | fuel + 1 =>
            (childRids cache ci).foldl
              (fun acc c => markVisit cache fuel acc childSt c)
              (refs.set rid r2)

/-- Fuel for the `_seekRefs` pass: every descend inserts a fresh cached
rid into `refs`, so nesting is bounded by the cache size. -/
def seekFuel (cache : Cache) : Nat := cache.length

/-- Fuel for the `_markDelete` pass: every descend strictly advances the
state of the visited entry (tsNone to a state, or a state to tsKeep), so
nesting is bounded by twice the cache size. -/
def markFuel (cache : Cache) : Nat := 2 * cache.length + 2

/-- `_getRefState`: seed the root, run the `_seekRefs` traversal with
`skipFirst` (the callback is skipped for the root, whose children are
visited directly), then run the `_markDelete` traversal from the root
with parent state `stateDelete`. -/
def getRefState (cache : Cache) (rid : String) : RefMap :=
  match cache.find? rid with
  | none => []
  | some ci =>
    if ci.subscribed then []
    else
      let refs : RefMap := [(rid, ⟨ci.indirect, TState.tsNone⟩)]
      let refs := (childRids cache ci).foldl (seekVisit cache (seekFuel cache)) refs
      markVisit cache (markFuel cache) refs MState.mdel rid

/-- `_getRefItem(v)` followed by `removeIndirect()`: decrement the
indirect count of a referenced rid when it is still cached. -/
def removeIndirectIfCached (cache : Cache) (rid : String) : Cache :=
  match cache.find? rid with
  | none => cache
  | some ci => cache.set rid ci.removeIndirect

/-- `_deleteRef`: decrement the indirect count of every still-cached
resource value of the item, then remove the item from the cache and from
the stale set. -/
def deleteRef (st : ClientState) (rid : String) : ClientState :=
  match st.cache.find? rid with
  | none => st
  | some ci =>
    let cache := (rawRids ci).foldl removeIndirectIfCached st.cache
    let st := { st with cache := cache }
    let st := { st with cache := st.cache.erase rid }
    removeStale st rid

/-- `_tryDelete`: classify via `_getRefState`, then walk the reference
map in insertion order, staling the stale-marked rids and deleting the
delete-marked ones. -/
def tryDelete (st : ClientState) (rid : String) : ClientState :=
  (getRefState st.cache rid).foldl
    (fun st kv =>
      match kv.2.st with
      | TState.tsStale => setStale st kv.1
      | TState.tsDelete => deleteRef st kv.1
      | _ => st)
    st

/-! ### The collection diff (`_patchDiff`) -/

/-- An event emitted by `_patchDiff` through its callbacks: a remove at
an index of the evolving sequence, or an add of element `n` of the new
sequence at an index of the evolving sequence.  The add index is
computed by the code as `idx - r + j + len - i`, an integer expression;
it is provably nonnegative. -/
inductive DiffEv
| rem (idx : Nat)
| add (n : Nat) (idx : Int)
deriving DecidableEq, Repr

/-- The prefix-trimming loop: `while (s < m && s < n && a[s] === b[s]) s++`. -/
def commonPfxLen {α : Type} [DecidableEq α] : List α → List α → Nat
| x :: xs, y :: ys => if x = y then commonPfxLen xs ys + 1 else 0
| _, _ => 0

/-- The suffix-trimming loop:
`while (s < m && s < n && a[m-1] === b[n-1]) { m--; n--; }`. -/
def trimSuf {α : Type} [DecidableEq α] (a b : List α) (s : Nat) :
    Nat → Nat → Nat × Nat
| m, n =>
  if h : s < m ∧ s < n ∧ a.get? (m - 1) = b.get? (n - 1) then
    trimSuf a b s (m - 1) (n - 1)
  else (m, n)
termination_by m _ => m
decreasing_by omega

/-- The LCS cost matrix `c` of `_patchDiff`:
`c[i+1][j+1] = aa[i] === bb[j] ? c[i][j] + 1 : max(c[i+1][j], c[i][j+1])`,
first row and column zero. -/
def lcsC {α : Type} [DecidableEq α] (aa bb : List α) : Nat → Nat → Nat
| 0, _ => 0
| _ + 1, 0 => 0
| i + 1, j + 1 =>
  if aa.get? i = bb.get? j then lcsC aa bb i j + 1
  else max (lcsC aa bb (i + 1) j) (lcsC aa bb i (j + 1))
termination_by i j => (i, j)

/-- The backtracking loop of `_patchDiff`.  `idx` and `r` mirror the JS
variables; removes are emitted immediately (collected in order in
`accR`, carrying the decremented `idx`), adds are pushed (prepended to
`accA`, so that the final emission order of the JS reverse loop is the
list order).  Returns the removes, the pushed adds `(n, idx, r)` and the
final remove count. -/
def backtrack {α : Type} [DecidableEq α] (aa bb : List α) :
    Nat → Nat → Nat → Nat → List Nat → List (Nat × Nat × Nat) →
    List Nat × List (Nat × Nat × Nat) × Nat
| i, j, idx, r, accR, accA =>
  if h1 : 0 < i ∧ 0 < j ∧ aa.get? (i - 1) = bb.get? (j - 1) then
    backtrack aa bb (i - 1) (j - 1) (idx - 1) r accR accA
  else if h2 : 0 < j ∧ (i = 0 ∨ lcsC aa bb i (j - 1) ≥ lcsC aa bb (i - 1) j) then
    backtrack aa bb i (j - 1) idx r accR ((j - 1, idx, r) :: accA)
  else if _h3 : 0 < i ∧ (j = 0 ∨ lcsC aa bb i (j - 1) < lcsC aa bb (i - 1) j) then
    backtrack aa bb (i - 1) j (idx - 1) (r + 1) (accR ++ [idx - 1]) accA
  else (accR, accA, r)
termination_by i j _ _ _ _ => i + j
decreasing_by all_goals omega

/-- `_patchDiff` as the sequence of remove and add events it emits, in
emission order: removes during the backtrack (descending indices against
the evolving sequence), then adds in ascending order, each at index
`idx - r + j + len - i`. -/
def patchDiffEvents {α : Type} [DecidableEq α] (a b : List α) : List DiffEv :=
  let s := commonPfxLen a b
  if s = a.length ∧ s = b.length then []
  else
    let mn := trimSuf a b s a.length b.length
    let aa := (a.drop s).take (mn.1 - s)
    let bb := (b.drop s).take (mn.2 - s)
    let res := backtrack aa bb aa.length bb.length (aa.length + s) 0 [] []
    (res.1.map DiffEv.rem) ++
      (res.2.1.enum.map fun pe =>
        DiffEv.add (pe.2.1 + s)
          ((pe.2.2.1 : Int) - (res.2.2 : Int) + (pe.2.2.2 : Int) + (pe.1 : Int)))

/-! ### Server data: bundles, event payloads -/

/-- A response/event resource bundle: the `models`, `collections` and
`errors` fields consumed by `_cacheResources`. -/
structure Bundle where
  models : AMap (AMap WireVal) := []
  collections : AMap (List WireVal) := []
  errors : AMap Unit := []
deriving DecidableEq, Repr

/-- The data of a `change` event: the `values` map, together with any
resource bundle riding on the same object (`_handleChangeEvent` hands
the whole event data to `_cacheResources`). -/
structure ChangeData where
  values : AMap WireVal := []
  bundle : Bundle := {}
deriving DecidableEq, Repr

/-- The data of an `add` event. -/
structure AddData where
  value : WireVal
  idx : Nat
  bundle : Bundle := {}
deriving DecidableEq, Repr

/-- The data of a `remove` event. -/
structure RemoveData where
  idx : Nat
deriving DecidableEq, Repr

/-- Inbound event data, by shape. -/
inductive EvData
| change (d : ChangeData)
| add (d : AddData)
| remove (d : RemoveData)
| plain (n : Nat)
deriving DecidableEq, Repr

/-- Payloads of events emitted on the event bus. -/
inductive Payload
| raw (d : EvData)
| changed (old : AMap (Option Value))
| added (v : Value) (idx : Nat)
| removed (v : Option Value) (idx : Nat)
| unsubbed
deriving DecidableEq, Repr

/-- An emission on the event bus: a resource event at
`<namespace>.resource.<rid>.<event>`, or a client-level event. -/
inductive Emit
| resource (rid : String) (event : String) (p : Payload)
| client (event : String)
deriving DecidableEq, Repr

/-! ### Materialization (`_cacheResources` and helpers) -/

/-- A fresh CacheItem as constructed by `new CacheItem(rid, unsubscribe)`. -/
def newCacheItem (rid : String) : CacheItem := { rid := rid }

/-- The create phase `_createItems` for one resource kind: ensure a
CacheItem per rid, un-stale pre-existing ones, set a fresh resource
object (the factory shell) on items without one, flag type
inconsistencies, and split the rids into those to initialize and those
to synchronize (the JS deletes synced/skipped rids from the input so
that `_initItems` skips them). -/
def createItems {δ : Type} (tid : RType) (shell : ResData) :
    ClientState → List (String × δ) → ClientState × List String × List String
| st, [] => (st, [], [])
| st, (rid, _) :: rest =>
  match st.cache.find? rid with
  | none =>
    let st := { st with cache := st.cache.set rid ((newCacheItem rid).setItem shell tid) }
    let out := createItems tid shell st rest
    (out.1, rid :: out.2.1, out.2.2)
  | some ci =>
    let st := removeStale st rid
    match ci.item with
    | some _ =>
      if ci.type ≠ some tid then
        let st := { st with log := st.log ++ ["Resource type inconsistency"] }
        createItems tid shell st rest
      else
        let out := createItems tid shell st rest
        (out.1, out.2.1, rid :: out.2.2)
    | none =>
      let st := { st with cache := st.cache.set rid (ci.setItem shell tid) }
      let out := createItems tid shell st rest
      (out.1, rid :: out.2.1, out.2.2)

/-- `prepareData` on one value: a `{rid}` reference is replaced by the
cached item, bumping its indirect count (a missing cache entry would be
a TypeError in JS); other objects and primitives pass through. -/
def prepareVal (cache : Cache) (v : WireVal) : Except Err (Cache × Value) :=
  match v with
  | WireVal.prim n => Except.ok (cache, Value.prim n)
  | WireVal.ref r =>
    match cache.find? r with
    | none => Except.error Err.missingCacheEntry
    | some ci => Except.ok (cache.set r ci.addIndirect, Value.res r)
  | WireVal.act => Except.ok (cache, Value.other)
  | WireVal.obj => Except.ok (cache, Value.other)

/-- `types.model.prepareData`: resolve every reference field. -/
def prepareModelData : Cache → List (String × WireVal) →
    Except Err (Cache × List (String × Value))
| cache, [] => Except.ok (cache, [])
| cache, (k, v) :: rest => do
  let cv ← prepareVal cache v
  let cfs ← prepareModelData cv.1 rest
  Except.ok (cfs.1, (k, cv.2) :: cfs.2)

/-- `types.collection.prepareData`: resolve every reference element. -/
def prepareCollectionData : Cache → List WireVal →
    Except Err (Cache × List Value)
| cache, [] => Except.ok (cache, [])
| cache, v :: rest => do
  let cv ← prepareVal cache v
  let cvs ← prepareCollectionData cv.1 rest
  Except.ok (cvs.1, cv.2 :: cvs.2)

/-- The init phase `_initItems` for models: prepare the snapshot of each
fresh rid and hand it to the resource object (`__init`). -/
def initModelItems : ClientState → AMap (AMap WireVal) → List String →
    Except Err ClientState
| st, _, [] => Except.ok st
| st, refs, rid :: rest =>
  match refs.find? rid with
  | none => initModelItems st refs rest
  | some dta => do
    let cf ← prepareModelData st.cache dta
    let cache :=
      match cf.1.find? rid with
      | none => cf.1
      | some ci => cf.1.set rid { ci with item := some (ResData.model cf.2) }
    initModelItems { st with cache := cache } refs rest

/-- The init phase for collections. -/
def initCollectionItems : ClientState → AMap (List WireVal) → List String →
    Except Err ClientState
| st, _, [] => Except.ok st
| st, refs, rid :: rest =>
  match refs.find? rid with
  | none => initCollectionItems st refs rest
  | some dta => do
    let cv ← prepareCollectionData st.cache dta
    let cache :=
      match cv.1.find? rid with
      | none => cv.1
      | some ci => cv.1.set rid { ci with item := some (ResData.collection cv.2) }
    initCollectionItems { st with cache := cache } refs rest

/-! ### The change-event bookkeeping (`_handleChangeEvent` helpers) -/

/-- `rm[rid]` gains a removal candidate: `rm.hasOwnProperty(rid) ? rm[rid]++ : rm[rid] = 1`. -/
def rmInc (rm : AMap Int) (rid : String) : AMap Int :=
  match rm.find? rid with
  | some n => rm.set rid (n + 1)
  | none => rm.set rid 1

/-- `rm.hasOwnProperty(rid) ? rm[rid]-- : rm[rid] = -1`. -/
def rmDec (rm : AMap Int) (rid : String) : AMap Int :=
  match rm.find? rid with
  | some n => rm.set rid (n - 1)
  | none => rm.set rid (-1)

/-- The `for (let k in vals)` loop of `_handleChangeEvent`: substitute
delete sentinels by the absent value and references by the cached item
(tallying `-1` in `rm`), throw on other objects, and tally `+1` for each
previous field value that is a resource.  Returns the `rm` tally and the
prepared values (`none` embeds the absent value). -/
def procValues (cache : Cache) (fields : List (String × Value)) :
    List (String × WireVal) → AMap Int → List (String × Option Value) →
    Except Err (AMap Int × List (String × Option Value))
| [], rm, acc => Except.ok (rm, acc.reverse)
| (k, v) :: rest, rm, acc => do
  let nvrm ←
    match v with
    | WireVal.prim n => Except.ok (some (Value.prim n), rm)
    | WireVal.act => Except.ok ((none : Option Value), rm)
    | WireVal.ref r =>
      match cache.find? r with
      | none => Except.error Err.missingCacheEntry
      | some _ => Except.ok (some (Value.res r), rmDec rm r)
    | WireVal.obj => Except.error Err.unsupportedChangeValue
  let rm :=
    match AMap.find? fields k with
    | some (Value.res r) => rmInc nvrm.2 r
    | _ => nvrm.2
  procValues cache fields rest rm ((k, nvrm.1) :: acc)

/-- The `for (let rid in rm)` loop of `_handleChangeEvent`: apply each
accumulated delta with `removeIndirect(r)` and feed positive deltas to
`_tryDelete`.  Also returns, in order, the rids fed to `_tryDelete`. -/
def applyRm : ClientState → List (String × Int) → Except Err (ClientState × List String)
| st, [] => Except.ok (st, [])
| st, (rid, r) :: rest =>
  match st.cache.find? rid with
  | none => Except.error Err.missingCacheEntry
  | some ci =>
    let st := { st with cache := st.cache.set rid (ci.removeIndirectN r) }
    if r > 0 then do
      let out ← applyRm (tryDelete st rid) rest
      Except.ok (out.1, rid :: out.2)
    else applyRm st rest

/-- Modelled from the spec: `ResModel.__update` (src/class/ResModel.js is
not in the sources).  Applies the prepared values in order (an absent
value deletes the field), collecting the old values of the keys that
actually changed; the model emits `change` with those old values when
any key changed. -/
def modelUpdate : List (String × Value) → List (String × Option Value) →
    List (String × Value) × AMap (Option Value)
| fields, [] => (fields, [])
| fields, (k, nv) :: rest =>
  let old := AMap.find? fields k
  let fields2 :=
    match nv with
    | none => AMap.erase fields k
    | some v => AMap.set fields k v
  let out := modelUpdate fields2 rest
  if old ≠ nv then (out.1, (k, old) :: out.2) else out

/-- Modelled from the spec: `ResCollection.__add` inserts at the index
(JS splice clamps an index beyond the end). -/
def collAdd {α : Type} (l : List α) (idx : Nat) (v : α) : List α :=
  l.insertIdx (min idx l.length) v

/-- Modelled from the spec: `ResCollection.__remove` removes and returns
the element at the index. -/
def collRemove {α : Type} (l : List α) (idx : Nat) : List α × Option α :=
  (l.eraseIdx idx, l.get? idx)

/-- The `b` construction of `_syncCollection`: resolve references against
the cache without touching indirect counts. -/
def resolveB (cache : Cache) : List WireVal → Except Err (List Value)
| [] => Except.ok []
| v :: rest => do
  let pv ←
    match v with
    | WireVal.ref r =>
      match cache.find? r with
      | none => Except.error Err.missingCacheEntry
      | some _ => Except.ok (Value.res r)
    | WireVal.prim n => Except.ok (Value.prim n)
    | _ => Except.ok Value.other
  let pvs ← resolveB cache rest
  Except.ok (pv :: pvs)

/-! ### The event pipeline and materialization dispatcher

`_cacheResources`, its sync phase (`_syncModel`, `_syncCollection`) and
the event handlers are mutually recursive in the source (synchronizing a
resource routes synthetic events back through the handlers, which call
`_cacheResources` again).  The family is embedded as one dispatcher over
an explicit call tag, structurally recursive on a fuel that decreases at
every internal call; the JS recursion is bounded by the nesting of
resource bundles, so every theorem below either holds for all fuel or
picks a sufficient one.  Running out of fuel is an embedding artifact
reported as `Err.outOfFuel`. -/

/-- A call into the mutually recursive handler family. -/
inductive Call
| cacheRes (b : Bundle)
| syncMs (refs : AMap (AMap WireVal)) (rids : List String)
| syncCs (refs : AMap (List WireVal)) (rids : List String)
| syncColl (rid : String) (dta : List WireVal)
| applyDiff (rid : String) (dta : List WireVal) (evs : List DiffEv)
| handleCh (rid : String) (d : ChangeData)
| handleAdd (rid : String) (d : AddData)
| handleRem (rid : String) (d : RemoveData)
| handleEv (name : String) (d : EvData)
deriving Repr

/-- `_handleUnsubscribeEvent`: clear the subscribed flag, classify for
eviction or staling, emit `unsubscribe`. -/
def handleUnsubscribeEvent (st : ClientState) (rid : String) :
    ClientState × List Emit :=
  match st.cache.find? rid with
  | none => (st, [])
  | some ci =>
    let st := { st with cache := st.cache.set rid (ci.setSubscribed false) }
    let st := tryDelete st rid
    (st, [Emit.resource rid "unsubscribe" Payload.unsubbed])

/-- Index of the last `.` in a character list (JS `lastIndexOf('.')`). -/
def lastDotIdx : List Char → Option Nat
| [] => none
| c :: rest =>
  match lastDotIdx rest with
  | some i => some (i + 1)
  | none => if c = '.' then some 0 else none

/-- The event-name split of `_handleEvent`: split at the last `.` into
rid and event name; no dot, or a trailing dot, is malformed. -/
def splitEventName (s : String) : Option (String × String) :=
  let cs := s.toList
  match lastDotIdx cs with
  | none => none
  | some idx =>
    if idx = cs.length - 1 then none
    else some (⟨cs.take idx⟩, ⟨cs.drop (idx + 1)⟩)

/-- The handler-family dispatcher; see the section comment.  Returns the
new state, the emissions in order, and the `handled` flag of the event
handlers. -/
def exec : Nat → Call → ClientState → Except Err (ClientState × List Emit × Bool)
| 0, _, _ => Except.error Err.outOfFuel
| fuel + 1, c, st =>
  match c with
  | Call.cacheRes b =>
    -- create phase, in resourceTypes order: model, collection, error
    let oM := createItems RType.model (ResData.model []) st b.models
    let oC := createItems RType.collection (ResData.collection []) oM.1 b.collections
    let oE := createItems RType.err ResData.errData oC.1 b.errors
    do
      -- init phase (error resources carry no references)
      let st ← initModelItems oE.1 b.models oM.2.1
      let st ← initCollectionItems st b.collections oC.2.1
      -- sync phase
      let r1 ← exec fuel (Call.syncMs b.models oM.2.2) st
      let r2 ← exec fuel (Call.syncCs b.collections oC.2.2) r1.1
      Except.ok (r2.1, r1.2.1 ++ r2.2.1, true)
  | Call.syncMs refs rids =>
    match rids with
    | [] => Except.ok (st, [], true)
    | rid :: rest =>
      match refs.find? rid with
      | none => exec fuel (Call.syncMs refs rest) st
      | some dta => do
        let r1 ← exec fuel (Call.handleCh rid { values := dta }) st
        let r2 ← exec fuel (Call.syncMs refs rest) r1.1
        Except.ok (r2.1, r1.2.1 ++ r2.2.1, true)
  | Call.syncCs refs rids =>
    match rids with
    | [] => Except.ok (st, [], true)
    | rid :: rest =>
      match refs.find? rid with
      | none => exec fuel (Call.syncCs refs rest) st
      | some dta => do
        let r1 ← exec fuel (Call.syncColl rid dta) st
        let r2 ← exec fuel (Call.syncCs refs rest) r1.1
        Except.ok (r2.1, r1.2.1 ++ r2.2.1, true)
  | Call.syncColl rid dta =>
    match st.cache.find? rid with
    | none => Except.error Err.missingCacheEntry
    | some ci =>
      let a :=
        match ci.item with
        | some (ResData.collection es) => es
        | _ => []
      do
        let b ← resolveB st.cache dta
        exec fuel (Call.applyDiff rid dta (patchDiffEvents a b)) st
  | Call.applyDiff rid dta evs =>
    match evs with
    | [] => Except.ok (st, [], true)
    | DiffEv.rem idx :: rest => do
      let r1 ← exec fuel (Call.handleRem rid ⟨idx⟩) st
      let r2 ← exec fuel (Call.applyDiff rid dta rest) r1.1
      Except.ok (r2.1, r1.2.1 ++ r2.2.1, true)
    | DiffEv.add n idx :: rest =>
      match dta.get? n with
      | none => Except.error Err.missingCacheEntry
      | some v => do
        let r1 ← exec fuel (Call.handleAdd rid ⟨v, idx.toNat, {}⟩) st
        let r2 ← exec fuel (Call.applyDiff rid dta rest) r1.1
        Except.ok (r2.1, r1.2.1 ++ r2.2.1, true)
  | Call.handleCh rid d =>
    match st.cache.find? rid with
    | none => Except.error Err.missingCacheEntry
    | some ci =>
      if ci.type ≠ some RType.model then Except.ok (st, [], false)
      else do
        let rB ← exec fuel (Call.cacheRes d.bundle) st
        let st := rB.1
        -- re-read the item: the bundle may have synchronized this model
        let fields :=
          match (st.cache.find? rid).bind (fun ci2 => ci2.item) with
          | some (ResData.model fs) => fs
          | _ => []
        let rv ← procValues st.cache fields d.values [] []
        let ar ← applyRm st rv.1
        let st := ar.1
        let upd := modelUpdate fields rv.2
        let st :=
          match st.cache.find? rid with
          | some ci3 =>
            { st with cache := st.cache.set rid { ci3 with item := some (ResData.model upd.1) } }
          | none => st
        let em := if upd.2 ≠ [] then [Emit.resource rid "change" (Payload.changed upd.2)] else []
        Except.ok (st, rB.2.1 ++ em, true)
  | Call.handleAdd rid d =>
    match st.cache.find? rid with
    | none => Except.error Err.missingCacheEntry
    | some ci =>
      if ci.type ≠ some RType.collection then Except.ok (st, [], false)
      else
        let cont := fun (st : ClientState) (emB : List Emit) (v : Value) =>
          let elems :=
            match (st.cache.find? rid).bind (fun ci2 => ci2.item) with
            | some (ResData.collection es) => es
            | _ => []
          let elems2 := collAdd elems d.idx v
          let st :=
            match st.cache.find? rid with
            | some ci3 =>
              { st with cache := st.cache.set rid { ci3 with item := some (ResData.collection elems2) } }
            | none => st
          Except.ok (st, emB ++ [Emit.resource rid "add" (Payload.added v d.idx)], true)
        match d.value with
        | WireVal.ref r => do
          let rB ← exec fuel (Call.cacheRes d.bundle) st
          match rB.1.cache.find? r with
          | none => Except.error Err.missingCacheEntry
          | some rci =>
            cont { rB.1 with cache := rB.1.cache.set r rci.addIndirect } rB.2.1 (Value.res r)
        | WireVal.prim n => cont st [] (Value.prim n)
        | WireVal.act => cont st [] Value.other
        | WireVal.obj => cont st [] Value.other
  | Call.handleRem rid d =>
    match st.cache.find? rid with
    | none => Except.error Err.missingCacheEntry
    | some ci =>
      if ci.type ≠ some RType.collection then Except.ok (st, [], false)
      else
        let elems :=
          match ci.item with
          | some (ResData.collection es) => es
          | _ => []
        let rem := collRemove elems d.idx
        let st := { st with cache := st.cache.set rid { ci with item := some (ResData.collection rem.1) } }
        let em := [Emit.resource rid "remove" (Payload.removed rem.2 d.idx)]
        match rem.2 with
        | some (Value.res r) =>
          match st.cache.find? r with
          | none => Except.error Err.removedModelNotInCache
          | some rci =>
            let st := { st with cache := st.cache.set r rci.removeIndirect }
            Except.ok (tryDelete st r, em, true)
        | _ => Except.ok (st, em, true)
  | Call.handleEv name d =>
    match splitEventName name with
    | none => Except.error Err.malformedEventName
    | some rn =>
      match st.cache.find? rn.1 with
      | none => Except.error Err.notFoundInCache
      | some _ => do
        let r1 ←
          if rn.2 = "change" then
            match d with
            | EvData.change cd => exec fuel (Call.handleCh rn.1 cd) st
            | _ => Except.error Err.invalidMessage
          else if rn.2 = "add" then
            match d with
            | EvData.add ad => exec fuel (Call.handleAdd rn.1 ad) st
            | _ => Except.error Err.invalidMessage
          else if rn.2 = "remove" then
            match d with
            | EvData.remove rd => exec fuel (Call.handleRem rn.1 rd) st
            | _ => Except.error Err.invalidMessage
          else if rn.2 = "unsubscribe" then
            let r := handleUnsubscribeEvent st rn.1
            Except.ok (r.1, r.2, true)
          else Except.ok (st, [], false)
        if r1.2.2 then Except.ok r1
        else Except.ok (r1.1, r1.2.1 ++ [Emit.resource rn.1 rn.2 (Payload.raw d)], true)

/-! ### The request multiplexer (`_sendNow`, `_receive`, `_handleOnclose`) -/

/-- A stored outstanding request (`this.requests[id]`); the resolver and
rejecter pair is represented by the settlement lists the functions below
produce. -/
structure StoredReq where
  method : String
deriving DecidableEq, Repr

/-- Lookup in the request table. -/
def lookupReq : List (Nat × StoredReq) → Nat → Option StoredReq
| [], _ => none
| (k, v) :: rest, id => if k = id then some v else lookupReq rest id

/-- `delete this.requests[id]`. -/
def eraseReq : List (Nat × StoredReq) → Nat → List (Nat × StoredReq)
| [], _ => []
| (k, v) :: rest, id => if k = id then rest else (k, v) :: eraseReq rest id

/-- The whole client state: coordinator state plus the multiplexer's
request table and id counter. -/
structure FullState where
  cs : ClientState := {}
  requests : List (Nat × StoredReq) := []
  reqId : Nat := 1
deriving DecidableEq, Repr

/-- The body of a response frame: a `result` (a resource bundle for the
subscribe-shaped calls) or an `error`. -/
inductive RespBody
| result (b : Bundle)
| errBody
deriving DecidableEq, Repr

/-- A settlement of an outstanding request promise. -/
inductive Outcome
| resolved (b : Bundle)
| rejected
deriving DecidableEq, Repr

/-- `_sendNow`: allocate the next id, store the request, frame it.
Returns the new state and the id. -/
def sendNow (fs : FullState) (method : String) : FullState × Nat :=
  ({ fs with
      reqId := fs.reqId + 1,
      requests := fs.requests ++ [(fs.reqId, ⟨method⟩)] },
   fs.reqId)

/-- An inbound message (`_receive` after JSON parsing). -/
inductive Msg
| response (id : Nat) (body : RespBody)
| event (name : String) (d : EvData)
| invalid
deriving Repr

/-- `_receive`: correlate responses by id (throw on a missing entry, an
error body emits a client `error` event and rejects, a result resolves),
route events to `_handleEvent`, throw on anything else. -/
def receiveMsg (fuel : Nat) (fs : FullState) (m : Msg) :
    Except Err (FullState × List Emit × List (Nat × Outcome)) :=
  match m with
  | Msg.invalid => Except.error Err.invalidMessage
  | Msg.response id body =>
    match lookupReq fs.requests id with
    | none => Except.error Err.noMatchingRequest
    | some _ =>
      let fs := { fs with requests := eraseReq fs.requests id }
      match body with
      | RespBody.errBody =>
        Except.ok (fs, [Emit.client "error"], [(id, Outcome.rejected)])
      | RespBody.result b => Except.ok (fs, [], [(id, Outcome.resolved b)])
  | Msg.event name d => do
    let r ← exec fuel (Call.handleEv name d) fs.cs
    Except.ok ({ fs with cs := r.1 }, r.2.1, [])

/-- The subscribed-items loop of `_handleOnclose`: each still-subscribed
cache entry is unsubscribed, put in the stale set and classified.  JS
iterates the live object; entries deleted by a cascade before being
visited are skipped, so the loop runs over the initial key list
re-checking presence. -/
def oncloseLoop : ClientState → List String → ClientState
| st, [] => st
| st, rid :: rest =>
  let st :=
    match st.cache.find? rid with
    | none => st
    | some ci =>
      if ci.subscribed then
        let st := { st with cache := st.cache.set rid (ci.setSubscribed false) }
        let st := addStale st rid
        tryDelete st rid
      else st
  oncloseLoop st rest

/-- `_handleOnclose`: on a connected close, stale every subscribed item
and emit `close`; the request table is left untouched. -/
def handleOnclose (fs : FullState) : FullState × List Emit :=
  if fs.cs.connected then
    let cs := { fs.cs with connected := false }
    let cs := oncloseLoop cs (cs.cache.keys)
    ({ fs with cs := cs }, [Emit.client "close"])
  else (fs, [])

/-- A multiplexer-level execution step for request-lifecycle claims. -/
inductive MuxOp
| send (method : String)
| response (id : Nat) (body : RespBody)
| close
deriving Repr

/-- Run a sequence of multiplexer operations, collecting every promise
settlement.  A response whose id has no stored request throws in JS,
ending that handler turn without settling anything; the run continues
with the next inbound operation. -/
def runMux : FullState → List MuxOp → FullState × List (Nat × Outcome)
| fs, [] => (fs, [])
| fs, MuxOp.send mth :: rest => runMux (sendNow fs mth).1 rest
| fs, MuxOp.response id body :: rest =>
  match lookupReq fs.requests id with
  | none => runMux fs rest
  | some _ =>
    let fs2 := { fs with requests := eraseReq fs.requests id }
    let oc :=
      match body with
      | RespBody.result b => Outcome.resolved b
      | RespBody.errBody => Outcome.rejected
    let out := runMux fs2 rest
    (out.1, (id, oc) :: out.2)
| fs, MuxOp.close :: rest => runMux fs rest

/-! ### The `get` path on a cache miss (`get`, `_subscribe`,
`_handleFailedSubscribe`) -/

/-- A settlement of the promise returned by `get`. -/
inductive GetOutcome
| resolvedItem
| rejectedErr
deriving DecidableEq, Repr

/-- `get(rid)` on a cache miss: create a CacheItem, then `_subscribe`
(set subscribed, un-stale, send `subscribe.<rid>`).  Returns the new
state and the request id. -/
def getUncachedTurn (fs : FullState) (rid : String) : FullState × Nat :=
  let cs := { fs.cs with cache := fs.cs.cache.set rid (newCacheItem rid) }
  let cs := { cs with
    cache := cs.cache.set rid ((newCacheItem rid).setSubscribed true) }
  let cs := removeStale cs rid
  sendNow { fs with cs := cs } ("subscribe." ++ rid)

/-- The turn in which an error response settles the subscribe request
issued by `get`: `_handleErrorResponse` emits a client `error` event and
rejects the call promise; the rejection runs `_subscribe`'s catch
(`_handleFailedSubscribe`: clear subscribed, classify for eviction) and,
with `throwError` set, rethrows so the promise `get` returned rejects.
Returns the state, the emissions, and the settlements of the `get`
promise. -/
def subscribeFailureTurn (fs : FullState) (id : Nat) (rid : String) :
    Option (FullState × List Emit × List GetOutcome) :=
  match lookupReq fs.requests id with
  | none => none
  | some _ =>
    let fs := { fs with requests := eraseReq fs.requests id }
    let cs :=
      match fs.cs.cache.find? rid with
      | none => fs.cs
      | some ci =>
        tryDelete { fs.cs with cache := fs.cs.cache.set rid (ci.setSubscribed false) } rid
    some ({ fs with cs := cs }, [Emit.client "error"], [GetOutcome.rejectedErr])

/-- The create phase of `_cacheResources`, exactly as run by the
dispatcher: models, then collections, then errors. -/
def createPhase (st : ClientState) (b : Bundle) : ClientState :=
  (createItems RType.err ResData.errData
    (createItems RType.collection (ResData.collection [])
      (createItems RType.model (ResData.model []) st b.models).1 b.collections).1
    b.errors).1

/-! ### Derived notions used to state the claims -/

/-- A rid is cached and not subscribed (the items the reference-state
traversals descend into). -/
def isNonSub (cache : Cache) (rid : String) : Bool :=
  match cache.find? rid with
  | some ci => !ci.subscribed
  | none => false

/-- The still-cached children of a cached rid (empty for an uncached one). -/
def childRidsOf (cache : Cache) (rid : String) : List String :=
  match cache.find? rid with
  | some ci => childRids cache ci
  | none => []

/-- The referenced rids of a cached rid without the cache filter. -/
def rawChildRidsOf (cache : Cache) (rid : String) : List String :=
  match cache.find? rid with
  | some ci => rawRids ci
  | none => []

/-- The number of reference edges into `x` whose source is in `srcs`
(edges counted with multiplicity, through the cache filter the
traversals use). -/
def edgesInto (cache : Cache) (srcs : List String) (x : String) : Nat :=
  (srcs.map fun y => (childRidsOf cache y).count x).sum

/-- Reachability from `x` through reference edges whose intermediate
sources are cached and not subscribed, ending at a cached non-subscribed
rid: the subgraph the `_seekRefs` pass explores. -/
inductive NSReach (cache : Cache) (x : String) : String → Prop
| refl : NSReach cache x x
| tail (y z : String) (hy : NSReach cache x y) (hyns : isNonSub cache y = true)
    (hz : z ∈ childRidsOf cache y) (hzns : isNonSub cache z = true) :
    NSReach cache x z

/-- The recorded state of a rid in a reference map (`tsNone` when absent). -/
def stOf (refs : RefMap) (rid : String) : TState :=
  match refs.find? rid with
  | some r => r.st
  | none => TState.tsNone

/-- The recorded reference count of a rid, defaulting to the cache
item's indirect count when the rid has not been visited yet (a first
visit turns `indirect` into `indirect - 1`, so every visit uniformly
decrements this quantity by one). -/
def tvalOf (cache : Cache) (refs : RefMap) (rid : String) : Int :=
  match refs.find? rid with
  | some r => r.rc
  | none =>
    match cache.find? rid with
    | some ci => ci.indirect
    | none => 0

/-- The number of cached non-subscribed rids not yet in the reference
map: an upper bound on the nesting of `_seekRefs` descends. -/
def unvisitedCnt (cache : Cache) (refs : RefMap) : Nat :=
  ((cache.keys).filter fun k =>
    isNonSub cache k && !(AMap.contains refs k)).length

/-- The rank of a traverse state in the `_markDelete` progression:
states only ever advance, and each descend advances one. -/
def tsRank : TState → Nat
| TState.tsNone => 0
| TState.tsDelete => 1
| TState.tsStale => 1
| TState.tsKeep => 2

/-- The total rank of a reference map. -/
def rankSum (refs : RefMap) : Nat :=
  (refs.map fun kv => tsRank kv.2.st).sum

/-- The cached non-subscribed children of a rid: the children relevant
to the reference-state classification. -/
def childrenRel (cache : Cache) (rid : String) : List String :=
  (childRidsOf cache rid).filter fun z => isNonSub cache z

/-- The client-state operations of the modelled handlers, for invariant
claims: classification (`_tryDelete`), any handler-family call, the
close handler loop, the `_subscribe` front half, the cache-miss `get`
front half, and `_handleFailedSubscribe`. -/
inductive CStep : ClientState → ClientState → Prop
| tryDel (st : ClientState) (rid : String) : CStep st (tryDelete st rid)
| execStep (fuel : Nat) (c : Call) (st : ClientState)
    (r : ClientState × List Emit × Bool) (h : exec fuel c st = Except.ok r) :
    CStep st r.1
| onclose (st : ClientState) :
    CStep st (oncloseLoop { st with connected := false } (AMap.keys st.cache))
| subStart (st : ClientState) (rid : String) (ci : CacheItem)
    (h : st.cache.find? rid = some ci) :
    CStep st (removeStale { st with cache := st.cache.set rid (ci.setSubscribed true) } rid)
| getMiss (st : ClientState) (rid : String) (h : st.cache.find? rid = none) :
    CStep st (removeStale
      { st with cache := st.cache.set rid ((newCacheItem rid).setSubscribed true) } rid)
| failedSub (st : ClientState) (rid : String) (ci : CacheItem)
    (h : st.cache.find? rid = some ci) :
    CStep st (tryDelete { st with cache := st.cache.set rid (ci.setSubscribed false) } rid)

/-- The stale-set invariant of the claims: no duplicate stale entries,
and every stale rid has a cache entry. -/
def StaleInv (st : ClientState) : Prop :=
  st.stale.Nodup ∧ ∀ rid ∈ st.stale, (st.cache.find? rid).isSome = true

/-- Well-formedness of the multiplexer state: stored ids are below the
counter and pairwise distinct. -/
def MuxWF (fs : FullState) : Prop :=
  (∀ p ∈ fs.requests, p.1 < fs.reqId) ∧ (fs.requests.map Prod.fst).Nodup

/-- How often a given request id is settled in an output trace. -/
def countSettle (out : List (Nat × Outcome)) (id : Nat) : Nat :=
  (out.filter fun p => p.1 = id).length

/-- The number of changed keys whose new value is a reference to `r`. -/
def countNewRefs (vs : List (String × WireVal)) (r : String) : Nat :=
  (vs.filter fun kv => kv.2 = WireVal.ref r).length

/-- The number of changed keys whose previous field value is the
resource `r`. -/
def countOldRefs (fields : List (String × Value)) (vs : List (String × WireVal))
    (r : String) : Nat :=
  (vs.filter fun kv => AMap.find? fields kv.1 = some (Value.res r)).length

/-! ### Canonical form of the diff backtrack, and event application -/

/-- The backtrack of `_patchDiff` without its accumulators: the removed
positions of `aa` (in emission order, descending) and the pushed adds
`(w, i, remBelow)` (in push order): the position `w` of `bb` being
added, the value of `i` at the push, and the number of removes the rest
of the backtrack will emit. -/
def btSpec {α : Type} [DecidableEq α] (aa bb : List α) :
    Nat → Nat → List Nat × List (Nat × Nat × Nat)
| i, j =>
  if h1 : 0 < i ∧ 0 < j ∧ aa.get? (i - 1) = bb.get? (j - 1) then
    btSpec aa bb (i - 1) (j - 1)
  else if h2 : 0 < j ∧ (i = 0 ∨ lcsC aa bb i (j - 1) ≥ lcsC aa bb (i - 1) j) then
    let o := btSpec aa bb i (j - 1)
    (o.1, (j - 1, i, o.1.length) :: o.2)
  else if _h3 : 0 < i ∧ (j = 0 ∨ lcsC aa bb i (j - 1) < lcsC aa bb (i - 1) j) then
    let o := btSpec aa bb (i - 1) j
    ((i - 1) :: o.1, o.2)
  else ([], [])
termination_by i j => i + j
decreasing_by all_goals omega

/-- Drop the elements of `l` whose position (counted from `k`) is in `P`. -/
def dropPosFrom {α : Type} (k : Nat) : List α → List Nat → List α
| [], _ => []
| x :: xs, P => if k ∈ P then dropPosFrom (k + 1) xs P else x :: dropPosFrom (k + 1) xs P

/-- Apply the events `_patchDiff` emits, in order, to a copy of the
sequence: a remove erases its index, an add inserts element `n` of the
new sequence at its index (`_handleAddEvent` re-reads `data[n]`). -/
def applyDiffEvs {α : Type} (b : List α) : List α → List DiffEv → List α
| l, [] => l
| l, DiffEv.rem idx :: rest => applyDiffEvs b (l.eraseIdx idx) rest
| l, DiffEv.add n idx :: rest =>
  applyDiffEvs b
    (match b.get? n with
     | some v => l.insertIdx idx.toNat v
     | none => l) rest

/-! ### Canonical-form predicates for the pushed adds -/

/-- Well-formedness of the pushed adds in push order: each entry
`(w, iat, rA)` satisfies `w = (iat - rA) + (number of later pushes)`. -/
def addsWF : List (Nat × Nat × Nat) → Prop
| [] => True
| t :: rest => t.2.2 ≤ t.2.1 ∧ t.1 = t.2.1 - t.2.2 + rest.length ∧ addsWF rest

/-- The same property indexed by emission position. -/
def addsEm : Nat → List (Nat × Nat × Nat) → Prop
| _, [] => True
| p, t :: rest => t.2.2 ≤ t.2.1 ∧ t.1 = t.2.1 - t.2.2 + p ∧ addsEm (p + 1) rest



/-! ### Reference-graph notions for the reference-state engine -/

instance {β : Type} : Membership (String × β) (AMap β) :=
  inferInstanceAs (Membership (String × β) (List (String × β)))

def flatChildren (cache : Cache) : List String → List String
| [] => []
| p :: ps =>
  (match cache.find? p with
   | some ci => childRids cache ci
   | none => []) ++ flatChildren cache ps

/-- The effect of a `_seekRefs` fold over a worklist `W`: some list `D`
of fresh rids (cached, non-subscribed) is adjoined, every old entry's
`rc` drops by the number of processed edges into it, every new entry
holds its item's indirect count minus the processed edges into it, and
every processed edge target is uncached, subscribed, or in the final
key set.  The processed edges are `W` plus the child lists of `D`. -/
def SeekSpec (cache : Cache) (refs : RefMap) (W : List String) (out : RefMap) :
    Prop :=
  ∃ D : List String,
    (AMap.keys refs ++ D).Nodup ∧
    AMap.keys out = AMap.keys refs ++ D ∧
    (∀ d ∈ D, ∃ cd, cache.find? d = some cd ∧ cd.subscribed = false) ∧
    (∀ x e, AMap.find? refs x = some e →
      AMap.find? out x =
        some ⟨e.rc - (List.count x (W ++ flatChildren cache D) : Int), e.st⟩) ∧
    (∀ x ∈ D, ∃ cx, cache.find? x = some cx ∧
      AMap.find? out x =
        some ⟨(cx.indirect : Int) - (List.count x (W ++ flatChildren cache D) : Int),
              TState.tsNone⟩) ∧
    (∀ x ∈ W ++ flatChildren cache D,
      cache.find? x = none ∨
      (∃ cx, cache.find? x = some cx ∧ cx.subscribed = true) ∨
      x ∈ AMap.keys refs ++ D)

/-- The first traversal of `_getRefState`: the seeded reference map after
the `_seekRefs` pass over the root's children (the `skipFirst` traverse). -/
def seekPass (cache : Cache) (root : String) (ci : CacheItem) : RefMap :=
  (childRids cache ci).foldl (seekVisit cache (seekFuel cache))
    [(root, ⟨ci.indirect, TState.tsNone⟩)]

/-- Rank of a traverse state: `_markDelete` only moves states upward
(none to delete/stale/keep, delete/stale to keep). -/
def rank : TState → Nat
| TState.tsNone => 0
| TState.tsDelete => 1
| TState.tsStale => 1
| TState.tsKeep => 2

/-- The potential of a reference map: total remaining rank headroom.
Every descend of the mark pass strictly decreases it. -/
def markPot (refs : RefMap) : Nat :=
  (refs.map (fun kv => 2 - rank kv.2.st)).sum

/-- A state that covers its children: `stateKeep` or `stateStale`. -/
def covering (s : TState) : Prop :=
  s = TState.tsKeep ∨ s = TState.tsStale

instance (s : TState) : Decidable (covering s) := by
  unfold covering; infer_instance

/-- Rids reachable from the root through cached non-subscribed items:
the resources examined by `_getRefState`'s traversals. -/
inductive Reach (cache : Cache) (root : String) : String → Prop
| base : Reach cache root root
| step {p c : String} {cp : CacheItem} : Reach cache root p →
    cache.find? p = some cp → cp.subscribed = false →
    c ∈ childRids cache cp → Reach cache root c

/-- The token invariant of the mark pass: a stale-root token handed to
children always names an entry already marked keep or stale. -/
def TokInv (refs : RefMap) (pst : MState) : Prop :=
  ∀ t, pst = MState.mtoken t →
    ∃ rt, AMap.find? refs t = some rt ∧ covering rt.st

/-- Pointwise relation between a reference map and the result of mark
visits: keys and rc values unchanged, states only move up in rank, and a
delete state is only ever assigned to a formerly unmarked entry of a
cached unsubscribed item with no direct listeners and no external
references. -/
def MarkPtw (cache : Cache) (refs refs' : RefMap) : Prop :=
  AMap.keys refs' = AMap.keys refs ∧
  markPot refs' ≤ markPot refs ∧
  ∀ k r', AMap.find? refs' k = some r' → ∃ r, AMap.find? refs k = some r ∧
    r'.rc = r.rc ∧ rank r.st ≤ rank r'.st ∧
    (covering r.st → covering r'.st) ∧
    (r'.st = TState.tsDelete → r.st = TState.tsDelete ∨
      (r.st = TState.tsNone ∧ ∃ ck, cache.find? k = some ck ∧
        ck.subscribed = false ∧ ck.direct = 0 ∧ r.rc ≤ 0))

/-- Settlement of state rises: whenever a complete mark visit raises an
entry into the class `P`, the children of that entry (those tracked by
the map) are in `P` afterwards as well. -/
def RiseSettled (cache : Cache) (P : TState → Prop) (refs refs' : RefMap) : Prop :=
  ∀ q rq rq', AMap.find? refs q = some rq → ¬ P rq.st →
    AMap.find? refs' q = some rq' → P rq'.st →
    ∀ cq, cache.find? q = some cq → ∀ c ∈ childRids cache cq,
    ∀ cc, cache.find? c = some cc → cc.subscribed = false →
    c ∈ AMap.keys refs →
    ∃ rc1, AMap.find? refs' c = some rc1 ∧ P rc1.st

/-- The full postcondition of one mark visit. -/
def MarkPost (cache : Cache) (refs refs' : RefMap) (pst : MState) (rid : String) : Prop :=
  MarkPtw cache refs refs' ∧
  (∀ r0, AMap.find? refs rid = some r0 → ∀ ci, cache.find? rid = some ci →
    ci.subscribed = false → ∃ r', AMap.find? refs' rid = some r' ∧
      r'.st ≠ TState.tsNone ∧ ∀ t, pst = MState.mtoken t → covering r'.st) ∧
  RiseSettled cache covering refs refs' ∧
  RiseSettled cache (fun s => s ≠ TState.tsNone) refs refs'

/-- A concrete cache for exercising the reference-state engine: `a`
references `b`, the subscribed item `c` also references `b`, and `b`
carries the matching indirect count of 2. -/
def c2A : CacheItem :=
  { rid := "a", type := some RType.model,
    item := some (ResData.model [("f", Value.res "b")]),
    direct := 0, indirect := 0, subscribed := false }

def c2B : CacheItem :=
  { rid := "b", type := some RType.model,
    item := some (ResData.model []),
    direct := 0, indirect := 2, subscribed := false }

def c2C : CacheItem :=
  { rid := "c", type := some RType.model,
    item := some (ResData.model [("g", Value.res "b")]),
    direct := 0, indirect := 0, subscribed := true }

def c2Cache : Cache := [("a", c2A), ("b", c2B), ("c", c2C)]

/-- A two-item cache where `a` references `b` and nothing else holds
references: `_tryDelete a` evicts both. -/
def c1A : CacheItem :=
  { rid := "a", type := some RType.model,
    item := some (ResData.model [("f", Value.res "b")]),
    direct := 0, indirect := 0, subscribed := false }

def c1B : CacheItem :=
  { rid := "b", type := some RType.model,
    item := some (ResData.model []),
    direct := 0, indirect := 1, subscribed := false }

def c1St : ClientState :=
  { cache := [("a", c1A), ("b", c1B)], stale := [], connected := true, log := [] }

/-! ## Lemmas: association maps -/

namespace AMap

theorem find?_cons {β : Type} (k1 k : String) (w : β) (rest : AMap β) :
    AMap.find? ((k1, w) :: rest) k = if k1 = k then some w else AMap.find? rest k := rfl

theorem set_cons {β : Type} (k1 k : String) (w v : β) (rest : AMap β) :
    AMap.set ((k1, w) :: rest) k v =
      if k1 = k then (k1, v) :: rest else (k1, w) :: AMap.set rest k v := rfl

theorem erase_cons {β : Type} (k1 k : String) (w : β) (rest : AMap β) :
    AMap.erase ((k1, w) :: rest) k =
      if k1 = k then rest else (k1, w) :: AMap.erase rest k := rfl

theorem keys_cons {β : Type} (k1 : String) (w : β) (rest : AMap β) :
    AMap.keys ((k1, w) :: rest) = k1 :: AMap.keys rest := rfl

theorem find?_set_self {β : Type} (m : AMap β) (k : String) (v : β) :
    (m.set k v).find? k = some v := by
  induction m with
  | nil => simp [AMap.set, AMap.find?]
  | cons kv rest ih =>
    obtain ⟨k1, w⟩ := kv
    by_cases h : k1 = k
    · subst h; rw [set_cons]; simp [find?_cons]
    · rw [set_cons, if_neg h, find?_cons, if_neg h]; exact ih

theorem find?_set_ne {β : Type} (m : AMap β) {k k2 : String} (v : β) (h : k2 ≠ k) :
    (m.set k v).find? k2 = m.find? k2 := by
  induction m with
  | nil =>
    have hne : ¬(k = k2) := fun hh => h hh.symm
    simp [AMap.set, AMap.find?, hne]
  | cons kv rest ih =>
    obtain ⟨k1, w⟩ := kv
    by_cases h1 : k1 = k
    · subst h1
      have hne : ¬(k1 = k2) := fun hh => h hh.symm
      rw [set_cons, if_pos rfl, find?_cons, if_neg hne, find?_cons, if_neg hne]
    · rw [set_cons, if_neg h1, find?_cons, find?_cons]
      by_cases h2 : k1 = k2
      · rw [if_pos h2, if_pos h2]
      · rw [if_neg h2, if_neg h2]; exact ih

theorem keys_set_of_isSome {β : Type} (m : AMap β) (k : String) (v : β)
    (h : (m.find? k).isSome = true) : (m.set k v).keys = m.keys := by
  induction m with
  | nil => simp [AMap.find?] at h
  | cons kv rest ih =>
    obtain ⟨k1, w⟩ := kv
    by_cases h1 : k1 = k
    · subst h1; rw [set_cons, if_pos rfl, keys_cons, keys_cons]
    · rw [find?_cons, if_neg h1] at h
      rw [set_cons, if_neg h1, keys_cons, keys_cons, ih h]

theorem keys_set_of_none {β : Type} (m : AMap β) (k : String) (v : β)
    (h : m.find? k = none) : (m.set k v).keys = m.keys ++ [k] := by
  induction m with
  | nil => simp [AMap.set, AMap.keys]
  | cons kv rest ih =>
    obtain ⟨k1, w⟩ := kv
    by_cases h1 : k1 = k
    · subst h1; rw [find?_cons, if_pos rfl] at h; exact absurd h (by simp)
    · rw [find?_cons, if_neg h1] at h
      rw [set_cons, if_neg h1, keys_cons, keys_cons, ih h]; rfl

theorem mem_keys_iff_isSome {β : Type} (m : AMap β) (k : String) :
    k ∈ m.keys ↔ (m.find? k).isSome = true := by
  induction m with
  | nil => simp [AMap.keys, AMap.find?]
  | cons kv rest ih =>
    obtain ⟨k1, w⟩ := kv
    rw [keys_cons, find?_cons, List.mem_cons]
    by_cases h1 : k1 = k
    · subst h1; simp
    · have hne : ¬(k = k1) := fun hh => h1 hh.symm
      simp [h1, hne, ih]

theorem find?_erase_ne {β : Type} (m : AMap β) {k k2 : String} (h : k2 ≠ k) :
    (m.erase k).find? k2 = m.find? k2 := by
  induction m with
  | nil => simp [AMap.erase, AMap.find?]
  | cons kv rest ih =>
    obtain ⟨k1, w⟩ := kv
    by_cases h1 : k1 = k
    · subst h1
      have hne : ¬(k1 = k2) := fun hh => h hh.symm
      rw [erase_cons, if_pos rfl, find?_cons, if_neg hne]
    · rw [erase_cons, if_neg h1, find?_cons, find?_cons]
      by_cases h2 : k1 = k2
      · rw [if_pos h2, if_pos h2]
      · rw [if_neg h2, if_neg h2]; exact ih

theorem find?_none_of_not_mem_keys {β : Type} (m : AMap β) (k : String)
    (h : k ∉ m.keys) : m.find? k = none := by
  cases hf : m.find? k with
  | none => rfl
  | some v => exact absurd ((mem_keys_iff_isSome m k).2 (by simp [hf])) h

theorem find?_erase_self {β : Type} (m : AMap β) (k : String) (hnd : m.keys.Nodup) :
    (m.erase k).find? k = none := by
  induction m with
  | nil => simp [AMap.erase, AMap.find?]
  | cons kv rest ih =>
    obtain ⟨k1, w⟩ := kv
    rw [keys_cons, List.nodup_cons] at hnd
    by_cases h1 : k1 = k
    · subst h1
      rw [erase_cons, if_pos rfl]
      exact find?_none_of_not_mem_keys rest k1 hnd.1
    · rw [erase_cons, if_neg h1, find?_cons, if_neg h1]
      exact ih hnd.2

theorem keys_nodup_set {β : Type} (m : AMap β) (k : String) (v : β)
    (hnd : m.keys.Nodup) : (m.set k v).keys.Nodup := by
  by_cases h : (m.find? k).isSome = true
  · rw [keys_set_of_isSome m k v h]; exact hnd
  · have h2 : m.find? k = none := by
      cases hf : m.find? k
      · rfl
      · rw [hf] at h; simp at h
    rw [keys_set_of_none m k v h2]
    rw [List.nodup_append]
    refine ⟨hnd, List.nodup_singleton k, ?_⟩
    intro x hx hx2
    simp at hx2
    subst hx2
    rw [mem_keys_iff_isSome, h2] at hx
    simp at hx

end AMap

/-! ## C10: events addressed to a resource of the wrong kind -/

/-- C10: an inbound `change` event addressed to a cached resource whose
type is not model, and an `add` or `remove` event addressed to a cached
resource whose type is not collection, perform no cache mutation (the
state is returned unchanged) and are instead emitted unprocessed on the
event bus as a custom resource event carrying the raw payload. -/
theorem wrongTypedEventsPassThroughRaw (fuel : Nat) (st : ClientState)
    (rid name : String) (ci : CacheItem) (hfind : st.cache.find? rid = some ci) :
    (∀ d : ChangeData, splitEventName name = some (rid, "change") →
      ci.type ≠ some RType.model →
      exec (fuel + 2) (Call.handleEv name (EvData.change d)) st =
        Except.ok (st, [Emit.resource rid "change" (Payload.raw (EvData.change d))], true)) ∧
    (∀ d : AddData, splitEventName name = some (rid, "add") →
      ci.type ≠ some RType.collection →
      exec (fuel + 2) (Call.handleEv name (EvData.add d)) st =
        Except.ok (st, [Emit.resource rid "add" (Payload.raw (EvData.add d))], true)) ∧
    (∀ d : RemoveData, splitEventName name = some (rid, "remove") →
      ci.type ≠ some RType.collection →
      exec (fuel + 2) (Call.handleEv name (EvData.remove d)) st =
        Except.ok (st, [Emit.resource rid "remove" (Payload.raw (EvData.remove d))], true)) := by
  refine ⟨?_, ?_, ?_⟩
  · intro d hname htype
    simp [exec, hname, hfind, htype]
    rfl
  · intro d hname htype
    simp [exec, hname, hfind, htype]
    rfl
  · intro d hname htype
    simp [exec, hname, hfind, htype]
    rfl

/-- Witness for C10 at a concrete input: a `change` event for a cached
collection passes through raw. -/
theorem wrongTypedEventsPassThroughRaw_witness :
    exec 2 (Call.handleEv "c.change" (EvData.change {}))
        { cache := [("c", { rid := "c", type := some RType.collection })] } =
      Except.ok
        ({ cache := [("c", { rid := "c", type := some RType.collection })] },
         [Emit.resource "c" "change" (Payload.raw (EvData.change {}))], true) :=
  (wrongTypedEventsPassThroughRaw 0
      { cache := [("c", { rid := "c", type := some RType.collection })] }
      "c" "c.change" { rid := "c", type := some RType.collection } (by decide)).1
    {} (by decide) (by decide)

/-! ## C7: protocol violations -/

/-- Processing an empty bundle is a no-op. -/
theorem exec_cacheRes_empty (fuel : Nat) (st : ClientState) :
    exec (fuel + 2) (Call.cacheRes {}) st = Except.ok (st, [], true) := by
  simp [exec, createItems, initModelItems, initCollectionItems]
  rfl

/-- C7 counterexample: a materialization whose kind differs from the
cached item's established type does NOT raise a runtime exception: the
turn completes normally, logging `Resource type inconsistency` and
skipping the materialization. -/
theorem typeInconsistencyDoesNotThrow :
    exec 2 (Call.cacheRes { collections := [("x", [])] })
        { cache := [("x", { rid := "x", type := some RType.model,
                            item := some (ResData.model []) })] } =
      Except.ok
        ({ cache := [("x", { rid := "x", type := some RType.model,
                             item := some (ResData.model []) })],
           log := ["Resource type inconsistency"] }, [], true) := by
  decide

/-- C7 amended: a response with an id that matches no stored request, an
event whose name lacks a proper `.` split, and a change event containing
an object value that is neither a resource reference nor the delete
sentinel all raise a runtime exception from the message-handling turn;
a materialization whose kind differs from the cached item's established
type does not throw: it is logged to the console and the materialization
is skipped, the item left unchanged. -/
theorem protocolViolations (fuel : Nat) :
    (∀ (fs : FullState) (id : Nat) (body : RespBody),
      lookupReq fs.requests id = none →
      receiveMsg fuel fs (Msg.response id body) = Except.error Err.noMatchingRequest) ∧
    (∀ (st : ClientState) (name : String) (d : EvData),
      splitEventName name = none →
      exec (fuel + 1) (Call.handleEv name d) st = Except.error Err.malformedEventName) ∧
    (∀ (st : ClientState) (rid k : String) (vs : AMap WireVal) (d : ChangeData)
      (ci : CacheItem),
      st.cache.find? rid = some ci → ci.type = some RType.model →
      d.values = (k, WireVal.obj) :: vs → d.bundle = {} →
      exec (fuel + 3) (Call.handleCh rid d) st = Except.error Err.unsupportedChangeValue) ∧
    (∀ (st : ClientState) (rid : String) (ci : CacheItem) (dta : List WireVal)
      (rd : ResData),
      st.cache.find? rid = some ci → ci.item = some rd → ci.type = some RType.model →
      createItems RType.collection (ResData.collection []) st [(rid, dta)] =
        ({ removeStale st rid with log := st.log ++ ["Resource type inconsistency"] },
         [], [])) := by
  refine ⟨?_, ?_, ?_, ?_⟩
  · intro fs id body h
    simp [receiveMsg, h]
  · intro st name d h
    simp [exec, h]
  · intro st rid k vs d ci hfind htype hvals hbnd
    simp [exec, hfind, htype, hbnd, hvals, createItems, initModelItems,
      initCollectionItems, procValues]
    rfl
  · intro st rid ci dta rd hfind hitem htype
    simp [createItems, hfind, hitem, htype, removeStale]

/-- Witness for C7 at concrete inputs. -/
theorem protocolViolations_witness :
    receiveMsg 1 {} (Msg.response 5 RespBody.errBody) =
        Except.error Err.noMatchingRequest ∧
    exec 1 (Call.handleEv "nodot" (EvData.plain 0)) {} =
        Except.error Err.malformedEventName ∧
    exec 3 (Call.handleCh "m" { values := [("k", WireVal.obj)] })
        { cache := [("m", { rid := "m", type := some RType.model,
                            item := some (ResData.model []) })] } =
        Except.error Err.unsupportedChangeValue ∧
    createItems RType.collection (ResData.collection [])
        { cache := [("x", { rid := "x", type := some RType.model,
                            item := some (ResData.model []) })] }
        [("x", ([] : List WireVal))] =
      ({ cache := [("x", { rid := "x", type := some RType.model,
                           item := some (ResData.model []) })],
         log := ["Resource type inconsistency"] }, [], []) := by
  refine ⟨(protocolViolations 1).1 {} 5 RespBody.errBody (by decide),
          (protocolViolations 0).2.1 {} "nodot" (EvData.plain 0) (by decide),
          (protocolViolations 0).2.2.1
            { cache := [("m", { rid := "m", type := some RType.model,
                                item := some (ResData.model []) })] }
            "m" "k" [] { values := [("k", WireVal.obj)] }
            { rid := "m", type := some RType.model, item := some (ResData.model []) }
            (by decide) (by decide) rfl rfl,
          ?_⟩
  have h := (protocolViolations 0).2.2.2
      { cache := [("x", { rid := "x", type := some RType.model,
                          item := some (ResData.model []) })] }
      "x" { rid := "x", type := some RType.model, item := some (ResData.model []) }
      [] (ResData.model []) (by decide) (by decide) (by decide)
  rw [h]
  decide

/-! ## C5: failed subscribe issued by a cache-miss `get` -/

/-- Looking up an id just appended to the request table. -/
theorem lookupReq_append_self (l : List (Nat × StoredReq)) (id : Nat) (sr : StoredReq)
    (h : ∀ p ∈ l, p.1 ≠ id) : lookupReq (l ++ [(id, sr)]) id = some sr := by
  induction l with
  | nil => simp [lookupReq]
  | cons p rest ih =>
    obtain ⟨k, v⟩ := p
    have hk : k ≠ id := h (k, v) (by simp)
    simp only [List.cons_append, lookupReq, if_neg hk]
    exact ih fun q hq => h q (by simp [hq])

/-- One-step unfolding of `seekVisit`, with the fuel case pushed inside. -/
theorem seekVisit_def (cache : Cache) (f : Nat) (refs : RefMap) (rid : String) :
    seekVisit cache f refs rid =
      match cache.find? rid with
      | none => refs
      | some ci =>
        if ci.subscribed then refs
        else
          match refs.find? rid with
          | some r => refs.set rid { r with rc := r.rc - 1 }
          | none =>
            match f with
            | 0 => refs.set rid ⟨ci.indirect - 1, TState.tsNone⟩
            | fuel + 1 =>
              (childRids cache ci).foldl (seekVisit cache fuel)
                (refs.set rid ⟨ci.indirect - 1, TState.tsNone⟩) := by
  simp only [seekVisit]

/-- One-step unfolding of `markVisit`, with the fuel case pushed inside. -/
theorem markVisit_def (cache : Cache) (f : Nat) (refs : RefMap) (pst : MState)
    (rid : String) :
    markVisit cache f refs pst rid =
      match cache.find? rid with
      | none => refs
      | some ci =>
        if ci.subscribed then refs
        else
          match refs.find? rid with
          | none => refs
          | some r =>
            match markStep ci r pst rid with
            | none => refs
            | some (r2, childSt) =>
              match f with
              | 0 => refs.set rid r2
              | fuel + 1 =>
                (childRids cache ci).foldl
                  (fun acc c => markVisit cache fuel acc childSt c)
                  (refs.set rid r2) := by
  conv_lhs => rw [markVisit]

/-- `_tryDelete` on a cached item with no materialized value, no direct
listeners, a zero indirect count and no subscription evicts exactly
that item. -/
theorem tryDelete_noChildren (st : ClientState) (rid r0 : String) (t : Option RType)
    (hfind : st.cache.find? rid =
      some { rid := r0, type := t, item := none, direct := 0, indirect := 0,
             subscribed := false }) :
    tryDelete st rid =
      { st with cache := st.cache.erase rid, stale := st.stale.erase rid } := by
  have hchild : childRids st.cache
      { rid := r0, type := t, item := none, direct := 0, indirect := 0,
        subscribed := false } = [] := by
    cases t with
    | none => rfl
    | some tt => cases tt <;> rfl
  have hraw : rawRids
      { rid := r0, type := t, item := none, direct := 0, indirect := 0,
        subscribed := false } = [] := by
    cases t with
    | none => rfl
    | some tt => cases tt <;> rfl
  have hrefs : getRefState st.cache rid =
      [(rid, ⟨0, TState.tsDelete⟩)] := by
    rw [getRefState, hfind]
    simp only [Bool.false_eq_true, if_false]
    rw [hchild]
    simp only [List.foldl_nil]
    rw [markVisit_def, hfind]
    simp [markStep, AMap.find?, AMap.set, hchild]
    cases markFuel st.cache <;> rfl
  rw [tryDelete, hrefs]
  simp only [List.foldl_cons, List.foldl_nil]
  simp [deleteRef, hfind, hraw, removeStale]

/-- C5 counterexample: at a concrete input, the turn that settles the
failed subscribe of a cache-miss `get` DOES emit a client-level `error`
event (from `_handleErrorResponse`), contradicting the claim that no
client-level error is emitted. -/
theorem subscribeFailureEmitsClientError :
    (subscribeFailureTurn (getUncachedTurn {} "x").1 (getUncachedTurn {} "x").2
        "x").map (fun r => r.2.1) = some [Emit.client "error"] := by
  decide

/-- C5 amended: if the subscribe request issued by `get(rid)` for a
previously uncached rid fails with an error response, the just-created
CacheItem is evicted from the cache, the promise returned by `get`
rejects exactly once, and a client-level `error` event IS emitted for
the failure (by `_handleErrorResponse`, before the rejection
propagates). -/
theorem subscribeFailureEvictsAndRejects (fs : FullState) (rid : String)
    (_hmiss : fs.cs.cache.find? rid = none)
    (hwf : ∀ p ∈ fs.requests, p.1 < fs.reqId)
    (hnd : (AMap.keys fs.cs.cache).Nodup) :
    ∃ out, subscribeFailureTurn (getUncachedTurn fs rid).1 (getUncachedTurn fs rid).2
        rid = some out ∧
      out.1.cs.cache.find? rid = none ∧
      out.2.1 = [Emit.client "error"] ∧
      out.2.2 = [GetOutcome.rejectedErr] := by
  have hg : getUncachedTurn fs rid =
      ({ cs := { fs.cs with
            cache := (fs.cs.cache.set rid (newCacheItem rid)).set rid
              ((newCacheItem rid).setSubscribed true),
            stale := fs.cs.stale.erase rid },
         requests := fs.requests ++ [(fs.reqId, ⟨"subscribe." ++ rid⟩)],
         reqId := fs.reqId + 1 }, fs.reqId) := by
    rw [getUncachedTurn]
    simp [sendNow, removeStale]
  have hlook := lookupReq_append_self fs.requests fs.reqId ⟨"subscribe." ++ rid⟩
    (fun p hp => Nat.ne_of_lt (hwf p hp))
  have hset : ((fs.cs.cache.set rid (newCacheItem rid)).set rid
      ((newCacheItem rid).setSubscribed true)).find? rid =
      some ((newCacheItem rid).setSubscribed true) :=
    AMap.find?_set_self _ _ _
  rw [hg]
  simp only [subscribeFailureTurn, hlook, hset]
  refine ⟨_, rfl, ?_, rfl, rfl⟩
  have hnd2 : (AMap.keys ((fs.cs.cache.set rid (newCacheItem rid)).set rid
      ((newCacheItem rid).setSubscribed true))).Nodup :=
    AMap.keys_nodup_set _ _ _ (AMap.keys_nodup_set _ _ _ hnd)
  have hnd3 : (AMap.keys (((fs.cs.cache.set rid (newCacheItem rid)).set rid
      ((newCacheItem rid).setSubscribed true)).set rid
      (((newCacheItem rid).setSubscribed true).setSubscribed false))).Nodup :=
    AMap.keys_nodup_set _ _ _ hnd2
  have hset2 : (((fs.cs.cache.set rid (newCacheItem rid)).set rid
      ((newCacheItem rid).setSubscribed true)).set rid
      (((newCacheItem rid).setSubscribed true).setSubscribed false)).find? rid =
      some { rid := rid, type := none, item := none, direct := 0, indirect := 0,
             subscribed := false } :=
    AMap.find?_set_self _ _ _
  have hdel := tryDelete_noChildren
    { cache := ((fs.cs.cache.set rid (newCacheItem rid)).set rid
        ((newCacheItem rid).setSubscribed true)).set rid
        (((newCacheItem rid).setSubscribed true).setSubscribed false),
      stale := fs.cs.stale.erase rid, connected := fs.cs.connected,
      log := fs.cs.log }
    rid rid none hset2
  simp only [hdel]
  exact AMap.find?_erase_self _ _ hnd3

/-- Witness for C5 at a concrete input. -/
theorem subscribeFailureEvictsAndRejects_witness :
    ∃ out, subscribeFailureTurn (getUncachedTurn {} "x").1 (getUncachedTurn {} "x").2
        "x" = some out ∧
      out.1.cs.cache.find? "x" = none ∧
      out.2.1 = [Emit.client "error"] ∧
      out.2.2 = [GetOutcome.rejectedErr] :=
  subscribeFailureEvictsAndRejects {} "x" (by decide)
    (fun p hp => absurd hp (List.not_mem_nil p)) (by decide)

/-! ## C4: cyclic bundles materialize without recursion -/

theorem find?_set_isSome_of {β : Type} (m : AMap β) (k r : String) (v : β)
    (h : (m.find? r).isSome = true) : ((m.set k v).find? r).isSome = true := by
  by_cases hk : r = k
  · subst hk; rw [AMap.find?_set_self]; rfl
  · rw [AMap.find?_set_ne _ _ hk]; exact h

/-- The create phase never removes a cache entry. -/
theorem createItems_mono {δ : Type} (tid : RType) (shell : ResData)
    (l : List (String × δ)) (st : ClientState) (rid : String)
    (h : (st.cache.find? rid).isSome = true) :
    (((createItems tid shell st l).1.cache.find? rid).isSome = true) := by
  induction l generalizing st with
  | nil => exact h
  | cons p rest ih =>
    obtain ⟨rid0, d⟩ := p
    cases hf : st.cache.find? rid0 with
    | none =>
      simp only [createItems, hf]
      exact ih _ (find?_set_isSome_of _ _ _ _ h)
    | some ci =>
      cases hi : ci.item with
      | some rd =>
        simp only [createItems, hf, hi]
        by_cases ht : ci.type ≠ some tid
        · rw [if_pos ht]
          exact ih _ h
        · rw [if_neg ht]
          exact ih _ h
      | none =>
        simp only [createItems, hf, hi]
        exact ih _ (find?_set_isSome_of _ _ _ _ h)

/-- After the create phase, every rid of the processed list has a cache
entry. -/
theorem createItems_covers {δ : Type} (tid : RType) (shell : ResData)
    (l : List (String × δ)) (st : ClientState) (rid : String)
    (h : rid ∈ l.map Prod.fst) :
    (((createItems tid shell st l).1.cache.find? rid).isSome = true) := by
  induction l generalizing st with
  | nil => simp at h
  | cons p rest ih =>
    obtain ⟨rid0, d⟩ := p
    simp only [List.map_cons, List.mem_cons] at h
    cases hf : st.cache.find? rid0 with
    | none =>
      simp only [createItems, hf]
      cases h with
      | inl he =>
        subst he
        exact createItems_mono _ _ _ _ _
          (by rw [AMap.find?_set_self]; rfl)
      | inr hm => exact ih _ hm
    | some ci =>
      cases hi : ci.item with
      | some rd =>
        simp only [createItems, hf, hi]
        have hbase : ((removeStale st rid0).cache.find? rid).isSome = true ∨
            rid ∈ rest.map Prod.fst := by
          cases h with
          | inl he => subst he; left; rw [removeStale]; simp [hf]
          | inr hm => right; exact hm
        by_cases ht : ci.type ≠ some tid
        · rw [if_pos ht]
          cases hbase with
          | inl hb => exact createItems_mono _ _ _ _ _ hb
          | inr hm => exact ih _ hm
        · rw [if_neg ht]
          cases hbase with
          | inl hb => exact createItems_mono _ _ _ _ _ hb
          | inr hm => exact ih _ hm
      | none =>
        simp only [createItems, hf, hi]
        cases h with
        | inl he =>
          subst he
          exact createItems_mono _ _ _ _ _
            (by rw [AMap.find?_set_self]; rfl)
        | inr hm => exact ih _ hm

/-- C4: the create phase of `_cacheResources` registers a CacheItem for
every rid named in the bundle before the init phase resolves any
reference, so reference resolution always finds its target even in
cyclic graphs; and materializing the mutually-referencing bundle
`{models: {a: {next:{rid:b}}, b: {next:{rid:a}}}}` terminates (at
constant dispatcher fuel), leaving each model's field holding the cached
item of the other and both indirect counts at one. -/
theorem cyclicBundleMaterializes :
    (∀ (st : ClientState) (b : Bundle) (rid : String),
      rid ∈ AMap.keys b.models ∨ rid ∈ AMap.keys b.collections ∨
        rid ∈ AMap.keys b.errors →
      ((createPhase st b).cache.find? rid).isSome = true) ∧
    exec 2 (Call.cacheRes
        { models := [("a", [("next", WireVal.ref "b")]),
                     ("b", [("next", WireVal.ref "a")])] }) {} =
      Except.ok
        ({ cache :=
            [("a", { rid := "a", type := some RType.model,
                     item := some (ResData.model [("next", Value.res "b")]),
                     indirect := 1 }),
             ("b", { rid := "b", type := some RType.model,
                     item := some (ResData.model [("next", Value.res "a")]),
                     indirect := 1 })] }, [], true) := by
  constructor
  · intro st b rid h
    rw [createPhase]
    cases h with
    | inl hm =>
      exact createItems_mono _ _ _ _ _
        (createItems_mono _ _ _ _ _ (createItems_covers _ _ _ _ _ hm))
    | inr h2 =>
      cases h2 with
      | inl hc =>
        exact createItems_mono _ _ _ _ _ (createItems_covers _ _ _ _ _ hc)
      | inr he => exact createItems_covers _ _ _ _ _ he
  · decide

/-- Witness for C4 at a concrete input. -/
theorem cyclicBundleMaterializes_witness :
    ((createPhase {}
        { models := [("a", [("next", WireVal.ref "b")]),
                     ("b", [("next", WireVal.ref "a")])] }).cache.find? "b").isSome
      = true :=
  cyclicBundleMaterializes.1 {}
    { models := [("a", [("next", WireVal.ref "b")]),
                 ("b", [("next", WireVal.ref "a")])] }
    "b" (Or.inl (by decide))

/-! ## C8: a rid removed and re-added within one change event -/

theorem rmInc_getD (rm : AMap Int) (r2 r : String) :
    (AMap.find? (rmInc rm r2) r).getD 0 =
      (AMap.find? rm r).getD 0 + (if r2 = r then 1 else 0) := by
  by_cases h : r2 = r
  · subst h
    rw [rmInc]
    cases hf : AMap.find? rm r2 with
    | none => rw [AMap.find?_set_self]; simp
    | some n => rw [AMap.find?_set_self]; simp
  · rw [rmInc]
    cases hf : AMap.find? rm r2 with
    | none => rw [AMap.find?_set_ne _ _ (fun hh => h hh.symm)]; simp [h]
    | some n => rw [AMap.find?_set_ne _ _ (fun hh => h hh.symm)]; simp [h]

theorem rmDec_getD (rm : AMap Int) (r2 r : String) :
    (AMap.find? (rmDec rm r2) r).getD 0 =
      (AMap.find? rm r).getD 0 - (if r2 = r then 1 else 0) := by
  by_cases h : r2 = r
  · subst h
    rw [rmDec]
    cases hf : AMap.find? rm r2 with
    | none => rw [AMap.find?_set_self]; simp
    | some n => rw [AMap.find?_set_self]; simp
  · rw [rmDec]
    cases hf : AMap.find? rm r2 with
    | none => rw [AMap.find?_set_ne _ _ (fun hh => h hh.symm)]; simp [h]
    | some n => rw [AMap.find?_set_ne _ _ (fun hh => h hh.symm)]; simp [h]

theorem rmInc_isSome (rm : AMap Int) (r2 r : String) :
    (AMap.find? (rmInc rm r2) r).isSome = true ↔
      r2 = r ∨ (AMap.find? rm r).isSome = true := by
  by_cases h : r2 = r
  · subst h
    rw [rmInc]
    cases hf : AMap.find? rm r2 with
    | none => rw [AMap.find?_set_self]; simp
    | some n => rw [AMap.find?_set_self]; simp
  · rw [rmInc]
    cases hf : AMap.find? rm r2 with
    | none => rw [AMap.find?_set_ne _ _ (fun hh => h hh.symm)]; simp [h]
    | some n => rw [AMap.find?_set_ne _ _ (fun hh => h hh.symm)]; simp [h]

theorem rmDec_isSome (rm : AMap Int) (r2 r : String) :
    (AMap.find? (rmDec rm r2) r).isSome = true ↔
      r2 = r ∨ (AMap.find? rm r).isSome = true := by
  by_cases h : r2 = r
  · subst h
    rw [rmDec]
    cases hf : AMap.find? rm r2 with
    | none => rw [AMap.find?_set_self]; simp
    | some n => rw [AMap.find?_set_self]; simp
  · rw [rmDec]
    cases hf : AMap.find? rm r2 with
    | none => rw [AMap.find?_set_ne _ _ (fun hh => h hh.symm)]; simp [h]
    | some n => rw [AMap.find?_set_ne _ _ (fun hh => h hh.symm)]; simp [h]

theorem rmInc_nodup (rm : AMap Int) (r2 : String) (h : (AMap.keys rm).Nodup) :
    (AMap.keys (rmInc rm r2)).Nodup := by
  rw [rmInc]
  cases AMap.find? rm r2 <;> exact AMap.keys_nodup_set _ _ _ h

theorem rmDec_nodup (rm : AMap Int) (r2 : String) (h : (AMap.keys rm).Nodup) :
    (AMap.keys (rmDec rm r2)).Nodup := by
  rw [rmDec]
  cases AMap.find? rm r2 <;> exact AMap.keys_nodup_set _ _ _ h

theorem countNewRefs_cons (k : String) (v : WireVal) (vs : List (String × WireVal))
    (r : String) :
    countNewRefs ((k, v) :: vs) r =
      (if v = WireVal.ref r then 1 else 0) + countNewRefs vs r := by
  by_cases h : v = WireVal.ref r <;> simp [countNewRefs, List.filter, h] <;> omega

theorem countOldRefs_cons (fields : List (String × Value)) (k : String) (v : WireVal)
    (vs : List (String × WireVal)) (r : String) :
    countOldRefs fields ((k, v) :: vs) r =
      (if AMap.find? fields k = some (Value.res r) then 1 else 0) +
        countOldRefs fields vs r := by
  by_cases h : AMap.find? fields k = some (Value.res r) <;>
    (simp [countOldRefs, List.filter, h]) <;> omega

theorem countNewRefs_cons_ref (k r3 : String) (vs : List (String × WireVal))
    (r : String) :
    countNewRefs ((k, WireVal.ref r3) :: vs) r =
      (if r3 = r then 1 else 0) + countNewRefs vs r := by
  rw [countNewRefs_cons]
  by_cases hh : r3 = r
  · rw [if_pos hh, if_pos (by rw [hh])]
  · rw [if_neg hh, if_neg (fun hc => hh (by injection hc))]

theorem countNewRefs_cons_nonref (k : String) (v : WireVal)
    (hv : ∀ r3, v ≠ WireVal.ref r3) (vs : List (String × WireVal)) (r : String) :
    countNewRefs ((k, v) :: vs) r = countNewRefs vs r := by
  rw [countNewRefs_cons, if_neg (hv r)]
  omega

theorem countOldRefs_cons_none (fields : List (String × Value)) (k : String)
    (v : WireVal) (vs : List (String × WireVal)) (r : String)
    (h : AMap.find? fields k = none) :
    countOldRefs fields ((k, v) :: vs) r = countOldRefs fields vs r := by
  rw [countOldRefs_cons, if_neg (by rw [h]; simp)]
  omega

theorem countOldRefs_cons_res (fields : List (String × Value)) (k r2 : String)
    (v : WireVal) (vs : List (String × WireVal)) (r : String)
    (h : AMap.find? fields k = some (Value.res r2)) :
    countOldRefs fields ((k, v) :: vs) r =
      (if r2 = r then 1 else 0) + countOldRefs fields vs r := by
  rw [countOldRefs_cons]
  by_cases hh : r2 = r
  · rw [if_pos hh, if_pos (by rw [h, hh])]
  · rw [if_neg hh, if_neg (by rw [h]; intro hc; injection hc with hc2; injection hc2 with hc3; exact hh hc3)]

theorem countOldRefs_cons_nonres (fields : List (String × Value)) (k : String)
    (ov : Value) (hov : ∀ r2, ov ≠ Value.res r2) (v : WireVal)
    (vs : List (String × WireVal)) (r : String)
    (h : AMap.find? fields k = some ov) :
    countOldRefs fields ((k, v) :: vs) r = countOldRefs fields vs r := by
  rw [countOldRefs_cons, if_neg (by rw [h]; intro hc; injection hc with hc2; exact hov r hc2)]
  omega

/-- The `rm` tally of the values loop balances old-reference against
new-reference occurrences, stated additively. -/
theorem procValues_rm_getD (cache : Cache) (fields : List (String × Value)) :
    ∀ (vs : List (String × WireVal)) (rm0 : AMap Int)
      (acc : List (String × Option Value)) (rm : AMap Int)
      (vals : List (String × Option Value)) (r : String),
      procValues cache fields vs rm0 acc = Except.ok (rm, vals) →
      (AMap.find? rm r).getD 0 + (countNewRefs vs r : Int) =
        (AMap.find? rm0 r).getD 0 + (countOldRefs fields vs r : Int) := by
  intro vs
  induction vs with
  | nil =>
    intro rm0 acc rm vals r h
    simp only [procValues] at h
    cases h
    simp [countOldRefs, countNewRefs]
  | cons kv rest ih =>
    intro rm0 acc rm vals r h
    obtain ⟨k, v⟩ := kv
    cases v with
    | obj => simp only [procValues] at h; cases h
    | ref r3 =>
      simp only [procValues] at h
      cases hc : cache.find? r3 with
      | none => rw [hc] at h; cases h
      | some ci3 =>
        rw [hc] at h
        rw [countNewRefs_cons_ref]
        cases hold : AMap.find? fields k with
        | none =>
          rw [hold] at h
          rw [countOldRefs_cons_none _ _ _ _ _ hold]
          have hr := ih (rmDec rm0 r3) _ rm vals r h
          have hg := rmDec_getD rm0 r3 r
          by_cases hh : r3 = r
          · rw [if_pos hh] at hg ⊢; omega
          · rw [if_neg hh] at hg ⊢; omega
        | some ov =>
          rw [hold] at h
          cases ov with
          | res r2 =>
            rw [countOldRefs_cons_res _ _ _ _ _ _ hold]
            have hr := ih (rmInc (rmDec rm0 r3) r2) _ rm vals r h
            have hg1 := rmDec_getD rm0 r3 r
            have hg2 := rmInc_getD (rmDec rm0 r3) r2 r
            by_cases hh2 : r2 = r <;> by_cases hh3 : r3 = r
            · rw [if_pos hh2] at hg2 ⊢; rw [if_pos hh3] at hg1 ⊢; omega
            · rw [if_pos hh2] at hg2 ⊢; rw [if_neg hh3] at hg1 ⊢; omega
            · rw [if_neg hh2] at hg2 ⊢; rw [if_pos hh3] at hg1 ⊢; omega
            · rw [if_neg hh2] at hg2 ⊢; rw [if_neg hh3] at hg1 ⊢; omega
          | prim n2 =>
            rw [countOldRefs_cons_nonres _ _ _ (by intro r2 hc2; cases hc2) _ _ _ hold]
            have hr := ih (rmDec rm0 r3) _ rm vals r h
            have hg := rmDec_getD rm0 r3 r
            by_cases hh : r3 = r
            · rw [if_pos hh] at hg ⊢; omega
            · rw [if_neg hh] at hg ⊢; omega
          | other =>
            rw [countOldRefs_cons_nonres _ _ _ (by intro r2 hc2; cases hc2) _ _ _ hold]
            have hr := ih (rmDec rm0 r3) _ rm vals r h
            have hg := rmDec_getD rm0 r3 r
            by_cases hh : r3 = r
            · rw [if_pos hh] at hg ⊢; omega
            · rw [if_neg hh] at hg ⊢; omega
    | prim n =>
      simp only [procValues] at h
      rw [countNewRefs_cons_nonref _ _ (by intro r3 hc2; cases hc2)]
      cases hold : AMap.find? fields k with
      | none =>
        rw [hold] at h
        rw [countOldRefs_cons_none _ _ _ _ _ hold]
        exact ih rm0 _ rm vals r h
      | some ov =>
        rw [hold] at h
        cases ov with
        | res r2 =>
          rw [countOldRefs_cons_res _ _ _ _ _ _ hold]
          have hr := ih (rmInc rm0 r2) _ rm vals r h
          have hg := rmInc_getD rm0 r2 r
          by_cases hh : r2 = r
          · rw [if_pos hh] at hg ⊢; omega
          · rw [if_neg hh] at hg ⊢; omega
        | prim n2 =>
          rw [countOldRefs_cons_nonres _ _ _ (by intro r2 hc2; cases hc2) _ _ _ hold]
          exact ih rm0 _ rm vals r h
        | other =>
          rw [countOldRefs_cons_nonres _ _ _ (by intro r2 hc2; cases hc2) _ _ _ hold]
          exact ih rm0 _ rm vals r h
    | act =>
      simp only [procValues] at h
      rw [countNewRefs_cons_nonref _ _ (by intro r3 hc2; cases hc2)]
      cases hold : AMap.find? fields k with
      | none =>
        rw [hold] at h
        rw [countOldRefs_cons_none _ _ _ _ _ hold]
        exact ih rm0 _ rm vals r h
      | some ov =>
        rw [hold] at h
        cases ov with
        | res r2 =>
          rw [countOldRefs_cons_res _ _ _ _ _ _ hold]
          have hr := ih (rmInc rm0 r2) _ rm vals r h
          have hg := rmInc_getD rm0 r2 r
          by_cases hh : r2 = r
          · rw [if_pos hh] at hg ⊢; omega
          · rw [if_neg hh] at hg ⊢; omega
        | prim n2 =>
          rw [countOldRefs_cons_nonres _ _ _ (by intro r2 hc2; cases hc2) _ _ _ hold]
          exact ih rm0 _ rm vals r h
        | other =>
          rw [countOldRefs_cons_nonres _ _ _ (by intro r2 hc2; cases hc2) _ _ _ hold]
          exact ih rm0 _ rm vals r h

/-- The `rm` map gains an entry for every rid that occurs as an old or a
new reference (and keeps the entries it starts with). -/
theorem procValues_rm_isSome (cache : Cache) (fields : List (String × Value)) :
    ∀ (vs : List (String × WireVal)) (rm0 : AMap Int)
      (acc : List (String × Option Value)) (rm : AMap Int)
      (vals : List (String × Option Value)) (r : String),
      procValues cache fields vs rm0 acc = Except.ok (rm, vals) →
      ((AMap.find? rm0 r).isSome = true ∨ 0 < countOldRefs fields vs r ∨
        0 < countNewRefs vs r) →
      (AMap.find? rm r).isSome = true := by
  intro vs
  induction vs with
  | nil =>
    intro rm0 acc rm vals r h hpre
    simp only [procValues] at h
    cases h
    simp only [countOldRefs, countNewRefs, List.filter_nil, List.length_nil] at hpre
    rcases hpre with h1 | h1 | h1
    · exact h1
    · omega
    · omega
  | cons kv rest ih =>
    intro rm0 acc rm vals r h hpre
    obtain ⟨k, v⟩ := kv
    cases v with
    | obj => simp only [procValues] at h; cases h
    | ref r3 =>
      simp only [procValues] at h
      cases hc : cache.find? r3 with
      | none => rw [hc] at h; cases h
      | some ci3 =>
        rw [hc] at h
        rw [countNewRefs_cons_ref] at hpre
        cases hold : AMap.find? fields k with
        | none =>
          rw [hold] at h
          rw [countOldRefs_cons_none _ _ _ _ _ hold] at hpre
          refine ih (rmDec rm0 r3) _ rm vals r h ?_
          by_cases hh : r3 = r
          · exact Or.inl ((rmDec_isSome rm0 r3 r).2 (Or.inl hh))
          · rw [if_neg hh] at hpre
            rcases hpre with h1 | h1 | h1
            · exact Or.inl ((rmDec_isSome rm0 r3 r).2 (Or.inr h1))
            · exact Or.inr (Or.inl h1)
            · exact Or.inr (Or.inr (by omega))
        | some ov =>
          rw [hold] at h
          cases ov with
          | res r2 =>
            rw [countOldRefs_cons_res _ _ _ _ _ _ hold] at hpre
            refine ih (rmInc (rmDec rm0 r3) r2) _ rm vals r h ?_
            by_cases hh2 : r2 = r
            · exact Or.inl ((rmInc_isSome _ r2 r).2 (Or.inl hh2))
            · by_cases hh3 : r3 = r
              · exact Or.inl ((rmInc_isSome _ r2 r).2
                  (Or.inr ((rmDec_isSome rm0 r3 r).2 (Or.inl hh3))))
              · rw [if_neg hh2, if_neg hh3] at hpre
                rcases hpre with h1 | h1 | h1
                · exact Or.inl ((rmInc_isSome _ r2 r).2
                    (Or.inr ((rmDec_isSome rm0 r3 r).2 (Or.inr h1))))
                · exact Or.inr (Or.inl (by omega))
                · exact Or.inr (Or.inr (by omega))
          | prim n2 =>
            rw [countOldRefs_cons_nonres _ _ _ (by intro r2 hc2; cases hc2) _ _ _ hold] at hpre
            refine ih (rmDec rm0 r3) _ rm vals r h ?_
            by_cases hh : r3 = r
            · exact Or.inl ((rmDec_isSome rm0 r3 r).2 (Or.inl hh))
            · rw [if_neg hh] at hpre
              rcases hpre with h1 | h1 | h1
              · exact Or.inl ((rmDec_isSome rm0 r3 r).2 (Or.inr h1))
              · exact Or.inr (Or.inl h1)
              · exact Or.inr (Or.inr (by omega))
          | other =>
            rw [countOldRefs_cons_nonres _ _ _ (by intro r2 hc2; cases hc2) _ _ _ hold] at hpre
            refine ih (rmDec rm0 r3) _ rm vals r h ?_
            by_cases hh : r3 = r
            · exact Or.inl ((rmDec_isSome rm0 r3 r).2 (Or.inl hh))
            · rw [if_neg hh] at hpre
              rcases hpre with h1 | h1 | h1
              · exact Or.inl ((rmDec_isSome rm0 r3 r).2 (Or.inr h1))
              · exact Or.inr (Or.inl h1)
              · exact Or.inr (Or.inr (by omega))
    | prim n =>
      simp only [procValues] at h
      rw [countNewRefs_cons_nonref _ _ (by intro r3 hc2; cases hc2)] at hpre
      cases hold : AMap.find? fields k with
      | none =>
        rw [hold] at h
        rw [countOldRefs_cons_none _ _ _ _ _ hold] at hpre
        exact ih rm0 _ rm vals r h hpre
      | some ov =>
        rw [hold] at h
        cases ov with
        | res r2 =>
          rw [countOldRefs_cons_res _ _ _ _ _ _ hold] at hpre
          refine ih (rmInc rm0 r2) _ rm vals r h ?_
          by_cases hh : r2 = r
          · exact Or.inl ((rmInc_isSome rm0 r2 r).2 (Or.inl hh))
          · rw [if_neg hh] at hpre
            rcases hpre with h1 | h1 | h1
            · exact Or.inl ((rmInc_isSome rm0 r2 r).2 (Or.inr h1))
            · exact Or.inr (Or.inl (by omega))
            · exact Or.inr (Or.inr h1)
        | prim n2 =>
          rw [countOldRefs_cons_nonres _ _ _ (by intro r2 hc2; cases hc2) _ _ _ hold] at hpre
          exact ih rm0 _ rm vals r h hpre
        | other =>
          rw [countOldRefs_cons_nonres _ _ _ (by intro r2 hc2; cases hc2) _ _ _ hold] at hpre
          exact ih rm0 _ rm vals r h hpre
    | act =>
      simp only [procValues] at h
      rw [countNewRefs_cons_nonref _ _ (by intro r3 hc2; cases hc2)] at hpre
      cases hold : AMap.find? fields k with
      | none =>
        rw [hold] at h
        rw [countOldRefs_cons_none _ _ _ _ _ hold] at hpre
        exact ih rm0 _ rm vals r h hpre
      | some ov =>
        rw [hold] at h
        cases ov with
        | res r2 =>
          rw [countOldRefs_cons_res _ _ _ _ _ _ hold] at hpre
          refine ih (rmInc rm0 r2) _ rm vals r h ?_
          by_cases hh : r2 = r
          · exact Or.inl ((rmInc_isSome rm0 r2 r).2 (Or.inl hh))
          · rw [if_neg hh] at hpre
            rcases hpre with h1 | h1 | h1
            · exact Or.inl ((rmInc_isSome rm0 r2 r).2 (Or.inr h1))
            · exact Or.inr (Or.inl (by omega))
            · exact Or.inr (Or.inr h1)
        | prim n2 =>
          rw [countOldRefs_cons_nonres _ _ _ (by intro r2 hc2; cases hc2) _ _ _ hold] at hpre
          exact ih rm0 _ rm vals r h hpre
        | other =>
          rw [countOldRefs_cons_nonres _ _ _ (by intro r2 hc2; cases hc2) _ _ _ hold] at hpre
          exact ih rm0 _ rm vals r h hpre

/-- The `rm` map keeps its keys without duplicates. -/
theorem procValues_rm_nodup (cache : Cache) (fields : List (String × Value)) :
    ∀ (vs : List (String × WireVal)) (rm0 : AMap Int)
      (acc : List (String × Option Value)) (rm : AMap Int)
      (vals : List (String × Option Value)),
      procValues cache fields vs rm0 acc = Except.ok (rm, vals) →
      (AMap.keys rm0).Nodup → (AMap.keys rm).Nodup := by
  intro vs
  induction vs with
  | nil =>
    intro rm0 acc rm vals h hnd
    simp only [procValues] at h
    cases h
    exact hnd
  | cons kv rest ih =>
    intro rm0 acc rm vals h hnd
    obtain ⟨k, v⟩ := kv
    cases v with
    | obj => simp only [procValues] at h; cases h
    | ref r3 =>
      simp only [procValues] at h
      cases hc : cache.find? r3 with
      | none => rw [hc] at h; cases h
      | some ci3 =>
        rw [hc] at h
        cases hold : AMap.find? fields k with
        | none =>
          rw [hold] at h
          exact ih _ _ _ _ h (rmDec_nodup _ _ hnd)
        | some ov =>
          rw [hold] at h
          cases ov with
          | res r2 => exact ih _ _ _ _ h (rmInc_nodup _ _ (rmDec_nodup _ _ hnd))
          | prim n2 => exact ih _ _ _ _ h (rmDec_nodup _ _ hnd)
          | other => exact ih _ _ _ _ h (rmDec_nodup _ _ hnd)
    | prim n =>
      simp only [procValues] at h
      cases hold : AMap.find? fields k with
      | none =>
        rw [hold] at h
        exact ih _ _ _ _ h hnd
      | some ov =>
        rw [hold] at h
        cases ov with
        | res r2 => exact ih _ _ _ _ h (rmInc_nodup _ _ hnd)
        | prim n2 => exact ih _ _ _ _ h hnd
        | other => exact ih _ _ _ _ h hnd
    | act =>
      simp only [procValues] at h
      cases hold : AMap.find? fields k with
      | none =>
        rw [hold] at h
        exact ih _ _ _ _ h hnd
      | some ov =>
        rw [hold] at h
        cases ov with
        | res r2 => exact ih _ _ _ _ h (rmInc_nodup _ _ hnd)
        | prim n2 => exact ih _ _ _ _ h hnd
        | other => exact ih _ _ _ _ h hnd

theorem find?_eq_of_mem_nodup {β : Type} (m : List (String × β)) (k : String) (v : β)
    (hmem : (k, v) ∈ m) (hnd : (AMap.keys m).Nodup) : AMap.find? m k = some v := by
  induction m with
  | nil => simp at hmem
  | cons p rest ih =>
    obtain ⟨k1, w⟩ := p
    rw [AMap.keys_cons, List.nodup_cons] at hnd
    rcases List.mem_cons.1 hmem with h1 | h1
    · cases h1
      rw [AMap.find?_cons, if_pos rfl]
    · have hk : k1 ≠ k := by
        intro hh
        subst hh
        exact hnd.1 ((AMap.mem_keys_iff_isSome rest k1).2
          (by rw [ih h1 hnd.2]; rfl))
      rw [AMap.find?_cons, if_neg hk]
      exact ih h1 hnd.2

/-- Every rid fed to `_tryDelete` by the rm loop has a positive entry. -/
theorem applyRm_roots : ∀ (rm : List (String × Int)) (st : ClientState)
    (out : ClientState × List String), applyRm st rm = Except.ok out →
    ∀ x ∈ out.2, ∃ n, (x, n) ∈ rm ∧ 0 < n := by
  intro rm
  induction rm with
  | nil =>
    intro st out h x hx
    simp only [applyRm] at h
    cases h
    simp at hx
  | cons p rest ih =>
    intro st out h x hx
    obtain ⟨rid, n⟩ := p
    cases hf : st.cache.find? rid with
    | none => simp only [applyRm, hf] at h; cases h
    | some ci =>
      simp only [applyRm, hf] at h
      by_cases hn : n > 0
      · rw [if_pos hn] at h
        cases happ : applyRm (tryDelete
            { st with cache := st.cache.set rid (ci.removeIndirectN n) } rid) rest with
        | error e => rw [happ] at h; cases h
        | ok out1 =>
          rw [happ] at h
          change Except.ok (out1.1, rid :: out1.2) = Except.ok out at h
          cases h
          rcases List.mem_cons.1 hx with h1 | h1
          · subst h1; exact ⟨n, by simp, hn⟩
          · obtain ⟨n2, hm2, hp2⟩ := ih _ _ happ x h1
            exact ⟨n2, by simp [hm2], hp2⟩
      · rw [if_neg hn] at h
        obtain ⟨n2, hm2, hp2⟩ := ih _ _ h x hx
        exact ⟨n2, by simp [hm2], hp2⟩

/-- C8 counterexample: in the change event
`{values: {b: {rid:"r"}, c: {rid:"r"}}}` on a model whose field `b`
previously held resource `r`, the rid `r` appears both as a previous
field value and as a new reference value, yet its indirect count moves
from 1 to 2: the claim's "indirect count identical" fails when the
occurrences are unbalanced. -/
theorem sameRidReaddedIndirectChanges :
    ((exec 3 (Call.handleCh "m"
        { values := [("b", WireVal.ref "r"), ("c", WireVal.ref "r")] })
        { cache := [
            ("m", { rid := "m", type := some RType.model,
                    item := some (ResData.model
                      [("b", Value.res "r"), ("c", Value.prim 0)]),
                    subscribed := true }),
            ("r", { rid := "r", type := some RType.model,
                    item := some (ResData.model []), indirect := 1,
                    subscribed := true })] }).map
      (fun out => (out.1.cache.find? "r").map CacheItem.indirect)) =
      Except.ok (some 2) := by
  decide

/-- C8 amended: when a rid occurs equally often (and at least once) as a
previous field value and as a new reference value among the changed
fields, the change handler's reference bookkeeping tallies a net delta
of zero for it: its `rm` entry is 0, so its `removeIndirect(0)` leaves
the indirect count unchanged, and the rm loop never feeds it to
`_tryDelete`. -/
theorem netZeroRefChangeBookkeeping (cache : Cache) (fields : List (String × Value))
    (vs : List (String × WireVal)) (rm : AMap Int)
    (vals : List (String × Option Value)) (r : String)
    (hok : procValues cache fields vs [] [] = Except.ok (rm, vals))
    (hbal : countOldRefs fields vs r = countNewRefs vs r)
    (hocc : 0 < countNewRefs vs r) :
    AMap.find? rm r = some 0 ∧
    (∀ ci : CacheItem, (ci.removeIndirectN 0).indirect = ci.indirect) ∧
    (∀ (st : ClientState) (out : ClientState × List String),
      applyRm st rm = Except.ok out → r ∉ out.2) := by
  have hg := procValues_rm_getD cache fields vs [] [] rm vals r hok
  have hs := procValues_rm_isSome cache fields vs [] [] rm vals r hok
    (Or.inr (Or.inr hocc))
  have hnd := procValues_rm_nodup cache fields vs [] [] rm vals hok
    (by simp [AMap.keys])
  obtain ⟨n0, hn0⟩ := Option.isSome_iff_exists.1 hs
  have hz : AMap.find? ([] : AMap Int) r = none := rfl
  rw [hn0, hz] at hg
  simp only [Option.getD_some, Option.getD_none] at hg
  have hval : n0 = 0 := by omega
  subst hval
  refine ⟨hn0, fun ci => by simp [CacheItem.removeIndirectN], ?_⟩
  intro st out happ hmem
  obtain ⟨n, hnmem, hnpos⟩ := applyRm_roots rm st out happ r hmem
  have hfind := find?_eq_of_mem_nodup rm r n hnmem hnd
  rw [hn0] at hfind
  cases hfind
  omega

/-- Witness for C8 at a concrete input. -/
theorem netZeroRefChangeBookkeeping_witness :
    AMap.find? [("r", (0 : Int))] "r" = some 0 ∧
    (∀ ci : CacheItem, (ci.removeIndirectN 0).indirect = ci.indirect) ∧
    (∀ (st : ClientState) (out : ClientState × List String),
      applyRm st [("r", (0 : Int))] = Except.ok out → "r" ∉ out.2) :=
  netZeroRefChangeBookkeeping [("r", newCacheItem "r")] [("b", Value.res "r")]
    [("b", WireVal.ref "r")] [("r", 0)] [("b", some (Value.res "r"))] "r"
    (by decide) (by decide) (by decide)

/-! ## C9: the stale set names only cached rids -/

theorem removeIndirectIfCached_isSome (cache : Cache) (x k : String) :
    ((removeIndirectIfCached cache x).find? k).isSome = (cache.find? k).isSome := by
  cases hf : cache.find? x with
  | none => simp only [removeIndirectIfCached, hf]
  | some ci =>
    simp only [removeIndirectIfCached, hf]
    by_cases hk : k = x
    · subst hk
      rw [AMap.find?_set_self, hf]
      rfl
    · rw [AMap.find?_set_ne _ _ hk]

theorem foldRemoveIndirect_isSome (l : List String) (cache : Cache) (k : String) :
    ((l.foldl removeIndirectIfCached cache).find? k).isSome =
      (cache.find? k).isSome := by
  induction l generalizing cache with
  | nil => rfl
  | cons x xs ih =>
    rw [List.foldl_cons, ih, removeIndirectIfCached_isSome]

theorem deleteRef_cache_other (st : ClientState) (rid k : String) (hk : k ≠ rid) :
    (((deleteRef st rid).cache.find? k).isSome = (st.cache.find? k).isSome) := by
  cases hf : st.cache.find? rid with
  | none => simp only [deleteRef, hf]
  | some ci =>
    simp only [deleteRef, hf, removeStale]
    rw [AMap.find?_erase_ne _ hk, foldRemoveIndirect_isSome]

theorem deleteRef_stale (st : ClientState) (rid : String)
    (hInv : StaleInv st) : (deleteRef st rid).stale = st.stale.erase rid := by
  cases hf : st.cache.find? rid with
  | none =>
    have hnm : rid ∉ st.stale := by
      intro hmem
      have h2 := hInv.2 rid hmem
      rw [hf] at h2
      simp at h2
    simp only [deleteRef, hf]
    rw [List.erase_of_not_mem hnm]
  | some ci => simp only [deleteRef, hf, removeStale]

theorem deleteRef_staleInv (st : ClientState) (rid : String) (hInv : StaleInv st) :
    StaleInv (deleteRef st rid) := by
  cases hf : st.cache.find? rid with
  | none => simp only [deleteRef, hf]; exact hInv
  | some ci =>
    simp only [deleteRef, hf, removeStale]
    constructor
    · exact hInv.1.erase rid
    · intro r hr
      have hrs : r ≠ rid ∧ r ∈ st.stale := (hInv.1.mem_erase_iff).1 hr
      rw [AMap.find?_erase_ne _ hrs.1, foldRemoveIndirect_isSome]
      exact hInv.2 r hrs.2

theorem addStale_staleInv (st : ClientState) (rid : String) (hInv : StaleInv st)
    (hc : (st.cache.find? rid).isSome = true) : StaleInv (addStale st rid) := by
  rw [addStale]
  by_cases hmem : rid ∈ st.stale
  · rw [if_pos hmem]; exact hInv
  · rw [if_neg hmem]
    constructor
    · simp only []
      rw [List.nodup_append]
      exact ⟨hInv.1, List.nodup_singleton _, by
        intro x hx hx2
        simp at hx2
        subst hx2
        exact hmem hx⟩
    · intro r hr
      simp only [List.mem_append, List.mem_singleton] at hr
      cases hr with
      | inl h1 => exact hInv.2 r h1
      | inr h1 => subst h1; exact hc

theorem setStale_staleInv (st : ClientState) (rid : String) (hInv : StaleInv st)
    (hc : (st.cache.find? rid).isSome = true) : StaleInv (setStale st rid) :=
  addStale_staleInv st rid hInv hc

/-- The classification fold of `_tryDelete` preserves the invariant,
given that every listed rid is cached and the list has no duplicate
keys. -/
theorem tryDeleteFold_staleInv (l : List (String × RefEntry)) :
    ∀ (st : ClientState), StaleInv st →
    (∀ kv ∈ l, ((st.cache.find? kv.1).isSome = true)) →
    (AMap.keys l).Nodup →
    StaleInv (l.foldl
      (fun st kv =>
        match kv.2.st with
        | TState.tsStale => setStale st kv.1
        | TState.tsDelete => deleteRef st kv.1
        | _ => st) st) := by
  induction l with
  | nil => intro st hInv _ _; exact hInv
  | cons kv rest ih =>
    intro st hInv hc hnd
    obtain ⟨rid0, e⟩ := kv
    rw [AMap.keys_cons, List.nodup_cons] at hnd
    rw [List.foldl_cons]
    cases he : e.st with
    | tsStale =>
      refine ih _ (setStale_staleInv st rid0 hInv (hc (rid0, e) (List.mem_cons_self _ _))) ?_ hnd.2
      intro kv2 hkv2
      rw [setStale, addStale]
      by_cases hmem : rid0 ∈ st.stale
      · rw [if_pos hmem]; exact hc kv2 (by simp [hkv2])
      · rw [if_neg hmem]; exact hc kv2 (by simp [hkv2])
    | tsDelete =>
      refine ih _ (deleteRef_staleInv st rid0 hInv) ?_ hnd.2
      intro kv2 hkv2
      have hne : kv2.1 ≠ rid0 := by
        intro hh
        exact hnd.1 (hh ▸ (List.mem_map.2 ⟨kv2, hkv2, rfl⟩))
      rw [deleteRef_cache_other st rid0 kv2.1 hne]
      exact hc kv2 (by simp [hkv2])
    | tsNone => exact ih _ hInv (fun kv2 hkv2 => hc kv2 (by simp [hkv2])) hnd.2
    | tsKeep => exact ih _ hInv (fun kv2 hkv2 => hc kv2 (by simp [hkv2])) hnd.2

/-- `_seekRefs` keeps the reference map keyed by distinct cached rids. -/
theorem seekVisit_keysInv (cache : Cache) :
    ∀ (fuel : Nat) (refs : RefMap) (rid : String),
    ((∀ k ∈ AMap.keys refs, (cache.find? k).isSome = true) ∧
      (AMap.keys refs).Nodup) →
    ((∀ k ∈ AMap.keys (seekVisit cache fuel refs rid),
        (cache.find? k).isSome = true) ∧
      (AMap.keys (seekVisit cache fuel refs rid)).Nodup) := by
  intro fuel
  induction fuel with
  | zero =>
    intro refs rid hP
    rw [seekVisit_def]
    cases hf : cache.find? rid with
    | none => exact hP
    | some ci =>
      dsimp only []
      by_cases hs : ci.subscribed
      · rw [if_pos hs]; exact hP
      · rw [if_neg hs]
        cases hr : refs.find? rid with
        | some r =>
          dsimp only []
          constructor
          · intro k hk
            rw [AMap.keys_set_of_isSome _ _ _ (by rw [hr]; rfl)] at hk
            exact hP.1 k hk
          · rw [AMap.keys_set_of_isSome _ _ _ (by rw [hr]; rfl)]
            exact hP.2
        | none =>
          dsimp only []
          constructor
          · intro k hk
            rw [AMap.keys_set_of_none _ _ _ hr] at hk
            rcases List.mem_append.1 hk with h1 | h1
            · exact hP.1 k h1
            · simp at h1; subst h1; rw [hf]; rfl
          · exact AMap.keys_nodup_set _ _ _ hP.2
  | succ fuel ih =>
    intro refs rid hP
    rw [seekVisit_def]
    cases hf : cache.find? rid with
    | none => exact hP
    | some ci =>
      dsimp only []
      by_cases hs : ci.subscribed
      · rw [if_pos hs]; exact hP
      · rw [if_neg hs]
        cases hr : refs.find? rid with
        | some r =>
          dsimp only []
          constructor
          · intro k hk
            rw [AMap.keys_set_of_isSome _ _ _ (by rw [hr]; rfl)] at hk
            exact hP.1 k hk
          · rw [AMap.keys_set_of_isSome _ _ _ (by rw [hr]; rfl)]
            exact hP.2
        | none =>
          dsimp only []
          have hP2 : (∀ k ∈ AMap.keys (refs.set rid ⟨ci.indirect - 1, TState.tsNone⟩),
              (cache.find? k).isSome = true) ∧
              (AMap.keys (refs.set rid ⟨ci.indirect - 1, TState.tsNone⟩)).Nodup := by
            constructor
            · intro k hk
              rw [AMap.keys_set_of_none _ _ _ hr] at hk
              rcases List.mem_append.1 hk with h1 | h1
              · exact hP.1 k h1
              · simp at h1; subst h1; rw [hf]; rfl
            · exact AMap.keys_nodup_set _ _ _ hP.2
          have hfold : ∀ (l : List String) (refs2 : RefMap),
              ((∀ k ∈ AMap.keys refs2, (cache.find? k).isSome = true) ∧
                (AMap.keys refs2).Nodup) →
              ((∀ k ∈ AMap.keys (l.foldl (seekVisit cache fuel) refs2),
                  (cache.find? k).isSome = true) ∧
                (AMap.keys (l.foldl (seekVisit cache fuel) refs2)).Nodup) := by
            intro l
            induction l with
            | nil => intro refs2 hQ; exact hQ
            | cons c cs ihl => intro refs2 hQ; exact ihl _ (ih _ _ hQ)
          exact hfold _ _ hP2

/-- `_markDelete` never changes the key set of the reference map. -/
theorem markVisit_keys (cache : Cache) :
    ∀ (fuel : Nat) (refs : RefMap) (pst : MState) (rid : String),
    AMap.keys (markVisit cache fuel refs pst rid) = AMap.keys refs := by
  intro fuel
  induction fuel with
  | zero =>
    intro refs pst rid
    rw [markVisit_def]
    cases hf : cache.find? rid with
    | none => rfl
    | some ci =>
      dsimp only []
      by_cases hs : ci.subscribed
      · rw [if_pos hs]
      · rw [if_neg hs]
        cases hr : refs.find? rid with
        | none => rfl
        | some r =>
          dsimp only []
          cases markStep ci r pst rid with
          | none => rfl
          | some p =>
            dsimp only []
            exact AMap.keys_set_of_isSome _ _ _ (by rw [hr]; rfl)
  | succ fuel ih =>
    intro refs pst rid
    rw [markVisit_def]
    cases hf : cache.find? rid with
    | none => rfl
    | some ci =>
      dsimp only []
      by_cases hs : ci.subscribed
      · rw [if_pos hs]
      · rw [if_neg hs]
        cases hr : refs.find? rid with
        | none => rfl
        | some r =>
          dsimp only []
          cases markStep ci r pst rid with
          | none => rfl
          | some p =>
            dsimp only []
            have hfold : ∀ (l : List String) (refs2 : RefMap),
                AMap.keys (l.foldl
                  (fun acc c => markVisit cache fuel acc p.2 c) refs2) =
                  AMap.keys refs2 := by
              intro l
              induction l with
              | nil => intro refs2; rfl
              | cons c cs ihl =>
                intro refs2
                rw [List.foldl_cons, ihl, ih]
            rw [hfold]
            exact AMap.keys_set_of_isSome _ _ _ (by rw [hr]; rfl)

/-- Every key of `_getRefState`'s result is a distinct cached rid. -/
theorem getRefState_keysInv (cache : Cache) (rid : String) :
    (∀ k ∈ AMap.keys (getRefState cache rid), (cache.find? k).isSome = true) ∧
      (AMap.keys (getRefState cache rid)).Nodup := by
  rw [getRefState]
  cases hf : cache.find? rid with
  | none => exact ⟨fun k hk => by simp [AMap.keys] at hk, by simp [AMap.keys]⟩
  | some ci =>
    dsimp only []
    by_cases hs : ci.subscribed
    · rw [if_pos hs]
      exact ⟨fun k hk => by simp [AMap.keys] at hk, by simp [AMap.keys]⟩
    · rw [if_neg hs]
      have h0 : (∀ k ∈ AMap.keys
          ([(rid, ⟨ci.indirect, TState.tsNone⟩)] : RefMap),
          (cache.find? k).isSome = true) ∧
          (AMap.keys ([(rid, ⟨ci.indirect, TState.tsNone⟩)] : RefMap)).Nodup := by
        constructor
        · intro k hk
          simp [AMap.keys] at hk
          subst hk
          rw [hf]; rfl
        · simp [AMap.keys]
      have hfold : ∀ (l : List String) (refs2 : RefMap),
          ((∀ k ∈ AMap.keys refs2, (cache.find? k).isSome = true) ∧
            (AMap.keys refs2).Nodup) →
          ((∀ k ∈ AMap.keys (l.foldl (seekVisit cache (seekFuel cache)) refs2),
              (cache.find? k).isSome = true) ∧
            (AMap.keys (l.foldl (seekVisit cache (seekFuel cache)) refs2)).Nodup) := by
        intro l
        induction l with
        | nil => intro refs2 hQ; exact hQ
        | cons c cs ihl =>
          intro refs2 hQ
          exact ihl _ (seekVisit_keysInv cache _ _ _ hQ)
      have h1 := hfold (childRids cache ci) _ h0
      rw [markVisit_keys]
      exact h1

/-- `_tryDelete` preserves the stale invariant. -/
theorem tryDelete_staleInv (st : ClientState) (rid : String) (hInv : StaleInv st) :
    StaleInv (tryDelete st rid) := by
  rw [tryDelete]
  refine tryDeleteFold_staleInv _ _ hInv ?_ (getRefState_keysInv st.cache rid).2
  intro kv hkv
  exact (getRefState_keysInv st.cache rid).1 kv.1
    (List.mem_map.2 ⟨kv, hkv, rfl⟩)

/-- `Except` bind inversion on a success. -/
theorem except_bind_ok {α β : Type} {x : Except Err α} {f : α → Except Err β} {b : β}
    (h : (x >>= f) = Except.ok b) : ∃ a, x = Except.ok a ∧ f a = Except.ok b := by
  cases x with
  | error e =>
    change Except.error e = Except.ok b at h
    cases h
  | ok a => exact ⟨a, rfl, h⟩

/-- Setting a cache entry keeps every present key present. -/
theorem presMono_set (c : Cache) (k0 : String) (x : CacheItem) (k : String)
    (hk : (c.find? k).isSome = true) : ((c.set k0 x).find? k).isSome = true := by
  by_cases he : k = k0
  · subst he
    rw [AMap.find?_set_self]
    rfl
  · rw [AMap.find?_set_ne _ _ he]
    exact hk

/-- The stale invariant transfers to any state with the same stale set
whose cache keeps every present key present. -/
theorem staleInv_of_parts (st st2 : ClientState) (hInv : StaleInv st)
    (hs : st2.stale = st.stale)
    (hm : ∀ k, ((st.cache.find? k).isSome = true) →
      ((st2.cache.find? k).isSome = true)) : StaleInv st2 := by
  refine ⟨hs ▸ hInv.1, fun r hr => hm r (hInv.2 r ?_)⟩
  rw [hs] at hr
  exact hr

/-- Setting a cache entry preserves the stale invariant. -/
theorem staleInv_cacheSet (st : ClientState) (rid : String) (x : CacheItem)
    (hInv : StaleInv st) : StaleInv { st with cache := st.cache.set rid x } :=
  staleInv_of_parts st _ hInv rfl (fun k hk => presMono_set st.cache rid x k hk)

/-- `_removeStale` preserves the stale invariant. -/
theorem removeStale_staleInv (st : ClientState) (rid : String)
    (hInv : StaleInv st) : StaleInv (removeStale st rid) :=
  ⟨hInv.1.erase rid, fun r hr => hInv.2 r (List.mem_of_mem_erase hr)⟩

/-- The create phase preserves the stale invariant (existing stale items
are un-staled, never orphaned). -/
theorem createItems_staleInv {δ : Type} (tid : RType) (shell : ResData) :
    ∀ (l : List (String × δ)) (st : ClientState), StaleInv st →
    StaleInv (createItems tid shell st l).1 := by
  intro l
  induction l with
  | nil =>
    intro st hInv
    exact hInv
  | cons kv rest ih =>
    intro st hInv
    obtain ⟨rid, d⟩ := kv
    cases hf : st.cache.find? rid with
    | none =>
      simp only [createItems, hf]
      exact ih _ (staleInv_cacheSet st rid _ hInv)
    | some ci =>
      cases hi : ci.item with
      | some rd =>
        simp only [createItems, hf, hi]
        split
        · exact ih _ (removeStale_staleInv st rid hInv)
        · exact ih _ (removeStale_staleInv st rid hInv)
      | none =>
        simp only [createItems, hf, hi]
        exact ih _ (staleInv_cacheSet (removeStale st rid) rid _
          (removeStale_staleInv st rid hInv))

/-- `prepareData` on one value keeps every present cache key present. -/
theorem prepareVal_presMono (cache : Cache) (v : WireVal) (out : Cache × Value)
    (h : prepareVal cache v = Except.ok out) :
    ∀ k, ((cache.find? k).isSome = true) → ((out.1.find? k).isSome = true) := by
  intro k hk
  cases v with
  | prim n =>
    simp only [prepareVal] at h
    cases h
    exact hk
  | act =>
    simp only [prepareVal] at h
    cases h
    exact hk
  | obj =>
    simp only [prepareVal] at h
    cases h
    exact hk
  | ref r =>
    cases hf : cache.find? r with
    | none =>
      simp only [prepareVal, hf] at h
      cases h
    | some ci =>
      simp only [prepareVal, hf] at h
      cases h
      exact presMono_set cache r ci.addIndirect k hk

/-- The model `prepareData` keeps every present cache key present. -/
theorem prepareModelData_presMono :
    ∀ (l : List (String × WireVal)) (cache : Cache)
      (out : Cache × List (String × Value)),
    prepareModelData cache l = Except.ok out →
    ∀ k, ((cache.find? k).isSome = true) → ((out.1.find? k).isSome = true) := by
  intro l
  induction l with
  | nil =>
    intro cache out h k hk
    simp only [prepareModelData] at h
    cases h
    exact hk
  | cons kv rest ih =>
    intro cache out h k hk
    obtain ⟨key, v⟩ := kv
    simp only [prepareModelData] at h
    obtain ⟨cv, hcv, h⟩ := except_bind_ok h
    obtain ⟨cfs, hcfs, h⟩ := except_bind_ok h
    cases h
    exact ih cv.1 cfs hcfs k (prepareVal_presMono cache v cv hcv k hk)

/-- The collection `prepareData` keeps every present cache key present. -/
theorem prepareCollectionData_presMono :
    ∀ (l : List WireVal) (cache : Cache) (out : Cache × List Value),
    prepareCollectionData cache l = Except.ok out →
    ∀ k, ((cache.find? k).isSome = true) → ((out.1.find? k).isSome = true) := by
  intro l
  induction l with
  | nil =>
    intro cache out h k hk
    simp only [prepareCollectionData] at h
    cases h
    exact hk
  | cons v rest ih =>
    intro cache out h k hk
    simp only [prepareCollectionData] at h
    obtain ⟨cv, hcv, h⟩ := except_bind_ok h
    obtain ⟨cvs, hcvs, h⟩ := except_bind_ok h
    cases h
    exact ih cv.1 cvs hcvs k (prepareVal_presMono cache v cv hcv k hk)

/-- The model init phase preserves the stale invariant. -/
theorem initModelItems_staleInv :
    ∀ (rids : List String) (st : ClientState) (refs : AMap (AMap WireVal))
      (out : ClientState),
    initModelItems st refs rids = Except.ok out → StaleInv st → StaleInv out := by
  intro rids
  induction rids with
  | nil =>
    intro st refs out h hInv
    simp only [initModelItems] at h
    cases h
    exact hInv
  | cons rid rest ih =>
    intro st refs out h hInv
    cases hf : refs.find? rid with
    | none =>
      simp only [initModelItems, hf] at h
      exact ih _ _ _ h hInv
    | some dta =>
      simp only [initModelItems, hf] at h
      obtain ⟨cf, hcf, h⟩ := except_bind_ok h
      refine ih _ _ _ h ?_
      have hm := prepareModelData_presMono dta st.cache cf hcf
      cases hf2 : cf.1.find? rid with
      | none => exact staleInv_of_parts st _ hInv rfl hm
      | some ci =>
        refine staleInv_of_parts st _ hInv rfl ?_
        intro k hk
        exact presMono_set cf.1 rid { ci with item := some (ResData.model cf.2) }
          k (hm k hk)

/-- The collection init phase preserves the stale invariant. -/
theorem initCollectionItems_staleInv :
    ∀ (rids : List String) (st : ClientState) (refs : AMap (List WireVal))
      (out : ClientState),
    initCollectionItems st refs rids = Except.ok out → StaleInv st →
    StaleInv out := by
  intro rids
  induction rids with
  | nil =>
    intro st refs out h hInv
    simp only [initCollectionItems] at h
    cases h
    exact hInv
  | cons rid rest ih =>
    intro st refs out h hInv
    cases hf : refs.find? rid with
    | none =>
      simp only [initCollectionItems, hf] at h
      exact ih _ _ _ h hInv
    | some dta =>
      simp only [initCollectionItems, hf] at h
      obtain ⟨cv, hcv, h⟩ := except_bind_ok h
      refine ih _ _ _ h ?_
      have hm := prepareCollectionData_presMono dta st.cache cv hcv
      cases hf2 : cv.1.find? rid with
      | none => exact staleInv_of_parts st _ hInv rfl hm
      | some ci =>
        refine staleInv_of_parts st _ hInv rfl ?_
        intro k hk
        exact presMono_set cv.1 rid { ci with item := some (ResData.collection cv.2) }
          k (hm k hk)

/-- The `rm` loop of `_handleChangeEvent` preserves the stale invariant. -/
theorem applyRm_staleInv :
    ∀ (l : List (String × Int)) (st : ClientState)
      (out : ClientState × List String),
    applyRm st l = Except.ok out → StaleInv st → StaleInv out.1 := by
  intro l
  induction l with
  | nil =>
    intro st out h hInv
    simp only [applyRm] at h
    cases h
    exact hInv
  | cons kv rest ih =>
    intro st out h hInv
    obtain ⟨rid, r⟩ := kv
    cases hf : st.cache.find? rid with
    | none =>
      simp only [applyRm, hf] at h
      cases h
    | some ci =>
      simp only [applyRm, hf] at h
      split at h
      · obtain ⟨o, ho, h⟩ := except_bind_ok h
        cases h
        exact ih _ o ho (tryDelete_staleInv _ rid
          (staleInv_cacheSet st rid (ci.removeIndirectN r) hInv))
      · exact ih _ _ h (staleInv_cacheSet st rid (ci.removeIndirectN r) hInv)

/-- `_handleUnsubscribeEvent` preserves the stale invariant. -/
theorem handleUnsubscribeEvent_staleInv (st : ClientState) (rid : String)
    (hInv : StaleInv st) : StaleInv (handleUnsubscribeEvent st rid).1 := by
  cases hf : st.cache.find? rid with
  | none =>
    simp only [handleUnsubscribeEvent, hf]
    exact hInv
  | some ci =>
    simp only [handleUnsubscribeEvent, hf]
    exact tryDelete_staleInv _ rid
      (staleInv_cacheSet st rid (ci.setSubscribed false) hInv)

/-- Every successful handler turn preserves the stale invariant. -/
theorem exec_staleInv :
    ∀ (fuel : Nat) (c : Call) (st : ClientState)
      (out : ClientState × List Emit × Bool),
    exec fuel c st = Except.ok out → StaleInv st → StaleInv out.1 := by
  intro fuel
  induction fuel with
  | zero =>
    intro c st out h hInv
    change Except.error Err.outOfFuel = Except.ok out at h
    cases h
  | succ fuel ih =>
    intro c st out h hInv
    cases c with
    | cacheRes b =>
      simp only [exec] at h
      obtain ⟨st1, h1, h⟩ := except_bind_ok h
      obtain ⟨st2, h2, h⟩ := except_bind_ok h
      obtain ⟨r1, h3, h⟩ := except_bind_ok h
      obtain ⟨r2, h4, h⟩ := except_bind_ok h
      cases h
      exact ih _ _ r2 h4 (ih _ _ r1 h3
        (initCollectionItems_staleInv _ _ _ _ h2
          (initModelItems_staleInv _ _ _ _ h1
            (createItems_staleInv _ _ b.errors _
              (createItems_staleInv _ _ b.collections _
                (createItems_staleInv _ _ b.models st hInv))))))
    | syncMs refs rids =>
      cases rids with
      | nil =>
        simp only [exec] at h
        cases h
        exact hInv
      | cons rid rest =>
        cases hf : refs.find? rid with
        | none =>
          simp only [exec, hf] at h
          exact ih _ _ _ h hInv
        | some dta =>
          simp only [exec, hf] at h
          obtain ⟨r1, h1, h⟩ := except_bind_ok h
          obtain ⟨r2, h2, h⟩ := except_bind_ok h
          cases h
          exact ih _ _ r2 h2 (ih _ _ r1 h1 hInv)
    | syncCs refs rids =>
      cases rids with
      | nil =>
        simp only [exec] at h
        cases h
        exact hInv
      | cons rid rest =>
        cases hf : refs.find? rid with
        | none =>
          simp only [exec, hf] at h
          exact ih _ _ _ h hInv
        | some dta =>
          simp only [exec, hf] at h
          obtain ⟨r1, h1, h⟩ := except_bind_ok h
          obtain ⟨r2, h2, h⟩ := except_bind_ok h
          cases h
          exact ih _ _ r2 h2 (ih _ _ r1 h1 hInv)
    | syncColl rid dta =>
      cases hf : st.cache.find? rid with
      | none =>
        simp only [exec, hf] at h
        cases h
      | some ci =>
        simp only [exec, hf] at h
        obtain ⟨bv, hb, h⟩ := except_bind_ok h
        exact ih _ _ _ h hInv
    | applyDiff rid dta evs =>
      cases evs with
      | nil =>
        simp only [exec] at h
        cases h
        exact hInv
      | cons ev rest =>
        cases ev with
        | rem idx =>
          simp only [exec] at h
          obtain ⟨r1, h1, h⟩ := except_bind_ok h
          obtain ⟨r2, h2, h⟩ := except_bind_ok h
          cases h
          exact ih _ _ r2 h2 (ih _ _ r1 h1 hInv)
        | add n idx =>
          cases hg : dta.get? n with
          | none =>
            simp only [exec, hg] at h
            cases h
          | some v =>
            simp only [exec, hg] at h
            obtain ⟨r1, h1, h⟩ := except_bind_ok h
            obtain ⟨r2, h2, h⟩ := except_bind_ok h
            cases h
            exact ih _ _ r2 h2 (ih _ _ r1 h1 hInv)
    | handleCh rid d =>
      cases hf : st.cache.find? rid with
      | none =>
        simp only [exec, hf] at h
        cases h
      | some ci =>
        simp only [exec, hf] at h
        split at h
        · cases h
          exact hInv
        · obtain ⟨rB, hB, h⟩ := except_bind_ok h
          obtain ⟨rv, hv, h⟩ := except_bind_ok h
          obtain ⟨ar, ha, h⟩ := except_bind_ok h
          cases h
          have hA := applyRm_staleInv _ _ _ ha (ih _ _ _ hB hInv)
          dsimp only []
          split
          · exact staleInv_of_parts ar.1 _ hA rfl
              (fun k hk => presMono_set _ _ _ k hk)
          · exact hA
    | handleAdd rid d =>
      cases hf : st.cache.find? rid with
      | none =>
        simp only [exec, hf] at h
        cases h
      | some ci =>
        simp only [exec, hf] at h
        split at h
        · cases h
          exact hInv
        · split at h
          · rename_i r heq1
            obtain ⟨rB, hB, h⟩ := except_bind_ok h
            split at h
            · cases h
            · rename_i rci heq2
              cases h
              have hS : StaleInv
                  { rB.1 with cache := rB.1.cache.set r rci.addIndirect } :=
                staleInv_of_parts rB.1 _ (ih _ _ _ hB hInv) rfl
                  (fun k hk => presMono_set _ _ _ k hk)
              cases hf3 : (rB.1.cache.set r rci.addIndirect).find? rid with
              | none => exact hS
              | some ci3 =>
                exact staleInv_of_parts _ _ hS rfl
                  (fun k hk => presMono_set _ _ _ k hk)
          · cases h
            exact staleInv_of_parts st _ hInv rfl
              (fun k hk => presMono_set _ _ _ k hk)
          · cases h
            exact staleInv_of_parts st _ hInv rfl
              (fun k hk => presMono_set _ _ _ k hk)
          · cases h
            exact staleInv_of_parts st _ hInv rfl
              (fun k hk => presMono_set _ _ _ k hk)
    | handleRem rid d =>
      cases hf : st.cache.find? rid with
      | none =>
        simp only [exec, hf] at h
        cases h
      | some ci =>
        simp only [exec, hf] at h
        split at h
        · cases h
          exact hInv
        · split at h
          · split at h
            · cases h
            · cases h
              dsimp only []
              refine tryDelete_staleInv _ _ ?_
              refine staleInv_of_parts st _ hInv rfl ?_
              intro k hk
              exact presMono_set _ _ _ k (presMono_set _ _ _ k hk)
          · cases h
            dsimp only []
            exact staleInv_of_parts st _ hInv rfl
              (fun k hk => presMono_set _ _ _ k hk)
    | handleEv name d =>
      cases hsp : splitEventName name with
      | none =>
        simp only [exec, hsp] at h
        cases h
      | some rn =>
        cases hfind : st.cache.find? rn.1 with
        | none =>
          simp only [exec, hsp, hfind] at h
          cases h
        | some ci0 =>
          simp only [exec, hsp, hfind] at h
          split at h
          · split at h
            · obtain ⟨y, hy, h⟩ := except_bind_ok h
              have hy1 := ih _ _ y hy hInv
              split at h
              · cases h
                exact hy1
              · cases h
                exact hy1
            · obtain ⟨y, hy, h⟩ := except_bind_ok h
              cases hy
          · split at h
            · split at h
              · obtain ⟨y, hy, h⟩ := except_bind_ok h
                have hy1 := ih _ _ y hy hInv
                split at h
                · cases h
                  exact hy1
                · cases h
                  exact hy1
              · obtain ⟨y, hy, h⟩ := except_bind_ok h
                cases hy
            · split at h
              · split at h
                · obtain ⟨y, hy, h⟩ := except_bind_ok h
                  have hy1 := ih _ _ y hy hInv
                  split at h
                  · cases h
                    exact hy1
                  · cases h
                    exact hy1
                · obtain ⟨y, hy, h⟩ := except_bind_ok h
                  cases hy
              · split at h
                · obtain ⟨y, hy, h⟩ := except_bind_ok h
                  cases hy
                  split at h
                  · cases h
                    exact handleUnsubscribeEvent_staleInv st rn.1 hInv
                  · cases h
                    exact handleUnsubscribeEvent_staleInv st rn.1 hInv
                · obtain ⟨y, hy, h⟩ := except_bind_ok h
                  cases hy
                  split at h
                  · cases h
                    exact hInv
                  · cases h
                    exact hInv

/-- C9: every rid in the stale set has a cache entry: the invariant is
preserved by every successful handler turn (`exec`), and the one cache
eviction operation (`_deleteRef`) removes the evicted rid from the stale
set in the same step. -/
theorem staleSetInvariant :
    (∀ (fuel : Nat) (c : Call) (st : ClientState)
      (out : ClientState × List Emit × Bool),
      exec fuel c st = Except.ok out → StaleInv st → StaleInv out.1) ∧
    (∀ (st : ClientState) (rid : String), StaleInv st →
      StaleInv (deleteRef st rid) ∧
      (deleteRef st rid).stale = st.stale.erase rid) :=
  ⟨exec_staleInv, fun st rid hInv =>
    ⟨deleteRef_staleInv st rid hInv, deleteRef_stale st rid hInv⟩⟩

/-- Witness for C9 at a concrete state: a cached, stale rid survives a
handler turn with the invariant intact, and deleting it erases it from
the stale set. -/
theorem staleSetInvariant_witness :
    StaleInv ({ cache := [("a", newCacheItem "a")], stale := ["a"] } : ClientState) ∧
    (deleteRef { cache := [("a", newCacheItem "a")], stale := ["a"] } "a").stale =
      List.erase ["a"] "a" :=
  ⟨staleSetInvariant.1 2 (Call.cacheRes {})
      { cache := [("a", newCacheItem "a")], stale := ["a"] }
      ({ cache := [("a", newCacheItem "a")], stale := ["a"] }, [], true)
      (by decide) ⟨by decide, by decide⟩,
   (staleSetInvariant.2 { cache := [("a", newCacheItem "a")], stale := ["a"] } "a"
      ⟨by decide, by decide⟩).2⟩

/-! ## C3: the collection diff round trip -/

set_option maxHeartbeats 1000000

/-! ### One-step unfoldings -/

theorem btSpec_def {α : Type} [DecidableEq α] (aa bb : List α) (i j : Nat) :
    btSpec aa bb i j =
      if 0 < i ∧ 0 < j ∧ aa.get? (i - 1) = bb.get? (j - 1) then
        btSpec aa bb (i - 1) (j - 1)
      else if 0 < j ∧ (i = 0 ∨ lcsC aa bb i (j - 1) ≥ lcsC aa bb (i - 1) j) then
        ((btSpec aa bb i (j - 1)).1,
         (j - 1, i, (btSpec aa bb i (j - 1)).1.length) :: (btSpec aa bb i (j - 1)).2)
      else if 0 < i ∧ (j = 0 ∨ lcsC aa bb i (j - 1) < lcsC aa bb (i - 1) j) then
        ((i - 1) :: (btSpec aa bb (i - 1) j).1, (btSpec aa bb (i - 1) j).2)
      else ([], []) := by
  conv_lhs => rw [btSpec]
  rfl

theorem backtrack_def {α : Type} [DecidableEq α] (aa bb : List α)
    (i j idx r : Nat) (accR : List Nat) (accA : List (Nat × Nat × Nat)) :
    backtrack aa bb i j idx r accR accA =
      if 0 < i ∧ 0 < j ∧ aa.get? (i - 1) = bb.get? (j - 1) then
        backtrack aa bb (i - 1) (j - 1) (idx - 1) r accR accA
      else if 0 < j ∧ (i = 0 ∨ lcsC aa bb i (j - 1) ≥ lcsC aa bb (i - 1) j) then
        backtrack aa bb i (j - 1) idx r accR ((j - 1, idx, r) :: accA)
      else if 0 < i ∧ (j = 0 ∨ lcsC aa bb i (j - 1) < lcsC aa bb (i - 1) j) then
        backtrack aa bb (i - 1) j (idx - 1) (r + 1) (accR ++ [idx - 1]) accA
      else (accR, accA, r) := by
  conv_lhs => rw [backtrack]
  rfl

theorem trimSuf_def {α : Type} [DecidableEq α] (a b : List α) (s m n : Nat) :
    trimSuf a b s m n =
      if s < m ∧ s < n ∧ a.get? (m - 1) = b.get? (n - 1) then
        trimSuf a b s (m - 1) (n - 1)
      else (m, n) := by
  conv_lhs => rw [trimSuf]
  rfl

/-! ### Position-set dropping -/

theorem dropPosFrom_nil {α : Type} (k : Nat) (P : List Nat) :
    dropPosFrom k ([] : List α) P = [] := rfl

theorem dropPosFrom_cons {α : Type} (k : Nat) (x : α) (xs : List α) (P : List Nat) :
    dropPosFrom k (x :: xs) P =
      if k ∈ P then dropPosFrom (k + 1) xs P
      else x :: dropPosFrom (k + 1) xs P := rfl

theorem dropPosFrom_nilP {α : Type} : ∀ (l : List α) (k : Nat),
    dropPosFrom k l [] = l := by
  intro l
  induction l with
  | nil => intro k; rfl
  | cons x xs ih =>
    intro k
    rw [dropPosFrom_cons, if_neg (by simp), ih (k + 1)]

theorem dropPosFrom_irrel {α : Type} : ∀ (l : List α) (k : Nat) (P : List Nat),
    (∀ q ∈ P, q < k) → dropPosFrom k l P = l := by
  intro l
  induction l with
  | nil => intro k P _; rfl
  | cons x xs ih =>
    intro k P h
    rw [dropPosFrom_cons]
    rw [if_neg (fun hk => absurd (h k hk) (by omega))]
    rw [ih (k + 1) P (fun q hq => by have := h q hq; omega)]

theorem dropPosFrom_cons_lt {α : Type} : ∀ (l : List α) (k h0 : Nat) (P : List Nat),
    h0 < k → dropPosFrom k l (h0 :: P) = dropPosFrom k l P := by
  intro l
  induction l with
  | nil => intro k h0 P _; rfl
  | cons x xs ih =>
    intro k h0 P hlt
    rw [dropPosFrom_cons, dropPosFrom_cons]
    have hkh : ¬k = h0 := by omega
    by_cases hk : k ∈ P
    · rw [if_pos (List.mem_cons_of_mem _ hk), if_pos hk, ih (k + 1) h0 P (by omega)]
    · rw [if_neg (fun hc => (List.mem_cons.mp hc).elim (fun h1 => hkh h1)
        (fun h1 => hk h1)), if_neg hk, ih (k + 1) h0 P (by omega)]

theorem dropPosFrom_append_tail {α : Type} : ∀ (l : List α) (t : List α) (k : Nat)
    (P : List Nat), (∀ q ∈ P, q < k + l.length) →
    dropPosFrom k (l ++ t) P = dropPosFrom k l P ++ t := by
  intro l
  induction l with
  | nil =>
    intro t k P h
    simp only [List.nil_append, dropPosFrom_nil]
    rw [dropPosFrom_irrel t k P (fun q hq => by have := h q hq; simp at this; omega)]
  | cons x xs ih =>
    intro t k P h
    rw [List.cons_append, dropPosFrom_cons, dropPosFrom_cons]
    by_cases hk : k ∈ P
    · rw [if_pos hk, if_pos hk, ih t (k + 1) P
        (fun q hq => by have := h q hq; simp at this ⊢; omega)]
    · rw [if_neg hk, if_neg hk, ih t (k + 1) P
        (fun q hq => by have := h q hq; simp at this ⊢; omega)]
      rfl

theorem dropPosFrom_append_drop {α : Type} : ∀ (l : List α) (x : α) (k h : Nat)
    (P : List Nat), h = k + l.length → (∀ q ∈ P, q < k + l.length) →
    dropPosFrom k (l ++ [x]) (h :: P) = dropPosFrom k l P := by
  intro l
  induction l with
  | nil =>
    intro x k h P hh _
    have hh0 : h = k := by simp at hh; omega
    subst hh0
    rw [List.nil_append, dropPosFrom_cons]
    rw [if_pos (List.mem_cons_self _ _)]
    rfl
  | cons y ys ih =>
    intro x k h P hh hp
    rw [List.cons_append, dropPosFrom_cons, dropPosFrom_cons]
    simp only [List.length_cons] at hh hp
    have hkh : ¬k = h := by omega
    by_cases hk : k ∈ P
    · rw [if_pos (List.mem_cons_of_mem _ hk), if_pos hk]
      exact ih x (k + 1) h P (by omega)
        (fun q hq => by have := hp q hq; omega)
    · rw [if_neg (fun hc => (List.mem_cons.mp hc).elim (fun h1 => hkh h1)
        (fun h1 => hk h1)), if_neg hk]
      rw [ih x (k + 1) h P (by omega)
        (fun q hq => by have := hp q hq; omega)]

theorem dropPosFrom_eraseIdx {α : Type} : ∀ (l : List α) (k p0 h : Nat)
    (R : List Nat), h = k + p0 → p0 < l.length → (∀ q ∈ R, q < k + p0) →
    dropPosFrom k l (h :: R) = dropPosFrom k (l.eraseIdx p0) R := by
  intro l
  induction l with
  | nil => intro k p0 h R _ hp _; simp at hp
  | cons y ys ih =>
    intro k p0 h R hh hp hq
    cases p0 with
    | zero =>
      have hh0 : k = h := by omega
      subst hh0
      rw [dropPosFrom_cons, if_pos (List.mem_cons_self _ _), List.eraseIdx_cons_zero]
      rw [dropPosFrom_cons_lt ys (k + 1) k R (by omega)]
      rw [dropPosFrom_irrel ys (k + 1) R (fun q hqq => by have := hq q hqq; omega),
          dropPosFrom_irrel ys k R (fun q hqq => by have := hq q hqq; omega)]
    | succ p0 =>
      rw [dropPosFrom_cons, List.eraseIdx_cons_succ, dropPosFrom_cons]
      have hkh : ¬k = h := by omega
      by_cases hk : k ∈ R
      · rw [if_pos (List.mem_cons_of_mem _ hk), if_pos hk]
        exact ih (k + 1) p0 h R (by omega) (by simp at hp; omega)
          (fun q hqq => by have := hq q hqq; omega)
      · rw [if_neg (fun hc => (List.mem_cons.mp hc).elim (fun h1 => hkh h1)
          (fun h1 => hk h1)), if_neg hk]
        rw [ih (k + 1) p0 h R (by omega) (by simp at hp; omega)
          (fun q hqq => by have := hq q hqq; omega)]

theorem insertIdx_dropPosFrom {α : Type} : ∀ (l : List α) (k w h : Nat) (x : α)
    (W : List Nat) (S : List α), h = k + w → l.get? w = some x →
    (∀ q ∈ W, k + w < q) →
    List.insertIdx w x (dropPosFrom k l (h :: W) ++ S) = dropPosFrom k l W ++ S := by
  intro l
  induction l with
  | nil => intro k w h x W S _ hx _; simp at hx
  | cons y ys ih =>
    intro k w h x W S hh hx hW
    cases w with
    | zero =>
      have hh0 : k = h := by omega
      subst hh0
      simp only [List.get?] at hx
      cases hx
      rw [dropPosFrom_cons, if_pos (List.mem_cons_self _ _)]
      rw [dropPosFrom_cons_lt ys (k + 1) k W (by omega)]
      rw [dropPosFrom_cons, if_neg (fun hc => absurd (hW k (by simpa using hc))
        (by omega))]
      rfl
    | succ w =>
      have hknotW : k ∉ W := fun hc => absurd (hW k (by simpa using hc)) (by omega)
      have hkh : ¬k = h := by omega
      rw [dropPosFrom_cons, if_neg (fun hc => (List.mem_cons.mp hc).elim
        (fun h1 => hkh h1) (fun h1 => hknotW h1))]
      rw [dropPosFrom_cons, if_neg hknotW]
      rw [List.cons_append, List.cons_append, List.insertIdx_succ_cons]
      rw [ih (k + 1) w h x W S (by omega) (by simpa using hx)
        (fun q hq => by have := hW q hq; omega)]

theorem dropPosFrom_congr_mem {α : Type} : ∀ (l : List α) (k : Nat)
    (P P2 : List Nat), (∀ q, q ∈ P ↔ q ∈ P2) →
    dropPosFrom k l P = dropPosFrom k l P2 := by
  intro l
  induction l with
  | nil => intro k P P2 _; rfl
  | cons x xs ih =>
    intro k P P2 h
    rw [dropPosFrom_cons, dropPosFrom_cons]
    by_cases hk : k ∈ P
    · rw [if_pos hk, if_pos ((h k).1 hk)]
      exact ih (k + 1) P P2 h
    · rw [if_neg hk, if_neg (fun hc => hk ((h k).2 hc))]
      rw [ih (k + 1) P P2 h]

/-! ### Small list-index lemmas -/

theorem eraseIdx_append_left2 {α : Type} : ∀ (l t : List α) (n : Nat),
    n < l.length → (l ++ t).eraseIdx n = l.eraseIdx n ++ t := by
  intro l
  induction l with
  | nil => intro t n h; simp at h
  | cons x xs ih =>
    intro t n h
    cases n with
    | zero => rfl
    | succ n =>
      rw [List.cons_append, List.eraseIdx_cons_succ, List.eraseIdx_cons_succ,
        List.cons_append]
      rw [ih t n (by simp at h; omega)]

theorem eraseIdx_append_right2 {α : Type} : ∀ (l t : List α) (n : Nat),
    (l ++ t).eraseIdx (l.length + n) = l ++ t.eraseIdx n := by
  intro l
  induction l with
  | nil => intro t n; simp
  | cons x xs ih =>
    intro t n
    rw [List.cons_append, List.length_cons]
    have he : xs.length + 1 + n = (xs.length + n) + 1 := by omega
    rw [he, List.eraseIdx_cons_succ, ih t n, List.cons_append]

theorem insertIdx_append_right2 {α : Type} : ∀ (l t : List α) (n : Nat) (x : α),
    List.insertIdx (l.length + n) x (l ++ t) = l ++ List.insertIdx n x t := by
  intro l
  induction l with
  | nil => intro t n x; simp
  | cons y ys ih =>
    intro t n x
    rw [List.cons_append, List.length_cons]
    have he : ys.length + 1 + n = (ys.length + n) + 1 := by omega
    rw [he, List.insertIdx_succ_cons, ih t n x, List.cons_append]

theorem get?_append_right2 {α : Type} : ∀ (l t : List α) (n : Nat),
    (l ++ t).get? (l.length + n) = t.get? n := by
  intro l
  induction l with
  | nil => intro t n; simp
  | cons y ys ih =>
    intro t n
    rw [List.cons_append, List.length_cons]
    have he : ys.length + 1 + n = (ys.length + n) + 1 := by omega
    rw [he]
    exact ih t n

theorem get?_some_of_lt {α : Type} : ∀ (l : List α) (n : Nat), n < l.length →
    ∃ x, l.get? n = some x := by
  intro l
  induction l with
  | nil => intro n h; simp at h
  | cons y ys ih =>
    intro n h
    cases n with
    | zero => exact ⟨y, rfl⟩
    | succ n => exact ih n (by simp at h; omega)

theorem take_succ2 {α : Type} : ∀ (l : List α) (n : Nat),
    l.take (n + 1) = l.take n ++ (l.get? n).toList := by
  intro l
  induction l with
  | nil => intro n; simp
  | cons y ys ih =>
    intro n
    cases n with
    | zero => rfl
    | succ n =>
      rw [List.take_succ_cons, List.take_succ_cons, ih n]
      rfl

theorem drop_succ_cons2 {α : Type} : ∀ (l : List α) (m : Nat) (x : α),
    l.get? m = some x → l.drop m = x :: l.drop (m + 1) := by
  intro l
  induction l with
  | nil => intro m x h; simp at h
  | cons y ys ih =>
    intro m x h
    cases m with
    | zero => simp at h; subst h; rfl
    | succ m =>
      rw [List.drop_succ_cons, List.drop_succ_cons]
      exact ih m x (by simpa using h)

/-! ### Prefix and suffix trimming facts -/

theorem commonPfxLen_nil_left {α : Type} [DecidableEq α] (b : List α) :
    commonPfxLen ([] : List α) b = 0 := by
  cases b <;> rfl

theorem commonPfxLen_nil_right {α : Type} [DecidableEq α] (a : List α) :
    commonPfxLen a ([] : List α) = 0 := by
  cases a <;> rfl

theorem commonPfxLen_cons_cons {α : Type} [DecidableEq α] (x y : α)
    (xs ys : List α) :
    commonPfxLen (x :: xs) (y :: ys) =
      if x = y then commonPfxLen xs ys + 1 else 0 := rfl

theorem commonPfxLen_le_left {α : Type} [DecidableEq α] :
    ∀ (a b : List α), commonPfxLen a b ≤ a.length := by
  intro a
  induction a with
  | nil => intro b; rw [commonPfxLen_nil_left]; simp
  | cons x xs ih =>
    intro b
    cases b with
    | nil => rw [commonPfxLen_nil_right]; simp
    | cons y ys =>
      rw [commonPfxLen_cons_cons]
      by_cases h : x = y
      · rw [if_pos h]; have := ih ys; simp; omega
      · rw [if_neg h]; simp

theorem commonPfxLen_le_right {α : Type} [DecidableEq α] :
    ∀ (a b : List α), commonPfxLen a b ≤ b.length := by
  intro a
  induction a with
  | nil => intro b; rw [commonPfxLen_nil_left]; simp
  | cons x xs ih =>
    intro b
    cases b with
    | nil => rw [commonPfxLen_nil_right]; simp
    | cons y ys =>
      rw [commonPfxLen_cons_cons]
      by_cases h : x = y
      · rw [if_pos h]; have := ih ys; simp; omega
      · rw [if_neg h]; simp

theorem commonPfxLen_take {α : Type} [DecidableEq α] :
    ∀ (a b : List α), a.take (commonPfxLen a b) = b.take (commonPfxLen a b) := by
  intro a
  induction a with
  | nil => intro b; rw [commonPfxLen_nil_left]; simp
  | cons x xs ih =>
    intro b
    cases b with
    | nil => rw [commonPfxLen_nil_right]; simp
    | cons y ys =>
      rw [commonPfxLen_cons_cons]
      by_cases h : x = y
      · rw [if_pos h]
        subst h
        rw [List.take, List.take, ih ys]
      · rw [if_neg h]
        simp

theorem commonPfxLen_full {α : Type} [DecidableEq α] :
    ∀ (a b : List α), commonPfxLen a b = a.length → commonPfxLen a b = b.length →
    a = b := by
  intro a
  induction a with
  | nil =>
    intro b h1 h2
    cases b with
    | nil => rfl
    | cons y ys => rw [commonPfxLen_nil_left] at h2; simp at h2
  | cons x xs ih =>
    intro b h1 h2
    cases b with
    | nil => rw [commonPfxLen_nil_right] at h1; simp at h1
    | cons y ys =>
      rw [commonPfxLen_cons_cons] at h1 h2
      by_cases h : x = y
      · rw [if_pos h] at h1 h2
        subst h
        simp at h1 h2
        rw [ih ys h1 h2]
      · rw [if_neg h] at h1
        simp at h1

theorem trimSuf_spec {α : Type} [DecidableEq α] (a b : List α) (s : Nat) :
    ∀ (N m n : Nat), m ≤ N → m ≤ a.length → n ≤ b.length → s ≤ m → s ≤ n →
    a.drop m = b.drop n →
    s ≤ (trimSuf a b s m n).1 ∧ s ≤ (trimSuf a b s m n).2 ∧
    (trimSuf a b s m n).1 ≤ a.length ∧ (trimSuf a b s m n).2 ≤ b.length ∧
    a.drop (trimSuf a b s m n).1 = b.drop (trimSuf a b s m n).2 := by
  intro N
  induction N with
  | zero =>
    intro m n hN hm hn hsm hsn hd
    rw [trimSuf_def]
    rw [if_neg (fun hc => absurd hc.1 (by omega))]
    exact ⟨hsm, hsn, hm, hn, hd⟩
  | succ N ih =>
    intro m n hN hm hn hsm hsn hd
    rw [trimSuf_def]
    by_cases hg : s < m ∧ s < n ∧ a.get? (m - 1) = b.get? (n - 1)
    · rw [if_pos hg]
      obtain ⟨x, hx⟩ := get?_some_of_lt a (m - 1) (by omega)
      have hy : b.get? (n - 1) = some x := by rw [← hg.2.2, hx]
      have hda : a.drop (m - 1) = x :: a.drop m := by
        have hstep := drop_succ_cons2 a (m - 1) x hx
        have hmm : m - 1 + 1 = m := by omega
        rw [hmm] at hstep
        exact hstep
      have hdb : b.drop (n - 1) = x :: b.drop n := by
        have hstep := drop_succ_cons2 b (n - 1) x hy
        have hnn : n - 1 + 1 = n := by omega
        rw [hnn] at hstep
        exact hstep
      exact ih (m - 1) (n - 1) (by omega) (by omega) (by omega) (by omega)
        (by omega) (by rw [hda, hdb, hd])
    · rw [if_neg hg]
      exact ⟨hsm, hsn, hm, hn, hd⟩


/-! ### The structural invariants of the backtrack -/

theorem btSpec_zero {α : Type} [DecidableEq α] (aa bb : List α) :
    btSpec aa bb 0 0 = ([], []) := by
  rw [btSpec_def]
  rw [if_neg (fun hc => absurd hc.1 (by omega))]
  rw [if_neg (fun hc => absurd hc.1 (by omega))]
  rw [if_neg (fun hc => absurd hc.1 (by omega))]

theorem btSpec_big_zz {α : Type} [DecidableEq α] (aa bb : List α) :
    (∀ p ∈ (btSpec aa bb 0 0).1, p < 0) ∧
    (∀ t ∈ (btSpec aa bb 0 0).2, t.1 < 0 ∧ t.2.2 ≤ t.2.1 ∧
      t.2.2 ≤ (btSpec aa bb 0 0).1.length) ∧
    ((btSpec aa bb 0 0).1.length ≤ 0 ∧ (btSpec aa bb 0 0).2.length ≤ 0 ∧
      0 + (btSpec aa bb 0 0).2.length = 0 + (btSpec aa bb 0 0).1.length) ∧
    List.Pairwise (fun p q => q < p) (btSpec aa bb 0 0).1 ∧
    List.Pairwise (fun t1 t2 : Nat × Nat × Nat => t2.1 < t1.1) (btSpec aa bb 0 0).2 ∧
    addsWF (btSpec aa bb 0 0).2 ∧
    dropPosFrom 0 (aa.take 0) (btSpec aa bb 0 0).1 =
      dropPosFrom 0 (bb.take 0) ((btSpec aa bb 0 0).2.map Prod.fst) := by
  rw [btSpec_zero]
  refine ⟨by simp, by simp, by simp, by simp, by simp, trivial, ?_⟩
  simp [dropPosFrom_nil]

theorem btSpec_big {α : Type} [DecidableEq α] (aa bb : List α) :
    ∀ (N i j : Nat), i + j ≤ N → i ≤ aa.length → j ≤ bb.length →
    (∀ p ∈ (btSpec aa bb i j).1, p < i) ∧
    (∀ t ∈ (btSpec aa bb i j).2, t.1 < j ∧ t.2.2 ≤ t.2.1 ∧
      t.2.2 ≤ (btSpec aa bb i j).1.length) ∧
    ((btSpec aa bb i j).1.length ≤ i ∧ (btSpec aa bb i j).2.length ≤ j ∧
      i + (btSpec aa bb i j).2.length = j + (btSpec aa bb i j).1.length) ∧
    List.Pairwise (fun p q => q < p) (btSpec aa bb i j).1 ∧
    List.Pairwise (fun t1 t2 : Nat × Nat × Nat => t2.1 < t1.1) (btSpec aa bb i j).2 ∧
    addsWF (btSpec aa bb i j).2 ∧
    dropPosFrom 0 (aa.take i) (btSpec aa bb i j).1 =
      dropPosFrom 0 (bb.take j) ((btSpec aa bb i j).2.map Prod.fst) := by
  intro N
  induction N with
  | zero =>
    intro i j hN hi hj
    have hi0 : i = 0 := by omega
    have hj0 : j = 0 := by omega
    subst hi0
    subst hj0
    exact btSpec_big_zz aa bb
  | succ N ih =>
    intro i j hN hi hj
    by_cases h1 : 0 < i ∧ 0 < j ∧ aa.get? (i - 1) = bb.get? (j - 1)
    · have hstep : btSpec aa bb i j = btSpec aa bb (i - 1) (j - 1) := by
        rw [btSpec_def, if_pos h1]
      obtain ⟨B1, B2, B3, B4, B5, B6, B7⟩ :=
        ih (i - 1) (j - 1) (by omega) (by omega) (by omega)
      rw [hstep]
      refine ⟨fun p hp => by have := B1 p hp; omega,
        fun t ht => ⟨by have := (B2 t ht).1; omega, (B2 t ht).2.1, (B2 t ht).2.2⟩,
        ⟨by omega, by omega, by omega⟩, B4, B5, B6, ?_⟩
    -- the keep step appends the matched element on both sides
      have hi1 : i - 1 + 1 = i := by omega
      have hj1 : j - 1 + 1 = j := by omega
      have ha : aa.take i = aa.take (i - 1) ++ (aa.get? (i - 1)).toList := by
        have := take_succ2 aa (i - 1)
        rw [hi1] at this
        exact this
      have hbt : bb.take j = bb.take (j - 1) ++ (bb.get? (j - 1)).toList := by
        have := take_succ2 bb (j - 1)
        rw [hj1] at this
        exact this
      have hlenA : (aa.take (i - 1)).length = i - 1 := by
        simp [List.length_take]
        omega
      have hlenB : (bb.take (j - 1)).length = j - 1 := by
        simp [List.length_take]
        omega
      rw [ha, hbt]
      rw [dropPosFrom_append_tail (aa.take (i - 1)) _ 0 _
        (fun q hq => by have := B1 q hq; omega)]
      rw [dropPosFrom_append_tail (bb.take (j - 1)) _ 0 _
        (fun q hq => by
          obtain ⟨t, ht, hteq⟩ := List.mem_map.mp hq
          have := (B2 t ht).1
          omega)]
      rw [B7, h1.2.2]
    · by_cases h2 : 0 < j ∧ (i = 0 ∨ lcsC aa bb i (j - 1) ≥ lcsC aa bb (i - 1) j)
      · have hstep : btSpec aa bb i j =
            ((btSpec aa bb i (j - 1)).1,
             (j - 1, i, (btSpec aa bb i (j - 1)).1.length) ::
               (btSpec aa bb i (j - 1)).2) := by
          rw [btSpec_def, if_neg h1, if_pos h2]
        obtain ⟨B1, B2, B3, B4, B5, B6, B7⟩ :=
          ih i (j - 1) (by omega) hi (by omega)
        rw [hstep]
        refine ⟨B1, ?_, ⟨B3.1, by simp; omega, by simp; omega⟩, B4, ?_, ?_, ?_⟩
        · intro t ht
          rcases List.mem_cons.mp ht with ht1 | ht1
          · subst ht1
            exact ⟨by omega, B3.1, le_rfl⟩
          · exact ⟨by have := (B2 t ht1).1; omega, (B2 t ht1).2.1, (B2 t ht1).2.2⟩
        · exact List.pairwise_cons.mpr ⟨fun t ht => (B2 t ht).1, B5⟩
        · exact ⟨B3.1, by dsimp only []; omega, B6⟩
        · obtain ⟨y, hy⟩ := get?_some_of_lt bb (j - 1) (by omega)
          have hj1 : j - 1 + 1 = j := by omega
          have hbt : bb.take j = bb.take (j - 1) ++ [y] := by
            have := take_succ2 bb (j - 1)
            rw [hj1, hy] at this
            exact this
          have hlenB : (bb.take (j - 1)).length = j - 1 := by
            simp [List.length_take]
            omega
          rw [hbt, List.map_cons]
          rw [dropPosFrom_append_drop (bb.take (j - 1)) y 0 (j - 1) _
            (by omega)
            (fun q hq => by
              obtain ⟨t, ht, hteq⟩ := List.mem_map.mp hq
              have := (B2 t ht).1
              omega)]
          exact B7
      · by_cases h3 : 0 < i ∧ (j = 0 ∨ lcsC aa bb i (j - 1) < lcsC aa bb (i - 1) j)
        · have hstep : btSpec aa bb i j =
              ((i - 1) :: (btSpec aa bb (i - 1) j).1,
               (btSpec aa bb (i - 1) j).2) := by
            rw [btSpec_def, if_neg h1, if_neg h2, if_pos h3]
          obtain ⟨B1, B2, B3, B4, B5, B6, B7⟩ :=
            ih (i - 1) j (by omega) (by omega) hj
          rw [hstep]
          refine ⟨?_, ?_, ⟨by simp; omega, B3.2.1, by simp; omega⟩, ?_, B5, B6, ?_⟩
          · intro p hp
            rcases List.mem_cons.mp hp with hp1 | hp1
            · omega
            · have := B1 p hp1
              omega
          · intro t ht
            refine ⟨(B2 t ht).1, (B2 t ht).2.1, ?_⟩
            have := (B2 t ht).2.2
            simp
            omega
          · exact List.pairwise_cons.mpr ⟨fun p hp => B1 p hp, B4⟩
          · obtain ⟨x, hx⟩ := get?_some_of_lt aa (i - 1) (by omega)
            have hi1 : i - 1 + 1 = i := by omega
            have hat : aa.take i = aa.take (i - 1) ++ [x] := by
              have := take_succ2 aa (i - 1)
              rw [hi1, hx] at this
              exact this
            have hlenA : (aa.take (i - 1)).length = i - 1 := by
              simp [List.length_take]
              omega
            rw [hat]
            rw [dropPosFrom_append_drop (aa.take (i - 1)) x 0 (i - 1) _
              (by omega)
              (fun q hq => by have := B1 q hq; omega)]
            exact B7
        · have hij : i = 0 ∧ j = 0 := by
            by_cases hj0 : j = 0
            · refine ⟨?_, hj0⟩
              by_contra hi0
              exact h3 ⟨by omega, Or.inl hj0⟩
            · by_cases hi0 : i = 0
              · exact absurd ⟨by omega, Or.inl hi0⟩ h2
              · have hge : ¬lcsC aa bb i (j - 1) ≥ lcsC aa bb (i - 1) j :=
                  fun hc => h2 ⟨by omega, Or.inr hc⟩
                have hlt : lcsC aa bb i (j - 1) < lcsC aa bb (i - 1) j := by
                  omega
                exact absurd ⟨by omega, Or.inr hlt⟩ h3
          obtain ⟨hi0, hj0⟩ := hij
          subst hi0
          subst hj0
          exact btSpec_big_zz aa bb


/-! ### The accumulator form of the backtrack -/

theorem backtrack_btSpec {α : Type} [DecidableEq α] (aa bb : List α) :
    ∀ (N i j : Nat), i + j ≤ N → ∀ (d r : Nat) (accR : List Nat)
      (accA : List (Nat × Nat × Nat)),
    backtrack aa bb i j (i + d) r accR accA =
      (accR ++ (btSpec aa bb i j).1.map (fun p => p + d),
       ((btSpec aa bb i j).2.map (fun t =>
         (t.1, t.2.1 + d, r + (btSpec aa bb i j).1.length - t.2.2))).reverse ++ accA,
       r + (btSpec aa bb i j).1.length) := by
  intro N
  induction N with
  | zero =>
    intro i j hN d r accR accA
    have hi0 : i = 0 := by omega
    have hj0 : j = 0 := by omega
    subst hi0
    subst hj0
    rw [backtrack_def]
    rw [if_neg (fun hc => absurd hc.1 (by omega))]
    rw [if_neg (fun hc => absurd hc.1 (by omega))]
    rw [if_neg (fun hc => absurd hc.1 (by omega))]
    rw [btSpec_zero]
    simp
  | succ N ih =>
    intro i j hN d r accR accA
    by_cases h1 : 0 < i ∧ 0 < j ∧ aa.get? (i - 1) = bb.get? (j - 1)
    · rw [backtrack_def, if_pos h1]
      have hidx : i + d - 1 = (i - 1) + d := by omega
      rw [hidx]
      rw [ih (i - 1) (j - 1) (by omega) d r accR accA]
      have hstep : btSpec aa bb i j = btSpec aa bb (i - 1) (j - 1) := by
        rw [btSpec_def, if_pos h1]
      rw [hstep]
    · by_cases h2 : 0 < j ∧ (i = 0 ∨ lcsC aa bb i (j - 1) ≥ lcsC aa bb (i - 1) j)
      · rw [backtrack_def, if_neg h1, if_pos h2]
        rw [ih i (j - 1) (by omega) d r accR ((j - 1, i + d, r) :: accA)]
        have hstep : btSpec aa bb i j =
            ((btSpec aa bb i (j - 1)).1,
             (j - 1, i, (btSpec aa bb i (j - 1)).1.length) ::
               (btSpec aa bb i (j - 1)).2) := by
          rw [btSpec_def, if_neg h1, if_pos h2]
        rw [hstep]
        have hr : r + (btSpec aa bb i (j - 1)).1.length -
            (btSpec aa bb i (j - 1)).1.length = r := by omega
        simp only [List.map_cons, List.reverse_cons, List.append_assoc,
          List.singleton_append, hr]
      · by_cases h3 : 0 < i ∧ (j = 0 ∨ lcsC aa bb i (j - 1) < lcsC aa bb (i - 1) j)
        · rw [backtrack_def, if_neg h1, if_neg h2, if_pos h3]
          have hidx : i + d - 1 = (i - 1) + d := by omega
          rw [hidx]
          rw [ih (i - 1) j (by omega) d (r + 1) (accR ++ [(i - 1) + d]) accA]
          have hstep : btSpec aa bb i j =
              ((i - 1) :: (btSpec aa bb (i - 1) j).1,
               (btSpec aa bb (i - 1) j).2) := by
            rw [btSpec_def, if_neg h1, if_neg h2, if_pos h3]
          rw [hstep]
          have hmapeq : (btSpec aa bb (i - 1) j).2.map (fun t =>
              (t.1, t.2.1 + d, r + 1 + (btSpec aa bb (i - 1) j).1.length - t.2.2)) =
              (btSpec aa bb (i - 1) j).2.map (fun t =>
              (t.1, t.2.1 + d,
               r + ((i - 1) :: (btSpec aa bb (i - 1) j).1).length - t.2.2)) := by
            refine List.map_congr_left (fun t _ => ?_)
            have he : r + 1 + (btSpec aa bb (i - 1) j).1.length - t.2.2 =
                r + ((i - 1) :: (btSpec aa bb (i - 1) j).1).length - t.2.2 := by
              simp only [List.length_cons]
              omega
            rw [he]
          rw [hmapeq]
          have h3n : r + 1 + (btSpec aa bb (i - 1) j).1.length =
              r + ((btSpec aa bb (i - 1) j).1.length + 1) := by omega
          simp only [List.map_cons, List.append_assoc, List.singleton_append,
            List.length_cons, h3n]
        · have hij : i = 0 ∧ j = 0 := by
            by_cases hj0 : j = 0
            · refine ⟨?_, hj0⟩
              by_contra hi0
              exact h3 ⟨by omega, Or.inl hj0⟩
            · by_cases hi0 : i = 0
              · exact absurd ⟨by omega, Or.inl hi0⟩ h2
              · have hge : ¬lcsC aa bb i (j - 1) ≥ lcsC aa bb (i - 1) j :=
                  fun hc => h2 ⟨by omega, Or.inr hc⟩
                have hlt : lcsC aa bb i (j - 1) < lcsC aa bb (i - 1) j := by
                  omega
                exact absurd ⟨by omega, Or.inr hlt⟩ h3
          obtain ⟨hi0, hj0⟩ := hij
          subst hi0
          subst hj0
          rw [backtrack_def]
          rw [if_neg (fun hc => absurd hc.1 (by omega))]
          rw [if_neg (fun hc => absurd hc.1 (by omega))]
          rw [if_neg (fun hc => absurd hc.1 (by omega))]
          rw [btSpec_zero]
          simp

/-! ### Emission form of the pushed adds -/

theorem addsEm_nil (p : Nat) : addsEm p [] := trivial

theorem addsEm_cons (p : Nat) (t : Nat × Nat × Nat) (rest : List (Nat × Nat × Nat)) :
    addsEm p (t :: rest) ↔
      t.2.2 ≤ t.2.1 ∧ t.1 = t.2.1 - t.2.2 + p ∧ addsEm (p + 1) rest := Iff.rfl

theorem addsEm_append : ∀ (B : List (Nat × Nat × Nat)) (t : Nat × Nat × Nat)
    (p : Nat), addsEm p B → t.2.2 ≤ t.2.1 → t.1 = t.2.1 - t.2.2 + (p + B.length) →
    addsEm p (B ++ [t]) := by
  intro B
  induction B with
  | nil =>
    intro t p _ h1 h2
    exact ⟨h1, by simpa using h2, trivial⟩
  | cons u rest ih =>
    intro t p hEm h1 h2
    obtain ⟨hu1, hu2, hu3⟩ := hEm
    exact ⟨hu1, hu2, ih t (p + 1) hu3 h1 (by simp at h2 ⊢; omega)⟩

theorem addsWF_to_em : ∀ (A : List (Nat × Nat × Nat)), addsWF A →
    addsEm 0 A.reverse := by
  intro A
  induction A with
  | nil => intro _; trivial
  | cons t rest ih =>
    intro hWF
    obtain ⟨h1, h2, h3⟩ := hWF
    rw [List.reverse_cons]
    exact addsEm_append rest.reverse t 0 (ih h3) h1
      (by simpa using h2)

/-- The add indices `idx - r + j + (len - i)` of the JS emission loop all
simplify to the final position `w + s` of the added element. -/
theorem adds_emit_map (s L : Nat) :
    ∀ (C : List (Nat × Nat × Nat)) (p : Nat), addsEm p C → (∀ t ∈ C, t.2.2 ≤ L) →
    (List.enumFrom p (C.map (fun t => (t.1, t.2.1 + s, L - t.2.2)))).map
      (fun pe => DiffEv.add (pe.2.1 + s)
        ((pe.2.2.1 : Int) - (L : Int) + (pe.2.2.2 : Int) + (pe.1 : Int)))
    = C.map (fun t => DiffEv.add (t.1 + s) ((t.1 + s : Nat) : Int)) := by
  intro C
  induction C with
  | nil => intro p _ _; rfl
  | cons t rest ih =>
    intro p hEm hL
    obtain ⟨h1, h2, h3⟩ := hEm
    simp only [List.map_cons, List.enumFrom_cons]
    have hLt : t.2.2 ≤ L := hL t (List.mem_cons_self _ _)
    have hhead : ((t.2.1 + s : Nat) : Int) - (L : Int) +
        ((L - t.2.2 : Nat) : Int) + (p : Int) = ((t.1 + s : Nat) : Int) := by
      omega
    rw [hhead, ih (p + 1) h3 (fun u hu => hL u (List.mem_cons_of_mem _ hu))]


/-! ### Applying the emitted events -/

theorem applyDiffEvs_nilE {α : Type} (b l : List α) : applyDiffEvs b l [] = l := rfl

theorem applyDiffEvs_rem {α : Type} (b l : List α) (idx : Nat) (rest : List DiffEv) :
    applyDiffEvs b l (DiffEv.rem idx :: rest) =
      applyDiffEvs b (l.eraseIdx idx) rest := rfl

theorem applyDiffEvs_add {α : Type} (b l : List α) (n : Nat) (idx : Int)
    (rest : List DiffEv) :
    applyDiffEvs b l (DiffEv.add n idx :: rest) =
      applyDiffEvs b
        (match b.get? n with
         | some v => l.insertIdx idx.toNat v
         | none => l) rest := rfl

theorem applyDiffEvs_append {α : Type} (b : List α) :
    ∀ (e1 e2 : List DiffEv) (l : List α),
    applyDiffEvs b l (e1 ++ e2) = applyDiffEvs b (applyDiffEvs b l e1) e2 := by
  intro e1
  induction e1 with
  | nil => intro e2 l; rfl
  | cons ev rest ih =>
    intro e2 l
    cases ev with
    | rem idx => rw [List.cons_append, applyDiffEvs_rem, applyDiffEvs_rem, ih]
    | add n idx => rw [List.cons_append, applyDiffEvs_add, applyDiffEvs_add, ih]

theorem length_eraseIdx2 {α : Type} : ∀ (l : List α) (n : Nat), n < l.length →
    (l.eraseIdx n).length = l.length - 1 := by
  intro l
  induction l with
  | nil => intro n h; simp at h
  | cons x xs ih =>
    intro n h
    cases n with
    | zero => simp
    | succ n =>
      rw [List.eraseIdx_cons_succ, List.length_cons, List.length_cons,
        ih n (by simp at h; omega)]
      simp at h
      omega

theorem get?_append_left2 {α : Type} : ∀ (l t : List α) (n : Nat), n < l.length →
    (l ++ t).get? n = l.get? n := by
  intro l
  induction l with
  | nil => intro t n h; simp at h
  | cons y ys ih =>
    intro t n h
    cases n with
    | zero => rfl
    | succ n => exact ih t n (by simp at h; omega)

/-- Applying the remove events (descending positions against the middle
segment) deletes exactly those positions. -/
theorem applyRems {α : Type} (b P S : List α) :
    ∀ (R : List Nat) (aa : List α),
    (∀ p ∈ R, p < aa.length) → List.Pairwise (fun p q => q < p) R →
    applyDiffEvs b (P ++ aa ++ S) (R.map (fun p => DiffEv.rem (p + P.length))) =
      P ++ dropPosFrom 0 aa R ++ S := by
  intro R
  induction R with
  | nil =>
    intro aa _ _
    rw [List.map_nil, applyDiffEvs_nilE, dropPosFrom_nilP]
  | cons p0 R' ih =>
    intro aa hlt hpw
    obtain ⟨hhead, htail⟩ := List.pairwise_cons.mp hpw
    have hp0 : p0 < aa.length := hlt p0 (List.mem_cons_self _ _)
    rw [List.map_cons, applyDiffEvs_rem]
    have hcomm : p0 + P.length = P.length + p0 := by omega
    have herase : (P ++ aa ++ S).eraseIdx (p0 + P.length) =
        P ++ aa.eraseIdx p0 ++ S := by
      rw [eraseIdx_append_left2 (P ++ aa) S (p0 + P.length)
        (by simp; omega)]
      rw [hcomm, eraseIdx_append_right2 P aa p0]
    rw [herase]
    rw [ih (aa.eraseIdx p0)
      (fun q hq => by
        have h1 := hhead q hq
        rw [length_eraseIdx2 aa p0 hp0]
        omega)
      htail]
    rw [← dropPosFrom_eraseIdx aa 0 p0 p0 R' (by omega) hp0
      (fun q hq => by have := hhead q hq; omega)]

/-- Applying the add events (ascending positions, each at its final
index) restores the dropped positions. -/
theorem applyAdds {α : Type} (P S bb b : List α) (hb : b = P ++ bb ++ S) :
    ∀ (W : List Nat), List.Pairwise (fun p q => p < q) W →
    (∀ w ∈ W, w < bb.length) →
    applyDiffEvs b (P ++ dropPosFrom 0 bb W ++ S)
      (W.map (fun w => DiffEv.add (w + P.length) ((w + P.length : Nat) : Int))) =
      P ++ bb ++ S := by
  intro W
  induction W with
  | nil =>
    intro _ _
    rw [List.map_nil, applyDiffEvs_nilE, dropPosFrom_nilP]
  | cons w0 W' ih =>
    intro hpw hlt
    obtain ⟨hhead, htail⟩ := List.pairwise_cons.mp hpw
    have hw0 : w0 < bb.length := hlt w0 (List.mem_cons_self _ _)
    obtain ⟨x, hx⟩ := get?_some_of_lt bb w0 hw0
    have hget : b.get? (w0 + P.length) = some x := by
      rw [hb, List.append_assoc]
      have hcomm : w0 + P.length = P.length + w0 := by omega
      rw [hcomm, get?_append_right2 P (bb ++ S) w0]
      rw [get?_append_left2 bb S w0 hw0]
      exact hx
    rw [List.map_cons, applyDiffEvs_add]
    simp only [hget]
    have htn : ((w0 + P.length : Nat) : Int).toNat = w0 + P.length := by omega
    rw [htn]
    have hins : List.insertIdx (w0 + P.length) x
        (P ++ dropPosFrom 0 bb (w0 :: W') ++ S) =
        P ++ dropPosFrom 0 bb W' ++ S := by
      rw [List.append_assoc]
      have hcomm : w0 + P.length = P.length + w0 := by omega
      rw [hcomm, insertIdx_append_right2 P (dropPosFrom 0 bb (w0 :: W') ++ S) w0 x]
      rw [insertIdx_dropPosFrom bb 0 w0 w0 x W' S (by omega) hx
        (fun q hq => by have := hhead q hq; omega)]
      rw [List.append_assoc]
    rw [hins]
    exact ih htail (fun w hw => hlt w (List.mem_cons_of_mem _ hw))

/-- The events `_patchDiff` emits, in canonical form: the removes at the
backtrack positions, then, in ascending order, every add at its final
position (the index expression `idx - r + j + len - i` collapses to
`s + w`). -/
theorem patchDiffEvents_canon {α : Type} [DecidableEq α] (a b : List α)
    (s : Nat) (aa bb : List α)
    (hs : s = commonPfxLen a b)
    (haa : aa = (a.drop s).take ((trimSuf a b s a.length b.length).1 - s))
    (hbb : bb = (b.drop s).take ((trimSuf a b s a.length b.length).2 - s))
    (hend : ¬(commonPfxLen a b = a.length ∧ commonPfxLen a b = b.length)) :
    patchDiffEvents a b =
      ((btSpec aa bb aa.length bb.length).1.map (fun p => DiffEv.rem (p + s))) ++
      (((btSpec aa bb aa.length bb.length).2.reverse.map Prod.fst).map
        (fun w => DiffEv.add (w + s) ((w + s : Nat) : Int))) := by
  obtain ⟨BG1, BG2, BG3, BG4, BG5, BG6, BG7⟩ :=
    btSpec_big aa bb (aa.length + bb.length) aa.length bb.length
      le_rfl le_rfl le_rfl
  subst haa
  subst hbb
  subst hs
  conv_lhs => rw [patchDiffEvents]
  dsimp only []
  rw [if_neg hend]
  rw [backtrack_btSpec _ _
    (((a.drop (commonPfxLen a b)).take
        ((trimSuf a b (commonPfxLen a b) a.length b.length).1 -
          commonPfxLen a b)).length +
     ((b.drop (commonPfxLen a b)).take
        ((trimSuf a b (commonPfxLen a b) a.length b.length).2 -
          commonPfxLen a b)).length)
    _ _ le_rfl (commonPfxLen a b) 0 [] []]
  simp only [Nat.zero_add, List.append_nil, List.nil_append]
  congr 1
  · rw [List.map_map]
    rfl
  · rw [List.enum]
    have hrev : ∀ (f : Nat × Nat × Nat → Nat × Nat × Nat)
        (A : List (Nat × Nat × Nat)), (A.map f).reverse = A.reverse.map f := by
      intro f A
      simp
    rw [hrev]
    rw [adds_emit_map (commonPfxLen a b) _ _ 0
      (addsWF_to_em _ BG6)
      (fun t ht => (BG2 t (List.mem_reverse.mp ht)).2.2)]
    rw [List.map_map]
    rfl


/-- The round trip, over the named segments of the trimmed lists. -/
theorem diffRoundTrip_main {α : Type} [DecidableEq α] (a b : List α) (s : Nat)
    (mn : Nat × Nat) (P aa bb S : List α)
    (hs : s = commonPfxLen a b)
    (hmn : mn = trimSuf a b s a.length b.length)
    (hP : P = a.take s) (hS : S = a.drop mn.1)
    (haa : aa = (a.drop s).take (mn.1 - s))
    (hbb : bb = (b.drop s).take (mn.2 - s))
    (hend : ¬(commonPfxLen a b = a.length ∧ commonPfxLen a b = b.length)) :
    applyDiffEvs b a (patchDiffEvents a b) = b := by
  have hsa : s ≤ a.length := hs ▸ commonPfxLen_le_left a b
  have hsb : s ≤ b.length := hs ▸ commonPfxLen_le_right a b
  have ht0 := trimSuf_spec a b s a.length a.length b.length le_rfl le_rfl le_rfl
    hsa hsb (by simp)
  rw [← hmn] at ht0
  obtain ⟨ht1, ht2, ht3, ht4, ht5⟩ := ht0
  have hPlen : P.length = s := by
    rw [hP]
    simp [List.length_take]
    omega
  have hA : a = P ++ aa ++ S := by
    rw [hP, haa, hS]
    have h1 : a.take mn.1 = a.take s ++ (a.drop s).take (mn.1 - s) := by
      have h2 := List.take_add a s (mn.1 - s)
      have h3 : s + (mn.1 - s) = mn.1 := by omega
      rw [h3] at h2
      exact h2
    rw [← h1]
    exact (List.take_append_drop mn.1 a).symm
  have hBsplit : b = P ++ bb ++ S := by
    rw [hP, hbb, hS]
    have hPb : a.take s = b.take s := hs ▸ commonPfxLen_take a b
    have h1 : b.take mn.2 = b.take s ++ (b.drop s).take (mn.2 - s) := by
      have h2 := List.take_add b s (mn.2 - s)
      have h3 : s + (mn.2 - s) = mn.2 := by omega
      rw [h3] at h2
      exact h2
    rw [hPb, ← h1, ht5]
    exact (List.take_append_drop mn.2 b).symm
  obtain ⟨B1, B2, B3, B4, B5, B6, B7⟩ :=
    btSpec_big aa bb (aa.length + bb.length) aa.length bb.length
      le_rfl le_rfl le_rfl
  rw [patchDiffEvents_canon a b s aa bb hs (by rw [haa, hmn]) (by rw [hbb, hmn])
    hend]
  rw [applyDiffEvs_append]
  have AR := applyRems b P S (btSpec aa bb aa.length bb.length).1 aa B1 B4
  rw [hPlen] at AR
  rw [hA, AR]
  have hKeep : dropPosFrom 0 aa (btSpec aa bb aa.length bb.length).1 =
      dropPosFrom 0 bb ((btSpec aa bb aa.length bb.length).2.map Prod.fst) := by
    have hk := B7
    rw [List.take_length, List.take_length] at hk
    exact hk
  rw [hKeep]
  rw [dropPosFrom_congr_mem bb 0 ((btSpec aa bb aa.length bb.length).2.map Prod.fst)
    ((btSpec aa bb aa.length bb.length).2.reverse.map Prod.fst)
    (fun q => by simp)]
  have hpw : List.Pairwise (fun p q => p < q)
      ((btSpec aa bb aa.length bb.length).2.reverse.map Prod.fst) := by
    rw [List.pairwise_map]
    rw [List.pairwise_reverse]
    exact B5
  have hbnd : ∀ w ∈ (btSpec aa bb aa.length bb.length).2.reverse.map Prod.fst,
      w < bb.length := by
    intro w hw
    obtain ⟨t, ht, hteq⟩ := List.mem_map.mp hw
    have := (B2 t (List.mem_reverse.mp ht)).1
    omega
  have AB := applyAdds P S bb b hBsplit
    ((btSpec aa bb aa.length bb.length).2.reverse.map Prod.fst) hpw hbnd
  rw [hPlen] at AB
  rw [AB]
  exact hBsplit.symm

/-- Applying the remove and add events the collection diff emits, in
emission order, to a copy of `a` yields exactly `b`. -/
theorem diffRoundTrip {α : Type} [DecidableEq α] (a b : List α) :
    applyDiffEvs b a (patchDiffEvents a b) = b := by
  by_cases hend : commonPfxLen a b = a.length ∧ commonPfxLen a b = b.length
  · have hab : a = b := commonPfxLen_full a b hend.1 hend.2
    have hev : patchDiffEvents a b = [] := by
      rw [patchDiffEvents]
      dsimp only []
      rw [if_pos hend]
    rw [hev, applyDiffEvs_nilE, hab]
  · exact diffRoundTrip_main a b (commonPfxLen a b)
      (trimSuf a b (commonPfxLen a b) a.length b.length)
      (a.take (commonPfxLen a b))
      ((a.drop (commonPfxLen a b)).take
        ((trimSuf a b (commonPfxLen a b) a.length b.length).1 - commonPfxLen a b))
      ((b.drop (commonPfxLen a b)).take
        ((trimSuf a b (commonPfxLen a b) a.length b.length).2 - commonPfxLen a b))
      (a.drop (trimSuf a b (commonPfxLen a b) a.length b.length).1)
      rfl rfl rfl rfl rfl rfl hend

/-- C3: for every pair of sequences `a` and `b`, applying the remove and
add events emitted by the collection diff, in emission order (removes in
descending index order against the evolving sequence, then adds in
ascending order), to a copy of `a` produces exactly `b`. -/
theorem collectionDiffRoundTrip {α : Type} [DecidableEq α] (a b : List α) :
    applyDiffEvs b a (patchDiffEvents a b) = b :=
  diffRoundTrip a b

/-! ## C6: request promise settlement -/

/-- C6 counterexample: an execution in which a request is sent and the
transport then closes ends with the request still stored and ZERO
settlements: the outstanding promise is neither resolved nor rejected
(`_handleOnclose` leaves `this.requests` untouched), contradicting
"settled exactly once in every execution". -/
theorem outstandingRequestUnsettledOnClose :
    (runMux {} [MuxOp.send "call.x.m", MuxOp.close]).2 = [] ∧
    (runMux {} [MuxOp.send "call.x.m", MuxOp.close]).1.requests =
      [(1, ⟨"call.x.m"⟩)] := by
  decide

theorem lookupReq_append_of_some (l l2 : List (Nat × StoredReq)) (id : Nat)
    (sr : StoredReq) (h : lookupReq l id = some sr) :
    lookupReq (l ++ l2) id = some sr := by
  induction l with
  | nil => simp [lookupReq] at h
  | cons p rest ih =>
    obtain ⟨k, v⟩ := p
    by_cases hk : k = id
    · subst hk
      simp only [lookupReq, if_pos rfl] at h
      simp only [List.cons_append, lookupReq, if_pos rfl]
      exact h
    · simp only [lookupReq, if_neg hk] at h
      simp only [List.cons_append, lookupReq, if_neg hk]
      exact ih h

theorem lookupReq_append_of_none (l l2 : List (Nat × StoredReq)) (id : Nat)
    (h : lookupReq l id = none) :
    lookupReq (l ++ l2) id = lookupReq l2 id := by
  induction l with
  | nil => simp [lookupReq]
  | cons p rest ih =>
    obtain ⟨k, v⟩ := p
    by_cases hk : k = id
    · subst hk; simp [lookupReq] at h
    · simp only [lookupReq, if_neg hk] at h
      simp only [List.cons_append, lookupReq, if_neg hk]
      exact ih h

theorem lookupReq_eraseReq_ne (l : List (Nat × StoredReq)) (id id2 : Nat)
    (h : id2 ≠ id) : lookupReq (eraseReq l id) id2 = lookupReq l id2 := by
  induction l with
  | nil => simp [eraseReq, lookupReq]
  | cons p rest ih =>
    obtain ⟨k, v⟩ := p
    by_cases hk : k = id
    · simp only [eraseReq, if_pos hk, lookupReq]
      rw [if_neg (fun hh : k = id2 => h (hh.symm.trans hk))]
    · simp only [eraseReq, if_neg hk, lookupReq]
      by_cases h2 : k = id2
      · rw [if_pos h2, if_pos h2]
      · rw [if_neg h2, if_neg h2]; exact ih

theorem lookupReq_of_not_mem (l : List (Nat × StoredReq)) (id : Nat)
    (h : id ∉ l.map Prod.fst) : lookupReq l id = none := by
  induction l with
  | nil => rfl
  | cons p rest ih =>
    obtain ⟨k, v⟩ := p
    simp only [List.map_cons, List.mem_cons] at h
    push_neg at h
    simp only [lookupReq]
    rw [if_neg (fun hh => h.1 hh.symm)]
    exact ih h.2

theorem lookupReq_eraseReq_self (l : List (Nat × StoredReq)) (id : Nat)
    (hnd : (l.map Prod.fst).Nodup) : lookupReq (eraseReq l id) id = none := by
  induction l with
  | nil => rfl
  | cons p rest ih =>
    obtain ⟨k, v⟩ := p
    simp only [List.map_cons, List.nodup_cons] at hnd
    by_cases hk : k = id
    · subst hk
      simp only [eraseReq, if_pos rfl]
      exact lookupReq_of_not_mem rest k hnd.1
    · simp only [eraseReq, if_neg hk, lookupReq, if_neg hk]
      exact ih hnd.2

theorem eraseReq_map_sublist (l : List (Nat × StoredReq)) (id : Nat) :
    ((eraseReq l id).map Prod.fst).Sublist (l.map Prod.fst) := by
  induction l with
  | nil => simp [eraseReq]
  | cons p rest ih =>
    obtain ⟨k, v⟩ := p
    by_cases hk : k = id
    · subst hk
      simp only [eraseReq, if_pos rfl, List.map_cons]
      exact List.sublist_cons_self _ _
    · simp only [eraseReq, if_neg hk, List.map_cons]
      exact ih.cons₂ k

theorem mem_of_lookupReq (l : List (Nat × StoredReq)) (id : Nat) (sr : StoredReq)
    (h : lookupReq l id = some sr) : (id, sr) ∈ l := by
  induction l with
  | nil => simp [lookupReq] at h
  | cons q rest ih =>
    obtain ⟨k, v⟩ := q
    by_cases hk : k = id
    · subst hk
      simp only [lookupReq, if_pos rfl] at h
      cases h; simp
    · simp only [lookupReq, if_neg hk] at h
      simp [ih h]

theorem countSettle_cons (id id2 : Nat) (oc : Outcome) (out : List (Nat × Outcome)) :
    countSettle ((id2, oc) :: out) id =
      (if id2 = id then 1 else 0) + countSettle out id := by
  by_cases h : id2 = id
  · simp [countSettle, List.filter, h]
    omega
  · simp [countSettle, List.filter, h]

/-- The settlement bound along any run: one if the id is stored or could
still be allocated, zero otherwise. -/
theorem runMux_settle_bound (ops : List MuxOp) (fs : FullState) (id : Nat)
    (hwf : MuxWF fs) :
    countSettle (runMux fs ops).2 id ≤
      (if (lookupReq fs.requests id).isSome then 1
       else if fs.reqId ≤ id then 1 else 0) := by
  induction ops generalizing fs with
  | nil =>
    simp only [runMux, countSettle, List.filter_nil, List.length_nil]
    omega
  | cons op rest ih =>
    cases op with
    | send mth =>
      have hwf2 : MuxWF (sendNow fs mth).1 := by
        constructor
        · intro p hp
          simp only [sendNow, List.mem_append, List.mem_singleton] at hp
          cases hp with
          | inl h => exact Nat.lt_trans (hwf.1 p h) (Nat.lt_succ_self _)
          | inr h => subst h; exact Nat.lt_succ_self _
        · simp only [sendNow, List.map_append, List.map_cons, List.map_nil]
          rw [List.nodup_append]
          refine ⟨hwf.2, List.nodup_singleton _, ?_⟩
          intro x hx hx2
          simp at hx2
          subst hx2
          obtain ⟨p, hp, hpeq⟩ := List.mem_map.1 hx
          exact absurd (hwf.1 p hp) (by omega)
      have hb := ih (sendNow fs mth).1 hwf2
      refine le_trans (by exact hb) ?_
      by_cases h1 : (lookupReq fs.requests id).isSome = true
      · obtain ⟨sr, hsr⟩ := Option.isSome_iff_exists.1 h1
        have hsr2 : lookupReq (sendNow fs mth).1.requests id = some sr := by
          simp only [sendNow]
          exact lookupReq_append_of_some _ _ _ _ hsr
        rw [hsr2, hsr]
        simp
      · have hnone : lookupReq fs.requests id = none := by
          cases hl : lookupReq fs.requests id
          · rfl
          · rw [hl] at h1; simp at h1
        by_cases h2 : id = fs.reqId
        · have hBfs : (if (lookupReq fs.requests id).isSome = true then 1
              else if fs.reqId ≤ id then 1 else 0) = 1 := by
            rw [hnone]
            simp only [Option.isSome_none, Bool.false_eq_true, if_false]
            rw [if_pos (by omega)]
          rw [hBfs]
          split
          · exact Nat.le_refl 1
          · split
            · exact Nat.le_refl 1
            · exact Nat.zero_le 1
        · have hfs2 : lookupReq (sendNow fs mth).1.requests id = none := by
            simp only [sendNow]
            rw [lookupReq_append_of_none _ _ _ hnone]
            simp only [lookupReq]
            rw [if_neg (fun hh : fs.reqId = id => h2 hh.symm)]
          rw [hfs2, hnone]
          simp only [Option.isSome_none, Bool.false_eq_true, if_false]
          simp only [sendNow]
          by_cases h3 : fs.reqId ≤ id
          · rw [if_pos (by omega : fs.reqId + 1 ≤ id), if_pos h3]
          · rw [if_neg (by omega : ¬(fs.reqId + 1 ≤ id)), if_neg h3]
    | response id2 body =>
      cases hl : lookupReq fs.requests id2 with
      | none =>
        simp only [runMux, hl]
        exact ih fs hwf
      | some sr =>
        have hwf2 : MuxWF { fs with requests := eraseReq fs.requests id2 } := by
          constructor
          · intro p hp
            have hsub : (eraseReq fs.requests id2).Sublist fs.requests := by
              clear hl
              induction fs.requests with
              | nil => simp [eraseReq]
              | cons q rest2 ih2 =>
                obtain ⟨k, v⟩ := q
                by_cases hk : k = id2
                · simp only [eraseReq, if_pos hk]
                  exact List.sublist_cons_self _ _
                · simp only [eraseReq, if_neg hk]
                  exact ih2.cons₂ _
            exact hwf.1 p (hsub.mem hp)
          · exact (eraseReq_map_sublist fs.requests id2).nodup hwf.2
        have hb := ih { fs with requests := eraseReq fs.requests id2 } hwf2
        simp only [runMux, hl]
        by_cases hid : id2 = id
        · subst hid
          have hid_lt : id2 < fs.reqId := hwf.1 _ (mem_of_lookupReq _ _ _ hl)
          have hz : lookupReq (eraseReq fs.requests id2) id2 = none :=
            lookupReq_eraseReq_self _ _ hwf.2
          have hb2 : countSettle
              (runMux { fs with requests := eraseReq fs.requests id2 } rest).2 id2 ≤ 0 := by
            refine le_trans hb ?_
            rw [hz]
            rw [if_neg (by decide : ¬((none : Option StoredReq).isSome = true)),
              if_neg (by omega : ¬(fs.reqId ≤ id2))]
          rw [countSettle_cons, if_pos rfl, hl]
          simp
          omega
        · have hz : lookupReq (eraseReq fs.requests id2) id = lookupReq fs.requests id :=
            lookupReq_eraseReq_ne _ _ _ (fun hh => hid hh.symm)
          rw [hz] at hb
          rw [countSettle_cons, if_neg hid]
          simp only [Nat.zero_add]
          exact hb
    | close =>
      simp only [runMux]
      exact ih fs hwf

/-- C6 amended: every outbound request's promise is settled AT MOST
once; processing a response for a stored id settles it (exactly then),
while a request still outstanding when the transport closes or
`disconnect()` is called is never settled (the close handler leaves the
request table untouched; a known gap). -/
theorem requestsSettleAtMostOnce (fs : FullState) (ops : List MuxOp) (id : Nat)
    (hwf : MuxWF fs) : countSettle (runMux fs ops).2 id ≤ 1 := by
  refine le_trans (runMux_settle_bound ops fs id hwf) ?_
  split
  · exact Nat.le_refl 1
  · split
    · exact Nat.le_refl 1
    · exact Nat.zero_le 1

/-- Witness for C6 at a concrete input. -/
theorem requestsSettleAtMostOnce_witness :
    countSettle (runMux {}
      [MuxOp.send "subscribe.x", MuxOp.response 1 RespBody.errBody, MuxOp.close]).2
      1 ≤ 1 :=
  requestsSettleAtMostOnce {}
    [MuxOp.send "subscribe.x", MuxOp.response 1 RespBody.errBody, MuxOp.close] 1
    ⟨fun p hp => absurd hp (List.not_mem_nil p), List.nodup_nil⟩


/-! ## C1 and C2: the reference-state engine and `_tryDelete` -/

theorem flatChildren_nil (cache : Cache) : flatChildren cache [] = [] := rfl

theorem flatChildren_cons (cache : Cache) (p : String) (ps : List String)
    (ci : CacheItem) (h : cache.find? p = some ci) :
    flatChildren cache (p :: ps) = childRids cache ci ++ flatChildren cache ps := by
  rw [flatChildren, h]

theorem flatChildren_cons_none (cache : Cache) (p : String) (ps : List String)
    (h : cache.find? p = none) :
    flatChildren cache (p :: ps) = flatChildren cache ps := by
  rw [flatChildren, h]
  rfl

theorem flatChildren_append (cache : Cache) : ∀ (l1 l2 : List String),
    flatChildren cache (l1 ++ l2) = flatChildren cache l1 ++ flatChildren cache l2 := by
  intro l1
  induction l1 with
  | nil => intro l2; rfl
  | cons p ps ih =>
    intro l2
    rw [List.cons_append, flatChildren, flatChildren, ih, List.append_assoc]

/-- A reference map with distinct, cached keys has no more entries than
the cache. -/
theorem refMap_length_le (cache : Cache) (refs : RefMap)
    (hnd : (AMap.keys refs).Nodup)
    (hc : ∀ k ∈ AMap.keys refs, (cache.find? k).isSome = true) :
    refs.length ≤ cache.length := by
  have h1 : refs.length = (AMap.keys refs).length := by
    rw [AMap.keys, List.length_map]
  have h2 : cache.length = (AMap.keys cache).length := by
    rw [AMap.keys, List.length_map]
  rw [h1, h2]
  have hsub : (AMap.keys refs).toFinset ⊆ (AMap.keys cache).toFinset := by
    intro k hk
    rw [List.mem_toFinset] at hk ⊢
    rw [AMap.mem_keys_iff_isSome]
    exact hc k hk
  calc (AMap.keys refs).length = (AMap.keys refs).toFinset.card := by
        rw [List.toFinset_card_of_nodup hnd]
    _ ≤ (AMap.keys cache).toFinset.card := Finset.card_le_card hsub
    _ ≤ (AMap.keys cache).length := (AMap.keys cache).toFinset_card_le

theorem length_set_of_none {β : Type} (m : AMap β) (k : String) (v : β)
    (h : m.find? k = none) : (m.set k v).length = m.length + 1 := by
  have h1 := AMap.keys_set_of_none m k v h
  have h2 : (m.set k v).length = (AMap.keys (m.set k v)).length := by
    rw [AMap.keys, List.length_map]
  have h3 : m.length = (AMap.keys m).length := by
    rw [AMap.keys, List.length_map]
  rw [h2, h3, h1]
  simp

theorem length_set_of_isSome {β : Type} (m : AMap β) (k : String) (v : β)
    (h : (m.find? k).isSome = true) : (m.set k v).length = m.length := by
  have h1 := AMap.keys_set_of_isSome m k v h
  have h2 : (m.set k v).length = (AMap.keys (m.set k v)).length := by
    rw [AMap.keys, List.length_map]
  have h3 : m.length = (AMap.keys m).length := by
    rw [AMap.keys, List.length_map]
  rw [h2, h3, h1]

theorem seekVisit_def2 (cache : Cache) (fuel : Nat) (refs : RefMap) (rid : String) :
    seekVisit cache fuel refs rid =
      match cache.find? rid with
      | none => refs
      | some ci =>
        if ci.subscribed then refs
        else
          match refs.find? rid with
          | some r => refs.set rid { r with rc := r.rc - 1 }
          | none =>
            match fuel with
            | 0 => refs.set rid ⟨ci.indirect - 1, TState.tsNone⟩
            | fuel + 1 =>
              (childRids cache ci).foldl (seekVisit cache fuel)
                (refs.set rid ⟨ci.indirect - 1, TState.tsNone⟩) := by
  conv_lhs => rw [seekVisit]

theorem find?_isSome_of_mem_keys {β : Type} (m : AMap β) (k : String)
    (h : k ∈ AMap.keys m) : ∃ v, m.find? k = some v := by
  have := (AMap.mem_keys_iff_isSome m k).mp h
  cases hv : m.find? k with
  | none => rw [hv] at this; cases this
  | some v => exact ⟨v, rfl⟩

theorem mem_keys_of_find?_isSome {β : Type} (m : AMap β) (k : String) (v : β)
    (h : m.find? k = some v) : k ∈ AMap.keys m := by
  rw [AMap.mem_keys_iff_isSome, h]
  rfl

/-- A skipped visit (uncached or subscribed target). -/
theorem seekSpec_skip (cache : Cache) (refs : RefMap) (w : String)
    (W' : List String) (out : RefMap)
    (hw : cache.find? w = none ∨ ∃ cw, cache.find? w = some cw ∧ cw.subscribed = true)
    (hinv : ∀ k ∈ AMap.keys refs, ∃ ck, cache.find? k = some ck ∧
      ck.subscribed = false)
    (hS : SeekSpec cache refs W' out) :
    SeekSpec cache refs (w :: W') out := by
  obtain ⟨D, s0, s1, s2, s3, s4, s5⟩ := hS
  have hne : ∀ x, (∃ cx, cache.find? x = some cx ∧ cx.subscribed = false) → x ≠ w := by
    intro x hx hxe
    subst hxe
    obtain ⟨cx, hcx, hcs⟩ := hx
    rcases hw with h | ⟨cw, hcw, hws⟩
    · rw [hcx] at h; cases h
    · rw [hcx] at hcw
      cases hcw
      rw [hcs] at hws
      cases hws
  have hcnt : ∀ x, (∃ cx, cache.find? x = some cx ∧ cx.subscribed = false) →
      (List.count x ((w :: W') ++ flatChildren cache D) : Int) =
      (List.count x (W' ++ flatChildren cache D) : Int) := by
    intro x hx
    have hxw : ¬x = w := fun h => hne x hx h
    simp [List.cons_append, List.count_cons, hxw]
  refine ⟨D, s0, s1, s2, ?_, ?_, ?_⟩
  · intro x e hxe
    rw [s3 x e hxe]
    rw [hcnt x (hinv x (mem_keys_of_find?_isSome refs x e hxe))]
  · intro x hx
    obtain ⟨cx, hcx, hfind⟩ := s4 x hx
    obtain ⟨cd, hcd, hcds⟩ := s2 x hx
    rw [hcx] at hcd
    cases hcd
    exact ⟨cx, hcx, by rw [hfind, hcnt x ⟨cx, hcx, hcds⟩]⟩
  · intro x hx
    rcases List.mem_append.mp hx with h | h
    · rcases List.mem_cons.mp h with h1 | h1
      · subst h1
        rcases hw with hn | ⟨cw, hcw, hws⟩
        · exact Or.inl hn
        · exact Or.inr (Or.inl ⟨cw, hcw, hws⟩)
      · exact s5 x (List.mem_append.mpr (Or.inl h1))
    · exact s5 x (List.mem_append.mpr (Or.inr h))

/-- A revisit decrements the entry and continues with the rest. -/
theorem seekSpec_revisit (cache : Cache) (refs : RefMap) (w : String)
    (W' : List String) (out : RefMap) (r : RefEntry)
    (hr : refs.find? w = some r)
    (hS : SeekSpec cache (refs.set w { r with rc := r.rc - 1 }) W' out) :
    SeekSpec cache refs (w :: W') out := by
  obtain ⟨D, s0, s1, s2, s3, s4, s5⟩ := hS
  have hkeys : AMap.keys (refs.set w { r with rc := r.rc - 1 }) = AMap.keys refs :=
    AMap.keys_set_of_isSome refs w _ (by rw [hr]; rfl)
  rw [hkeys] at s0 s1 s5
  have hwk : w ∈ AMap.keys refs := mem_keys_of_find?_isSome refs w r hr
  have hwD : w ∉ D := by
    intro hwd
    have := (List.nodup_append.mp s0).2.2
    exact this hwk hwd
  refine ⟨D, s0, s1, s2, ?_, ?_, ?_⟩
  · intro x e hxe
    by_cases hxw : x = w
    · subst hxw
      rw [hr] at hxe
      cases hxe
      have h1 := s3 x { r with rc := r.rc - 1 } (by rw [AMap.find?_set_self])
      rw [h1]
      dsimp only []
      have hc : r.rc - 1 - (List.count x (W' ++ flatChildren cache D) : Int) =
          r.rc - (List.count x ((x :: W') ++ flatChildren cache D) : Int) := by
        have hcc : List.count x ((x :: W') ++ flatChildren cache D) =
            List.count x (W' ++ flatChildren cache D) + 1 := by
          simp [List.cons_append, List.count_cons]
        rw [hcc]
        push_cast
        omega
      rw [hc]
    · have h1 := s3 x e (by rw [AMap.find?_set_ne _ _ hxw]; exact hxe)
      rw [h1]
      have hc : (List.count x (W' ++ flatChildren cache D) : Int) =
          (List.count x ((w :: W') ++ flatChildren cache D) : Int) := by
        simp [List.cons_append, List.count_cons, hxw]
      rw [hc]
  · intro x hx
    obtain ⟨cx, hcx, hfind⟩ := s4 x hx
    have hxw : ¬x = w := fun h => hwD (h ▸ hx)
    refine ⟨cx, hcx, ?_⟩
    rw [hfind]
    have hc : (List.count x (W' ++ flatChildren cache D) : Int) =
        (List.count x ((w :: W') ++ flatChildren cache D) : Int) := by
      simp [List.cons_append, List.count_cons, hxw]
    rw [hc]
  · intro x hx
    rcases List.mem_append.mp hx with h | h
    · rcases List.mem_cons.mp h with h1 | h1
      · subst h1
        exact Or.inr (Or.inr (List.mem_append.mpr (Or.inl hwk)))
      · exact s5 x (List.mem_append.mpr (Or.inl h1))
    · exact s5 x (List.mem_append.mpr (Or.inr h))

/-- A first visit: the fresh entry is adjoined, the target's children are
traversed, then the rest of the worklist. -/
theorem seekSpec_fresh (cache : Cache) (refs : RefMap) (w : String)
    (W' : List String) (out2 out : RefMap) (cw : CacheItem)
    (hcw : cache.find? w = some cw) (hws : cw.subscribed = false)
    (hfresh : refs.find? w = none)
    (hS2 : SeekSpec cache (refs.set w ⟨(cw.indirect : Int) - 1, TState.tsNone⟩)
      (childRids cache cw) out2)
    (hS3 : SeekSpec cache out2 W' out) :
    SeekSpec cache refs (w :: W') out := by
  obtain ⟨D1, t0, t1, t2, t3, t4, t5⟩ := hS2
  obtain ⟨D2, u0, u1, u2, u3, u4, u5⟩ := hS3
  have hkm : AMap.keys (refs.set w ⟨(cw.indirect : Int) - 1, TState.tsNone⟩) =
      AMap.keys refs ++ [w] := AMap.keys_set_of_none refs w _ hfresh
  rw [hkm] at t0 t1 t5
  rw [t1] at u0 u1 u5
  have hkeysfin : AMap.keys out = AMap.keys refs ++ (w :: (D1 ++ D2)) := by
    rw [u1]
    simp [List.append_assoc]
  have hnodfin : (AMap.keys refs ++ (w :: (D1 ++ D2))).Nodup := by
    have := u0
    simp [List.append_assoc] at this ⊢
    exact this
  have hFULL : ∀ x, List.count x ((w :: W') ++ flatChildren cache (w :: (D1 ++ D2))) =
      (if x = w then 1 else 0) +
      List.count x (childRids cache cw ++ flatChildren cache D1) +
      List.count x (W' ++ flatChildren cache D2) := by
    intro x
    rw [flatChildren_cons cache w _ cw hcw, flatChildren_append]
    by_cases hxw : x = w
    · subst hxw
      simp [List.count_cons, List.count_append]
      omega
    · simp [List.count_cons, List.count_append, hxw]
      omega
  have hwD1 : w ∉ D1 := by
    have hd := (List.nodup_append.mp t0).2.2
    intro hw1
    exact hd (by simp) hw1
  have hwD2 : w ∉ D2 := by
    have hd := (List.nodup_append.mp u0).2.2
    intro hw2
    exact hd (by simp) hw2
  refine ⟨w :: (D1 ++ D2), hnodfin, hkeysfin, ?_, ?_, ?_, ?_⟩
  · intro d hd
    rcases List.mem_cons.mp hd with h1 | h1
    · subst h1
      exact ⟨cw, hcw, hws⟩
    · rcases List.mem_append.mp h1 with h2 | h2
      · exact t2 d h2
      · exact u2 d h2
  · intro x e hxe
    have hxw : ¬x = w := by
      intro h
      subst h
      rw [hfresh] at hxe
      cases hxe
    have h1 : AMap.find? (refs.set w ⟨(cw.indirect : Int) - 1, TState.tsNone⟩) x =
        some e := by
      rw [AMap.find?_set_ne _ _ hxw]
      exact hxe
    have h2 := t3 x e h1
    have h3 := u3 x _ h2
    rw [h3]
    dsimp only []
    have hc : e.rc -
        (List.count x (childRids cache cw ++ flatChildren cache D1) : Int) -
        (List.count x (W' ++ flatChildren cache D2) : Int) =
        e.rc - (List.count x ((w :: W') ++ flatChildren cache (w :: (D1 ++ D2))) : Int) := by
      rw [hFULL x, if_neg hxw]
      push_cast
      omega
    rw [hc]
  · intro x hx
    rcases List.mem_cons.mp hx with h1 | h1
    · subst h1
      refine ⟨cw, hcw, ?_⟩
      have h1 : AMap.find? (refs.set x ⟨(cw.indirect : Int) - 1, TState.tsNone⟩) x =
          some ⟨(cw.indirect : Int) - 1, TState.tsNone⟩ := AMap.find?_set_self refs x _
      have h2 := t3 x _ h1
      have h3 := u3 x _ h2
      rw [h3]
      dsimp only []
      have hc : (cw.indirect : Int) - 1 -
          (List.count x (childRids cache cw ++ flatChildren cache D1) : Int) -
          (List.count x (W' ++ flatChildren cache D2) : Int) =
          (cw.indirect : Int) -
            (List.count x ((x :: W') ++ flatChildren cache (x :: (D1 ++ D2))) : Int) := by
        rw [hFULL x, if_pos rfl]
        push_cast
        omega
      rw [hc]
    · rcases List.mem_append.mp h1 with h2 | h2
      · obtain ⟨cx, hcx, hfind2⟩ := t4 x h2
        have h3 := u3 x _ hfind2
        refine ⟨cx, hcx, ?_⟩
        rw [h3]
        dsimp only []
        have hxw : ¬x = w := by
          intro h
          subst h
          exact hwD1 h2
        have hc : (cx.indirect : Int) -
            (List.count x (childRids cache cw ++ flatChildren cache D1) : Int) -
            (List.count x (W' ++ flatChildren cache D2) : Int) =
            (cx.indirect : Int) -
              (List.count x ((w :: W') ++ flatChildren cache (w :: (D1 ++ D2))) : Int) := by
          rw [hFULL x, if_neg hxw]
          push_cast
          omega
        rw [hc]
      · obtain ⟨cx, hcx, hfind3⟩ := u4 x h2
        refine ⟨cx, hcx, ?_⟩
        rw [hfind3]
        have hxw : ¬x = w := by
          intro h
          subst h
          exact hwD2 h2
        have hxout2 : x ∉ (AMap.keys refs ++ [w]) ++ D1 := by
          have hd := (List.nodup_append.mp u0).2.2
          intro hxk
          exact hd hxk h2
        have hxns : cx.subscribed = false := by
          obtain ⟨cd, hcd, hcds⟩ := u2 x h2
          rw [hcx] at hcd
          cases hcd
          exact hcds
        have hxCH : x ∉ childRids cache cw ++ flatChildren cache D1 := by
          intro hxc
          rcases t5 x hxc with hn | ⟨cy, hcy, hcys⟩ | hk
          · rw [hcx] at hn
            cases hn
          · rw [hcx] at hcy
            cases hcy
            rw [hxns] at hcys
            cases hcys
          · exact hxout2 hk
        have hc0 : List.count x (childRids cache cw ++ flatChildren cache D1) = 0 :=
          List.count_eq_zero_of_not_mem hxCH
        have hc : (cx.indirect : Int) -
            (List.count x (W' ++ flatChildren cache D2) : Int) =
            (cx.indirect : Int) -
              (List.count x ((w :: W') ++ flatChildren cache (w :: (D1 ++ D2))) : Int) := by
          rw [hFULL x, if_neg hxw, hc0]
          push_cast
          omega
        rw [hc]
  · intro x hx
    have hx2 := hFULL x
    have hxsplit : x = w ∨ x ∈ childRids cache cw ++ flatChildren cache D1 ∨
        x ∈ W' ++ flatChildren cache D2 := by
      by_contra hc
      push_neg at hc
      have hcount : List.count x ((w :: W') ++ flatChildren cache (w :: (D1 ++ D2))) = 0 := by
        rw [hx2, if_neg hc.1, List.count_eq_zero_of_not_mem hc.2.1,
          List.count_eq_zero_of_not_mem hc.2.2]
      have := List.count_pos_iff.mpr hx
      omega
    rcases hxsplit with h1 | h1 | h1
    · subst h1
      refine Or.inr (Or.inr ?_)
      rw [List.mem_append]
      exact Or.inr (List.mem_cons_self _ _)
    · rcases t5 x h1 with hn | hsub | hk
      · exact Or.inl hn
      · exact Or.inr (Or.inl hsub)
      · refine Or.inr (Or.inr ?_)
        simp at hk ⊢
        tauto
    · rcases u5 x h1 with hn | hsub | hk
      · exact Or.inl hn
      · exact Or.inr (Or.inl hsub)
      · refine Or.inr (Or.inr ?_)
        simp at hk ⊢
        tauto

theorem seekSpec_nil (cache : Cache) (refs : RefMap)
    (hnd : (AMap.keys refs).Nodup) : SeekSpec cache refs [] refs := by
  refine ⟨[], by simpa using hnd, by simp, by simp, ?_, by simp,
    by simp [flatChildren]⟩
  intro x e hxe
  rw [hxe]
  have hz : (List.count x (([] : List String) ++ flatChildren cache []) : Int) = 0 := by
    simp [flatChildren]
  rw [hz, Int.sub_zero]

theorem seekVisit_eq_skip_none (cache : Cache) (fuel : Nat) (refs : RefMap)
    (w : String) (h : cache.find? w = none) : seekVisit cache fuel refs w = refs := by
  rw [seekVisit_def2, h]

theorem seekVisit_eq_skip_sub (cache : Cache) (fuel : Nat) (refs : RefMap)
    (w : String) (cw : CacheItem) (h : cache.find? w = some cw)
    (hs : cw.subscribed = true) : seekVisit cache fuel refs w = refs := by
  simp [seekVisit_def2, h, hs]

theorem seekVisit_eq_revisit (cache : Cache) (fuel : Nat) (refs : RefMap)
    (w : String) (cw : CacheItem) (r : RefEntry) (h : cache.find? w = some cw)
    (hs : cw.subscribed = false) (hfr : refs.find? w = some r) :
    seekVisit cache fuel refs w = refs.set w { r with rc := r.rc - 1 } := by
  simp [seekVisit_def2, h, hs, hfr]

theorem seekVisit_eq_fresh (cache : Cache) (fuel : Nat) (refs : RefMap)
    (w : String) (cw : CacheItem) (h : cache.find? w = some cw)
    (hs : cw.subscribed = false) (hfr : refs.find? w = none) :
    seekVisit cache (fuel + 1) refs w =
      (childRids cache cw).foldl (seekVisit cache fuel)
        (refs.set w ⟨(cw.indirect : Int) - 1, TState.tsNone⟩) := by
  simp [seekVisit_def2, h, hs, hfr]

/-- The `_seekRefs` fold meets its specification, provided the fuel plus
the number of existing entries exceeds the cache size (which holds for
`seekFuel`). -/
theorem seekFold_spec (cache : Cache) :
    ∀ (fuel : Nat) (W : List String) (refs : RefMap),
    (AMap.keys refs).Nodup →
    (∀ k ∈ AMap.keys refs, ∃ ck, cache.find? k = some ck ∧ ck.subscribed = false) →
    cache.length + 1 ≤ fuel + refs.length →
    SeekSpec cache refs W (W.foldl (seekVisit cache fuel) refs) := by
  intro fuel
  induction fuel with
  | zero =>
    intro W
    induction W with
    | nil =>
      intro refs hnd hinv hbound
      exact seekSpec_nil cache refs hnd
    | cons w W' ihW =>
      intro refs hnd hinv hbound
      rw [List.foldl_cons]
      cases hcw : cache.find? w with
      | none =>
        rw [seekVisit_eq_skip_none cache 0 refs w hcw]
        exact seekSpec_skip cache refs w W' _ (Or.inl hcw) hinv
          (ihW refs hnd hinv hbound)
      | some cw =>
        cases hws : cw.subscribed with
        | true =>
          rw [seekVisit_eq_skip_sub cache 0 refs w cw hcw hws]
          exact seekSpec_skip cache refs w W' _ (Or.inr ⟨cw, hcw, hws⟩) hinv
            (ihW refs hnd hinv hbound)
        | false =>
          cases hfr : refs.find? w with
          | some r =>
            rw [seekVisit_eq_revisit cache 0 refs w cw r hcw hws hfr]
            refine seekSpec_revisit cache refs w W' _ r hfr ?_
            refine ihW _ ?_ ?_ ?_
            · rw [AMap.keys_set_of_isSome refs w _ (by rw [hfr]; rfl)]
              exact hnd
            · intro k hk
              rw [AMap.keys_set_of_isSome refs w _ (by rw [hfr]; rfl)] at hk
              exact hinv k hk
            · rw [length_set_of_isSome refs w _ (by rw [hfr]; rfl)]
              exact hbound
          | none =>
            exfalso
            have hlen := refMap_length_le cache refs hnd
              (fun k hk => by
                obtain ⟨ck, hck, _⟩ := hinv k hk
                rw [hck]
                rfl)
            omega
  | succ fuel ihf =>
    intro W
    induction W with
    | nil =>
      intro refs hnd hinv hbound
      exact seekSpec_nil cache refs hnd
    | cons w W' ihW =>
      intro refs hnd hinv hbound
      rw [List.foldl_cons]
      cases hcw : cache.find? w with
      | none =>
        rw [seekVisit_eq_skip_none cache (fuel + 1) refs w hcw]
        exact seekSpec_skip cache refs w W' _ (Or.inl hcw) hinv
          (ihW refs hnd hinv hbound)
      | some cw =>
        cases hws : cw.subscribed with
        | true =>
          rw [seekVisit_eq_skip_sub cache (fuel + 1) refs w cw hcw hws]
          exact seekSpec_skip cache refs w W' _ (Or.inr ⟨cw, hcw, hws⟩) hinv
            (ihW refs hnd hinv hbound)
        | false =>
          cases hfr : refs.find? w with
          | some r =>
            rw [seekVisit_eq_revisit cache (fuel + 1) refs w cw r hcw hws hfr]
            refine seekSpec_revisit cache refs w W' _ r hfr ?_
            refine ihW _ ?_ ?_ ?_
            · rw [AMap.keys_set_of_isSome refs w _ (by rw [hfr]; rfl)]
              exact hnd
            · intro k hk
              rw [AMap.keys_set_of_isSome refs w _ (by rw [hfr]; rfl)] at hk
              exact hinv k hk
            · rw [length_set_of_isSome refs w _ (by rw [hfr]; rfl)]
              exact hbound
          | none =>
            rw [seekVisit_eq_fresh cache fuel refs w cw hcw hws hfr]
            have hwk : w ∉ AMap.keys refs := by
              intro hk
              obtain ⟨v, hv⟩ := find?_isSome_of_mem_keys refs w hk
              rw [hfr] at hv
              cases hv
            have hkm : AMap.keys (refs.set w ⟨(cw.indirect : Int) - 1, TState.tsNone⟩) =
                AMap.keys refs ++ [w] := AMap.keys_set_of_none refs w _ hfr
            have hndm : (AMap.keys (refs.set w
                ⟨(cw.indirect : Int) - 1, TState.tsNone⟩)).Nodup := by
              rw [hkm]
              rw [List.nodup_append]
              exact ⟨hnd, List.nodup_singleton _,
                fun a ha hb => by
                  rw [List.mem_singleton] at hb
                  subst hb
                  exact hwk ha⟩
            have hinvm : ∀ k ∈ AMap.keys (refs.set w
                ⟨(cw.indirect : Int) - 1, TState.tsNone⟩),
                ∃ ck, cache.find? k = some ck ∧ ck.subscribed = false := by
              intro k hk
              rw [hkm] at hk
              rcases List.mem_append.mp hk with h1 | h1
              · exact hinv k h1
              · rw [List.mem_singleton] at h1
                subst h1
                exact ⟨cw, hcw, hws⟩
            have hlm : (refs.set w ⟨(cw.indirect : Int) - 1, TState.tsNone⟩).length =
                refs.length + 1 := length_set_of_none refs w _ hfr
            have hS2 := ihf (childRids cache cw)
              (refs.set w ⟨(cw.indirect : Int) - 1, TState.tsNone⟩)
              hndm hinvm (by omega)
            obtain ⟨D1, t0, t1, t2, t3, t4, t5⟩ := hS2
            have hnd2 : (AMap.keys ((childRids cache cw).foldl (seekVisit cache fuel)
                (refs.set w ⟨(cw.indirect : Int) - 1, TState.tsNone⟩))).Nodup := by
              rw [t1]
              exact t0
            have hinv2 : ∀ k ∈ AMap.keys ((childRids cache cw).foldl
                (seekVisit cache fuel)
                (refs.set w ⟨(cw.indirect : Int) - 1, TState.tsNone⟩)),
                ∃ ck, cache.find? k = some ck ∧ ck.subscribed = false := by
              intro k hk
              rw [t1] at hk
              rcases List.mem_append.mp hk with h1 | h1
              · exact hinvm k h1
              · exact t2 k h1
            have hlen2 : ((childRids cache cw).foldl (seekVisit cache fuel)
                (refs.set w ⟨(cw.indirect : Int) - 1, TState.tsNone⟩)).length =
                refs.length + 1 + D1.length := by
              have e1 : ((childRids cache cw).foldl (seekVisit cache fuel)
                  (refs.set w ⟨(cw.indirect : Int) - 1, TState.tsNone⟩)).length =
                  (AMap.keys ((childRids cache cw).foldl (seekVisit cache fuel)
                    (refs.set w ⟨(cw.indirect : Int) - 1, TState.tsNone⟩))).length := by
                rw [AMap.keys, List.length_map]
              have e2 : (refs.set w ⟨(cw.indirect : Int) - 1, TState.tsNone⟩).length =
                  (AMap.keys (refs.set w
                    ⟨(cw.indirect : Int) - 1, TState.tsNone⟩)).length := by
                rw [AMap.keys, List.length_map]
              rw [e1, t1, List.length_append, ← e2, hlm]
            have hS3 := ihW ((childRids cache cw).foldl (seekVisit cache fuel)
              (refs.set w ⟨(cw.indirect : Int) - 1, TState.tsNone⟩))
              hnd2 hinv2 (by omega)
            exact seekSpec_fresh cache refs w W' _ _ cw hcw hws hfr
              ⟨D1, t0, t1, t2, t3, t4, t5⟩ hS3

theorem mem_flatChildren_of_mem (cache : Cache) (p : String) (cp : CacheItem)
    (c : String) (D : List String) (hp : p ∈ D)
    (hcp : cache.find? p = some cp) (hc : c ∈ childRids cache cp) :
    c ∈ flatChildren cache D := by
  induction D with
  | nil => cases hp
  | cons d ds ih =>
    rcases List.mem_cons.mp hp with h2 | h2
    · subst h2
      rw [flatChildren_cons cache p ds cp hcp]
      exact List.mem_append.mpr (Or.inl hc)
    · cases hfd : cache.find? d with
      | none => rw [flatChildren_cons_none cache d ds hfd]; exact ih h2
      | some cd =>
        rw [flatChildren_cons cache d ds cd hfd]
        exact List.mem_append.mpr (Or.inr (ih h2))

theorem flatChildren_perm (cache : Cache) {l l' : List String} (h : l.Perm l') :
    (flatChildren cache l).Perm (flatChildren cache l') := by
  induction h with
  | nil => exact List.Perm.refl _
  | cons x h ih =>
    rw [flatChildren, flatChildren]
    exact List.Perm.append_left _ ih
  | swap x y l =>
    rw [flatChildren, flatChildren, flatChildren, flatChildren]
    rw [← List.append_assoc, ← List.append_assoc]
    exact List.Perm.append_right _ (List.perm_append_comm)
  | trans h1 h2 ih1 ih2 => exact ih1.trans ih2

theorem count_flat_split (cache : Cache) (all inside : List String) (x : String)
    (hnd_all : all.Nodup) (hnd_in : inside.Nodup)
    (hsub : ∀ k ∈ inside, k ∈ all) :
    List.count x (flatChildren cache all) =
      List.count x (flatChildren cache inside) +
      List.count x (flatChildren cache
        (all.filter (fun k => !decide (k ∈ inside)))) := by
  have hperm1 : (all.filter (fun k => decide (k ∈ inside))).Perm inside := by
    apply List.perm_of_nodup_nodup_toFinset_eq (hnd_all.filter _) hnd_in
    ext k
    simp only [List.mem_toFinset, List.mem_filter, decide_eq_true_eq]
    constructor
    · exact fun h => h.2
    · exact fun h => ⟨hsub k h, h⟩
  have hperm2 : ((all.filter (fun k => decide (k ∈ inside))) ++
      (all.filter (fun k => !decide (k ∈ inside)))).Perm all :=
    List.filter_append_perm _ all
  have h1 := (flatChildren_perm cache hperm2).count_eq x
  rw [flatChildren_append, List.count_append] at h1
  have h2 := (flatChildren_perm cache hperm1).count_eq x
  omega

/-! ## C1: the mark pass and `_tryDelete` -/

theorem rank_le_two (s : TState) : rank s ≤ 2 := by
  cases s <;> simp [rank]

theorem marked_iff_rank (s : TState) : s ≠ TState.tsNone ↔ 1 ≤ rank s := by
  cases s <;> simp [rank]

theorem covering_rank {s s' : TState} (h : covering s) (hle : rank s ≤ rank s') :
    s' ≠ TState.tsNone := by
  rcases h with h | h <;> subst h <;>
    (rw [marked_iff_rank]; simp [rank] at hle ⊢ <;> omega)

theorem markStep_none_of_keep (ci : CacheItem) (r : RefEntry) (pst : MState)
    (rid : String) (h : r.st = TState.tsKeep) : markStep ci r pst rid = none := by
  rw [markStep.eq_def, if_pos h]

theorem markStep_none_cases (ci : CacheItem) (r : RefEntry) (pst : MState)
    (rid : String) (h : markStep ci r pst rid = none) :
    r.st = TState.tsKeep ∨
    (pst = MState.mdel ∧ ¬ r.rc > 0 ∧
      (r.st = TState.tsDelete ∨ r.st = TState.tsStale)) ∨
    (∃ t, pst = MState.mtoken t ∧ rid = t) := by
  rw [markStep.eq_def] at h
  split at h
  · left; assumption
  · cases pst with
    | mdel =>
      right; left
      dsimp only [] at h
      split at h
      · cases h
      · split at h
        · rename_i h1 h2
          refine ⟨rfl, h1, ?_⟩
          cases hst : r.st <;> simp [hst] at h2 ⊢
          rename_i hk; exact hk hst
        · split at h
          · cases h
          · cases h
    | mtoken t =>
      right; right
      dsimp only [] at h
      split at h
      · exact ⟨t, rfl, by assumption⟩
      · cases h

theorem markStep_some_facts (ci : CacheItem) (r : RefEntry) (pst : MState)
    (rid : String) (r2 : RefEntry) (cs : MState)
    (h : markStep ci r pst rid = some (r2, cs)) :
    r2.rc = r.rc ∧ rank r.st < rank r2.st ∧
    (covering r.st → covering r2.st) ∧
    (r2.st = TState.tsDelete →
      r.st = TState.tsNone ∧ ci.direct = 0 ∧ r.rc ≤ 0 ∧ cs = MState.mdel) ∧
    (covering r2.st → ∃ t, cs = MState.mtoken t) ∧
    (∀ t, cs = MState.mtoken t → (t = rid ∧ covering r2.st) ∨ pst = MState.mtoken t) ∧
    (∀ t, pst = MState.mtoken t → r2.st = TState.tsKeep) := by
  rw [markStep.eq_def] at h
  split at h
  · cases h
  · rename_i hk
    cases pst with
    | mdel =>
      dsimp only [] at h
      split at h
      · rename_i h1
        cases h
        refine ⟨rfl, ?_, ?_, ?_, ?_, ?_, ?_⟩
        · cases hst : r.st <;> simp [hst, rank] at hk ⊢
        · intro _; left; rfl
        · intro hd; cases hd
        · intro _; exact ⟨rid, rfl⟩
        · intro t ht; cases ht; exact Or.inl ⟨rfl, Or.inl rfl⟩
        · intro t ht; cases ht
      · rename_i h1
        split at h
        · cases h
        · rename_i h2
          have hnone : r.st = TState.tsNone := not_not.mp h2
          split at h
          · rename_i h3
            cases h
            refine ⟨rfl, ?_, ?_, ?_, ?_, ?_, ?_⟩
            · rw [hnone]; simp [rank]
            · intro hc
              rcases hc with hc | hc <;> rw [hc] at hnone <;> cases hnone
            · intro hd; cases hd
            · intro _; exact ⟨rid, rfl⟩
            · intro t ht; cases ht; exact Or.inl ⟨rfl, Or.inr rfl⟩
            · intro t ht; cases ht
          · rename_i h3
            cases h
            refine ⟨rfl, ?_, ?_, ?_, ?_, ?_, ?_⟩
            · rw [hnone]; simp [rank]
            · intro hc
              rcases hc with hc | hc <;> rw [hc] at hnone <;> cases hnone
            · intro _
              refine ⟨hnone, by omega, by omega, rfl⟩
            · intro hc
              rcases hc with hc | hc <;> cases hc
            · intro t ht; cases ht
            · intro t ht; cases ht
    | mtoken t0 =>
      dsimp only [] at h
      split at h
      · cases h
      · cases h
        refine ⟨rfl, ?_, ?_, ?_, ?_, ?_, ?_⟩
        · cases hst : r.st <;> simp [hst, rank] at hk ⊢
        · intro _; left; rfl
        · intro hd; cases hd
        · intro _
          split
          · exact ⟨rid, rfl⟩
          · exact ⟨t0, rfl⟩
        · intro t ht
          split at ht
          · cases ht; exact Or.inl ⟨rfl, Or.inl rfl⟩
          · cases ht; exact Or.inr rfl
        · intro t ht; rfl

theorem markVisit_def2 (cache : Cache) (fuel : Nat) (refs : RefMap)
    (pst : MState) (rid : String) :
    markVisit cache fuel refs pst rid =
      match cache.find? rid with
      | none => refs
      | some ci =>
        if ci.subscribed then refs
        else
          match refs.find? rid with
          | none => refs
          | some r =>
            match markStep ci r pst rid with
            | none => refs
            | some (r2, childSt) =>
              match fuel with
              | 0 => refs.set rid r2
              | fuel + 1 =>
                (childRids cache ci).foldl
                  (fun acc c => markVisit cache fuel acc childSt c)
                  (refs.set rid r2) := by
  conv_lhs => rw [markVisit]

theorem markVisit_eq_nocache (cache : Cache) (fuel : Nat) (refs : RefMap)
    (pst : MState) (rid : String) (h : cache.find? rid = none) :
    markVisit cache fuel refs pst rid = refs := by
  simp [markVisit_def2, h]

theorem markVisit_eq_sub (cache : Cache) (fuel : Nat) (refs : RefMap)
    (pst : MState) (rid : String) (ci : CacheItem) (h : cache.find? rid = some ci)
    (hs : ci.subscribed = true) :
    markVisit cache fuel refs pst rid = refs := by
  simp [markVisit_def2, h, hs]

theorem markVisit_eq_norefs (cache : Cache) (fuel : Nat) (refs : RefMap)
    (pst : MState) (rid : String) (ci : CacheItem) (h : cache.find? rid = some ci)
    (hs : ci.subscribed = false) (hr : refs.find? rid = none) :
    markVisit cache fuel refs pst rid = refs := by
  simp [markVisit_def2, h, hs, hr]

theorem markVisit_eq_nostep (cache : Cache) (fuel : Nat) (refs : RefMap)
    (pst : MState) (rid : String) (ci : CacheItem) (r : RefEntry)
    (h : cache.find? rid = some ci) (hs : ci.subscribed = false)
    (hr : refs.find? rid = some r) (hm : markStep ci r pst rid = none) :
    markVisit cache fuel refs pst rid = refs := by
  simp [markVisit_def2, h, hs, hr, hm]

theorem markVisit_eq_step (cache : Cache) (fuel : Nat) (refs : RefMap)
    (pst : MState) (rid : String) (ci : CacheItem) (r r2 : RefEntry)
    (childSt : MState)
    (h : cache.find? rid = some ci) (hs : ci.subscribed = false)
    (hr : refs.find? rid = some r) (hm : markStep ci r pst rid = some (r2, childSt)) :
    markVisit cache (fuel + 1) refs pst rid =
      (childRids cache ci).foldl
        (fun acc c => markVisit cache fuel acc childSt c)
        (refs.set rid r2) := by
  conv_lhs => rw [markVisit_def2]
  simp [h, hs, hr, hm]

theorem markPot_cons (kv : String × RefEntry) (m : RefMap) :
    markPot (kv :: m) = (2 - rank kv.2.st) + markPot m := by
  rw [markPot, markPot]
  change ((kv :: m).map (fun kv => 2 - rank kv.2.st)).sum = _
  rw [List.map_cons, List.sum_cons]

theorem markPot_set (m : RefMap) (k : String) (r v : RefEntry)
    (h : AMap.find? m k = some r) :
    markPot (m.set k v) + (2 - rank r.st) = markPot m + (2 - rank v.st) := by
  induction m with
  | nil => cases h
  | cons kv rest ih =>
    obtain ⟨k1, w⟩ := kv
    rw [AMap.find?_cons] at h
    rw [AMap.set_cons]
    by_cases h1 : k1 = k
    · rw [if_pos h1] at h ⊢
      cases h
      rw [markPot_cons, markPot_cons]
      dsimp only []
      omega
    · rw [if_neg h1] at h ⊢
      rw [markPot_cons, markPot_cons]
      have := ih h
      dsimp only []
      omega

theorem markPot_le (refs : RefMap) : markPot refs ≤ 2 * refs.length := by
  induction refs with
  | nil => simp [markPot]
  | cons kv rest ih =>
    rw [markPot_cons, List.length_cons]
    omega

theorem markPtw_refl (cache : Cache) (refs : RefMap) : MarkPtw cache refs refs := by
  refine ⟨rfl, le_refl _, ?_⟩
  intro k r' h
  exact ⟨r', h, rfl, le_refl _, fun hc => hc, fun hd => Or.inl hd⟩

theorem markPtw_trans (cache : Cache) (a b c : RefMap)
    (h1 : MarkPtw cache a b) (h2 : MarkPtw cache b c) : MarkPtw cache a c := by
  obtain ⟨hk1, hp1, hw1⟩ := h1
  obtain ⟨hk2, hp2, hw2⟩ := h2
  refine ⟨hk2.trans hk1, hp2.trans hp1, ?_⟩
  intro k r' hf
  obtain ⟨rm, hfm, e1, e2, e3, e4⟩ := hw2 k r' hf
  obtain ⟨r, hf0, f1, f2, f3, f4⟩ := hw1 k rm hfm
  refine ⟨r, hf0, e1.trans f1, f2.trans e2, fun hc => e3 (f3 hc), ?_⟩
  intro hd
  rcases e4 hd with hd2 | ⟨hn, hdata⟩
  · rcases f4 hd2 with hd3 | ⟨hn3, hdata3⟩
    · exact Or.inl hd3
    · exact Or.inr ⟨hn3, by
        obtain ⟨ck, c1, c2, c3, c4⟩ := hdata3
        exact ⟨ck, c1, c2, c3, c4⟩⟩
  · rw [hn] at f2
    simp only [rank] at f2
    have hr0 : r.st = TState.tsNone := by
      cases hst : r.st
      · rfl
      · rw [hst] at f2; simp [rank] at f2
      · rw [hst] at f2; simp [rank] at f2
      · rw [hst] at f2; simp [rank] at f2
    refine Or.inr ⟨hr0, ?_⟩
    obtain ⟨ck, c1, c2, c3, c4⟩ := hdata
    exact ⟨ck, c1, c2, c3, by rw [← f1]; exact c4⟩

theorem markPtw_fwd (cache : Cache) (a b : RefMap) (h : MarkPtw cache a b)
    (k : String) (r : RefEntry) (hf : AMap.find? a k = some r) :
    ∃ r', AMap.find? b k = some r' ∧ r'.rc = r.rc ∧ rank r.st ≤ rank r'.st ∧
      (covering r.st → covering r'.st) := by
  obtain ⟨hk, _, hw⟩ := h
  have hmem : k ∈ AMap.keys b := by
    rw [hk, AMap.mem_keys_iff_isSome, hf]; rfl
  rw [AMap.mem_keys_iff_isSome] at hmem
  cases hfb : AMap.find? b k with
  | none => rw [hfb] at hmem; cases hmem
  | some r' =>
    obtain ⟨r0, hf0, e1, e2, e3, _⟩ := hw k r' hfb
    rw [hf] at hf0
    cases hf0
    exact ⟨r', rfl, e1, e2, e3⟩

theorem tokInv_of_ptw (cache : Cache) (a b : RefMap) (h : MarkPtw cache a b)
    (pst : MState) (ht : TokInv a pst) : TokInv b pst := by
  intro t hp
  obtain ⟨rt, hf, hc⟩ := ht t hp
  obtain ⟨rt', hf', _, _, hc'⟩ := markPtw_fwd cache a b h t rt hf
  exact ⟨rt', hf', hc' hc⟩

theorem riseSettled_refl (cache : Cache) (P : TState → Prop) (refs : RefMap) :
    RiseSettled cache P refs refs := by
  intro q rq rq' h1 h2 h3 h4
  rw [h1] at h3
  cases h3
  exact absurd h4 h2

theorem riseSettled_trans (cache : Cache) (P : TState → Prop) (a b c : RefMap)
    (hk1 : AMap.keys b = AMap.keys a) (hk2 : AMap.keys c = AMap.keys b)
    (hpres : ∀ k r r', AMap.find? b k = some r → AMap.find? c k = some r' →
      P r.st → P r'.st)
    (h1 : RiseSettled cache P a b) (h2 : RiseSettled cache P b c) :
    RiseSettled cache P a c := by
  intro q rq rq' hfa hnp hfc hp cq hcq ch hch cc hcc hcs hck
  have hqb : (AMap.find? b q).isSome = true := by
    rw [← AMap.mem_keys_iff_isSome, hk1, AMap.mem_keys_iff_isSome, hfa]; rfl
  cases hfb : AMap.find? b q with
  | none => rw [hfb] at hqb; cases hqb
  | some rqm =>
    by_cases hpm : P rqm.st
    · obtain ⟨rc1, hrc1, hp1⟩ := h1 q rq rqm hfa hnp hfb hpm cq hcq ch hch cc hcc hcs hck
      have hcb : (AMap.find? c ch).isSome = true := by
        rw [← AMap.mem_keys_iff_isSome, hk2, AMap.mem_keys_iff_isSome, hrc1]; rfl
      cases hfcc : AMap.find? c ch with
      | none => rw [hfcc] at hcb; cases hcb
      | some rc2 => exact ⟨rc2, rfl, hpres ch rc1 rc2 hrc1 hfcc hp1⟩
    · have hckb : ch ∈ AMap.keys b := by rw [hk1]; exact hck
      exact h2 q rqm rq' hfb hpm hfc hp cq hcq ch hch cc hcc hcs hckb

theorem markPtw_set_step (cache : Cache) (refs : RefMap) (rid : String)
    (ci : CacheItem) (r r2 : RefEntry) (cs : MState)
    (hc : cache.find? rid = some ci) (hsub : ci.subscribed = false)
    (hr : AMap.find? refs rid = some r)
    (hm : markStep ci r pst rid = some (r2, cs)) :
    MarkPtw cache refs (refs.set rid r2) ∧ markPot (refs.set rid r2) < markPot refs := by
  obtain ⟨frc, frank, fcov, fdel, _, _, _⟩ := markStep_some_facts ci r pst rid r2 cs hm
  have hpot := markPot_set refs rid r r2 hr
  have hrle := rank_le_two r.st
  have hr2le := rank_le_two r2.st
  have hlt : markPot (refs.set rid r2) < markPot refs := by omega
  refine ⟨⟨?_, le_of_lt hlt, ?_⟩, hlt⟩
  · exact AMap.keys_set_of_isSome refs rid r2 (by rw [hr]; rfl)
  · intro k r' hf
    by_cases hk : k = rid
    · subst hk
      rw [AMap.find?_set_self] at hf
      cases hf
      refine ⟨r, hr, frc, le_of_lt frank, fcov, ?_⟩
      intro hd
      obtain ⟨h1, h2, h3, _⟩ := fdel hd
      exact Or.inr ⟨h1, ci, hc, hsub, h2, h3⟩
    · rw [AMap.find?_set_ne refs r2 hk] at hf
      exact ⟨r', hf, rfl, le_refl _, fun hcv => hcv, fun hd => Or.inl hd⟩

theorem markFold_spec (cache : Cache) (fuel : Nat)
    (IH : ∀ (refs : RefMap) (pst : MState) (rid : String),
      markPot refs + 1 ≤ fuel → TokInv refs pst →
      MarkPost cache refs (markVisit cache fuel refs pst rid) pst rid) :
    ∀ (cs : List String) (refs : RefMap) (pst : MState),
    markPot refs + 1 ≤ fuel → TokInv refs pst →
    MarkPtw cache refs
      (cs.foldl (fun acc c => markVisit cache fuel acc pst c) refs) ∧
    (∀ c ∈ cs, ∀ r0, AMap.find? refs c = some r0 →
      ∀ ci, cache.find? c = some ci → ci.subscribed = false →
      ∃ r', AMap.find? (cs.foldl (fun acc c => markVisit cache fuel acc pst c) refs) c =
        some r' ∧ r'.st ≠ TState.tsNone ∧ ∀ t, pst = MState.mtoken t → covering r'.st) ∧
    RiseSettled cache covering refs
      (cs.foldl (fun acc c => markVisit cache fuel acc pst c) refs) ∧
    RiseSettled cache (fun s => s ≠ TState.tsNone) refs
      (cs.foldl (fun acc c => markVisit cache fuel acc pst c) refs) := by
  intro cs
  induction cs with
  | nil =>
    intro refs pst hf ht
    refine ⟨markPtw_refl cache refs, ?_, riseSettled_refl cache _ refs,
      riseSettled_refl cache _ refs⟩
    intro c hc
    cases hc
  | cons c0 cs' ih =>
    intro refs pst hf ht
    obtain ⟨p1, p4, p7, p8⟩ := IH refs pst c0 hf ht
    have hf1 : markPot (markVisit cache fuel refs pst c0) + 1 ≤ fuel :=
      le_trans (by have := p1.2.1; omega) hf
    have ht1 : TokInv (markVisit cache fuel refs pst c0) pst :=
      tokInv_of_ptw cache refs _ p1 pst ht
    obtain ⟨q1, q4, q7, q8⟩ := ih (markVisit cache fuel refs pst c0) pst hf1 ht1
    rw [List.foldl_cons]
    refine ⟨markPtw_trans cache _ _ _ p1 q1, ?_, ?_, ?_⟩
    · intro c hc r0 hr0 ci hci hcs
      rcases List.mem_cons.mp hc with hc | hc
      · subst hc
        obtain ⟨r', hr', hmk, hcv⟩ := p4 r0 hr0 ci hci hcs
        obtain ⟨r'', hr'', _, hrk, hcv2⟩ := markPtw_fwd cache _ _ q1 c r' hr'
        refine ⟨r'', hr'', ?_, ?_⟩
        · rw [marked_iff_rank] at hmk ⊢
          omega
        · intro t hpt
          exact hcv2 (hcv t hpt)
      · obtain ⟨r0', hr0', _, _, _⟩ := markPtw_fwd cache _ _ p1 c r0 hr0
        exact q4 c hc r0' hr0' ci hci hcs
    · refine riseSettled_trans cache covering _ _ _ p1.1 q1.1 ?_ p7 q7
      intro k r r' hfb hfc hp
      obtain ⟨rr, hrr, _, _, hcv⟩ := markPtw_fwd cache _ _ q1 k r hfb
      rw [hrr] at hfc
      cases hfc
      exact hcv hp
    · refine riseSettled_trans cache (fun s => s ≠ TState.tsNone) _ _ _ p1.1 q1.1 ?_ p8 q8
      intro k r r' hfb hfc hp
      obtain ⟨rr, hrr, _, hrk, _⟩ := markPtw_fwd cache _ _ q1 k r hfb
      rw [hrr] at hfc
      cases hfc
      rw [marked_iff_rank] at hp ⊢
      omega

/-- The `_markDelete` traversal meets its postcondition whenever the
fuel exceeds the remaining rank headroom of the reference map. -/
theorem markVisit_spec (cache : Cache) :
    ∀ (fuel : Nat) (refs : RefMap) (pst : MState) (rid : String),
    markPot refs + 1 ≤ fuel → TokInv refs pst →
    MarkPost cache refs (markVisit cache fuel refs pst rid) pst rid := by
  intro fuel
  induction fuel with
  | zero =>
    intro refs pst rid hf ht
    exact absurd hf (by omega)
  | succ f ih =>
    intro refs pst rid hf ht
    cases hc : cache.find? rid with
    | none =>
      rw [markVisit_eq_nocache cache (f + 1) refs pst rid hc]
      refine ⟨markPtw_refl cache refs, ?_, riseSettled_refl cache _ refs,
        riseSettled_refl cache _ refs⟩
      intro r0 h0 ci hci hcs
      rw [hc] at hci
      cases hci
    | some ci =>
      cases hs : ci.subscribed with
      | true =>
        rw [markVisit_eq_sub cache (f + 1) refs pst rid ci hc hs]
        refine ⟨markPtw_refl cache refs, ?_, riseSettled_refl cache _ refs,
          riseSettled_refl cache _ refs⟩
        intro r0 h0 ci' hci' hcs'
        rw [hc] at hci'
        cases hci'
        rw [hs] at hcs'
        cases hcs'
      | false =>
        cases hr : AMap.find? refs rid with
        | none =>
          rw [markVisit_eq_norefs cache (f + 1) refs pst rid ci hc hs hr]
          refine ⟨markPtw_refl cache refs, ?_, riseSettled_refl cache _ refs,
            riseSettled_refl cache _ refs⟩
          intro r0 h0 ci' hci' hcs'
          rw [hr] at h0
          cases h0
        | some r =>
          cases hm : markStep ci r pst rid with
          | none =>
            rw [markVisit_eq_nostep cache (f + 1) refs pst rid ci r hc hs hr hm]
            refine ⟨markPtw_refl cache refs, ?_, riseSettled_refl cache _ refs,
              riseSettled_refl cache _ refs⟩
            intro r0 h0 ci' hci' hcs'
            rw [hr] at h0
            cases h0
            rcases markStep_none_cases ci r pst rid hm with hk | ⟨hpd, _, hst⟩ | ⟨t, hpt, hrt⟩
            · refine ⟨r, hr, ?_, ?_⟩
              · rw [hk]; intro hh; cases hh
              · intro t hpt
                exact Or.inl hk
            · refine ⟨r, hr, ?_, ?_⟩
              · rcases hst with hst | hst <;> rw [hst] <;> intro hh <;> cases hh
              · intro t hpt
                rw [hpd] at hpt
                cases hpt
            · obtain ⟨rt, hft, hcov⟩ := ht t hpt
              subst hrt
              rw [hr] at hft
              cases hft
              refine ⟨r, hr, ?_, fun _ _ => hcov⟩
              rcases hcov with hcv | hcv <;> rw [hcv] <;> intro hh <;> cases hh
          | some pr =>
            obtain ⟨r2, cs2⟩ := pr
            rw [markVisit_eq_step cache f refs pst rid ci r r2 cs2 hc hs hr hm]
            obtain ⟨hptw1, hlt⟩ := markPtw_set_step cache refs rid ci r r2 cs2 hc hs hr hm
            have hkeys1 : AMap.keys (refs.set rid r2) = AMap.keys refs :=
              AMap.keys_set_of_isSome refs rid r2 (by rw [hr]; rfl)
            obtain ⟨frc, frank, fcov, fdel, ftokout, ftoktgt, ftokkeep⟩ :=
              markStep_some_facts ci r pst rid r2 cs2 hm
            have hf1 : markPot (refs.set rid r2) + 1 ≤ f := by omega
            have ht1 : TokInv (refs.set rid r2) cs2 := by
              intro t hcst
              rcases ftoktgt t hcst with ⟨htr, hcv⟩ | hpt
              · subst htr
                exact ⟨r2, AMap.find?_set_self refs t r2, hcv⟩
              · have hkeep := ftokkeep t hpt
                by_cases htr : t = rid
                · subst htr
                  exact ⟨r2, AMap.find?_set_self refs t r2, Or.inl hkeep⟩
                · obtain ⟨rt, hft, hcov⟩ := ht t hpt
                  exact ⟨rt, by rw [AMap.find?_set_ne refs r2 htr]; exact hft, hcov⟩
            obtain ⟨q1, q4, q7, q8⟩ :=
              markFold_spec cache f ih (childRids cache ci) (refs.set rid r2) cs2 hf1 ht1
            have hmk2 : r2.st ≠ TState.tsNone := by
              rw [marked_iff_rank]
              omega
            refine ⟨markPtw_trans cache _ _ _ hptw1 q1, ?_, ?_, ?_⟩
            · intro r0 h0 ci' hci' hcs'
              rw [hr] at h0
              cases h0
              obtain ⟨r', hr', _, hrk, hcv⟩ :=
                markPtw_fwd cache _ _ q1 rid r2 (AMap.find?_set_self refs rid r2)
              refine ⟨r', hr', ?_, ?_⟩
              · rw [marked_iff_rank] at hmk2 ⊢
                omega
              · intro t hpt
                exact hcv (Or.inl (ftokkeep t hpt))
            · intro q rq rq' hfa hnp hfc hp cq hcq chd hch cc hcc hccs hck
              by_cases hqr : q = rid
              · subst hqr
                rw [hr] at hfa
                cases hfa
                rw [hc] at hcq
                cases hcq
                have hck1 : chd ∈ AMap.keys (refs.set q r2) := by rw [hkeys1]; exact hck
                have hsome : (AMap.find? (refs.set q r2) chd).isSome = true := by
                  rw [← AMap.mem_keys_iff_isSome]; exact hck1
                cases hfchd : AMap.find? (refs.set q r2) chd with
                | none => rw [hfchd] at hsome; cases hsome
                | some r0c =>
                  by_cases hcv2 : covering r2.st
                  · obtain ⟨t, hcst⟩ := ftokout hcv2
                    obtain ⟨r', hr', _, hcov⟩ := q4 chd hch r0c hfchd cc hcc hccs
                    exact ⟨r', hr', hcov t hcst⟩
                  · exact q7 q r2 rq' (AMap.find?_set_self refs q r2) hcv2 hfc hp
                      ci hc chd hch cc hcc hccs hck1
              · have hfa1 : AMap.find? (refs.set rid r2) q = some rq := by
                  rw [AMap.find?_set_ne refs r2 hqr]; exact hfa
                exact q7 q rq rq' hfa1 hnp hfc hp cq hcq chd hch cc hcc hccs
                  (by rw [hkeys1]; exact hck)
            · intro q rq rq' hfa hnp hfc hp cq hcq chd hch cc hcc hccs hck
              by_cases hqr : q = rid
              · subst hqr
                rw [hr] at hfa
                cases hfa
                rw [hc] at hcq
                cases hcq
                have hck1 : chd ∈ AMap.keys (refs.set q r2) := by rw [hkeys1]; exact hck
                have hsome : (AMap.find? (refs.set q r2) chd).isSome = true := by
                  rw [← AMap.mem_keys_iff_isSome]; exact hck1
                cases hfchd : AMap.find? (refs.set q r2) chd with
                | none => rw [hfchd] at hsome; cases hsome
                | some r0c =>
                  obtain ⟨r', hr', hmk', _⟩ := q4 chd hch r0c hfchd cc hcc hccs
                  exact ⟨r', hr', hmk'⟩
              · have hfa1 : AMap.find? (refs.set rid r2) q = some rq := by
                  rw [AMap.find?_set_ne refs r2 hqr]; exact hfa
                exact q8 q rq rq' hfa1 hnp hfc hp cq hcq chd hch cc hcc hccs
                  (by rw [hkeys1]; exact hck)

/-- The `_seekRefs` pass of `_getRefState`, characterized over its own
final key set: keys are distinct rids of cached non-subscribed items
including the root, every entry still carries state `stateNone` with
`rc` equal to the item's indirect count minus the reference edges into
it from the traversed set, and the traversed set is closed under
references to cached non-subscribed items. -/
theorem seekPass_spec (cache : Cache) (root : String) (ci : CacheItem)
    (hroot : cache.find? root = some ci) (hsub : ci.subscribed = false) :
    (AMap.keys (seekPass cache root ci)).Nodup ∧
    root ∈ AMap.keys (seekPass cache root ci) ∧
    (∀ k ∈ AMap.keys (seekPass cache root ci),
      ∃ ck, cache.find? k = some ck ∧ ck.subscribed = false) ∧
    (∀ x e, AMap.find? (seekPass cache root ci) x = some e →
      e.st = TState.tsNone ∧
      ∃ cx, cache.find? x = some cx ∧ cx.subscribed = false ∧
        e.rc = cx.indirect -
          (List.count x (flatChildren cache (AMap.keys (seekPass cache root ci))) : Int)) ∧
    (∀ p ∈ AMap.keys (seekPass cache root ci), ∀ cp, cache.find? p = some cp →
      ∀ c ∈ childRids cache cp, ∀ cc, cache.find? c = some cc →
      cc.subscribed = false → c ∈ AMap.keys (seekPass cache root ci)) := by
  simp only [seekPass]
  have hseed_nd : (AMap.keys ([(root, ⟨ci.indirect, TState.tsNone⟩)] :
      RefMap)).Nodup := by
    simp [AMap.keys]
  have hseed_inv : ∀ k ∈ AMap.keys ([(root, ⟨ci.indirect, TState.tsNone⟩)] :
      RefMap), ∃ ck, cache.find? k = some ck ∧ ck.subscribed = false := by
    intro k hk
    simp [AMap.keys] at hk
    subst hk
    exact ⟨ci, hroot, hsub⟩
  have hbound : cache.length + 1 ≤ seekFuel cache +
      ([(root, ⟨ci.indirect, TState.tsNone⟩)] : RefMap).length := by
    rw [seekFuel]
    simp
  obtain ⟨D, s0, s1, s2, s3, s4, s5⟩ :=
    seekFold_spec cache (seekFuel cache) (childRids cache ci)
      [(root, ⟨ci.indirect, TState.tsNone⟩)] hseed_nd hseed_inv hbound
  have hkeys1 : AMap.keys ([(root, ⟨ci.indirect, TState.tsNone⟩)] : RefMap) =
      [root] := rfl
  rw [hkeys1] at s0 s1 s5
  have hflat : ∀ y, List.count y (childRids cache ci ++ flatChildren cache D) =
      List.count y (flatChildren cache (AMap.keys ((childRids cache ci).foldl
        (seekVisit cache (seekFuel cache))
        [(root, ⟨ci.indirect, TState.tsNone⟩)]))) := by
    intro y
    rw [s1]
    have : flatChildren cache ([root] ++ D) =
        childRids cache ci ++ flatChildren cache D := by
      rw [flatChildren_append, flatChildren_cons cache root [] ci hroot,
        flatChildren_nil, List.append_nil]
    rw [this]
  refine ⟨by rw [s1]; exact s0, by rw [s1]; simp, ?_, ?_, ?_⟩
  · intro k hk
    rw [s1] at hk
    rcases List.mem_append.mp hk with h1 | h1
    · rw [List.mem_singleton] at h1
      subst h1
      exact ⟨ci, hroot, hsub⟩
    · obtain ⟨cd, hcd, hcds⟩ := s2 k h1
      exact ⟨cd, hcd, hcds⟩
  · intro x e he
    by_cases hxr : x = root
    · subst hxr
      have h1 := s3 x ⟨ci.indirect, TState.tsNone⟩ (by
        rw [AMap.find?]
        simp)
      rw [h1] at he
      cases he
      exact ⟨rfl, ci, hroot, hsub, by rw [← hflat x]⟩
    · have hxk : x ∈ [root] ++ D := by
        have := mem_keys_of_find?_isSome _ x e he
        rw [s1] at this
        exact this
      have hxD : x ∈ D := by
        rcases List.mem_append.mp hxk with h1 | h1
        · rw [List.mem_singleton] at h1
          exact absurd h1 hxr
        · exact h1
      obtain ⟨cx, hcx, hfind⟩ := s4 x hxD
      rw [hfind] at he
      cases he
      obtain ⟨cd, hcd, hcds⟩ := s2 x hxD
      rw [hcx] at hcd
      cases hcd
      exact ⟨rfl, cx, hcx, hcds, by rw [← hflat x]⟩
  · intro p hp cp hcp c hc cc hcc hccs
    have hcedge : c ∈ childRids cache ci ++ flatChildren cache D := by
      rw [s1] at hp
      rcases List.mem_append.mp hp with h1 | h1
      · rw [List.mem_singleton] at h1
        subst h1
        rw [hroot] at hcp
        cases hcp
        exact List.mem_append.mpr (Or.inl hc)
      · exact List.mem_append.mpr
          (Or.inr (mem_flatChildren_of_mem cache p cp c D h1 hcp hc))
    rcases s5 c hcedge with hn | ⟨cy, hcy, hcys⟩ | hk
    · rw [hcc] at hn
      cases hn
    · rw [hcc] at hcy
      cases hcy
      rw [hccs] at hcys
      cases hcys
    · rw [s1]
      exact hk

/-- Under the global accounting assumption that every cached item's
indirect count equals its number of inbound reference edges, each
seek-pass entry's `rc` is the number of inbound edges from cached items
outside the traversed set. -/
theorem seekPass_external (cache : Cache) (root : String) (ci : CacheItem)
    (hnd : (AMap.keys cache).Nodup)
    (hroot : cache.find? root = some ci) (hsub : ci.subscribed = false)
    (hInd : ∀ y ∈ AMap.keys cache, (cache.find? y).map (fun cy => cy.indirect) =
      some ((List.count y (flatChildren cache (AMap.keys cache)) : Int))) :
    ∀ x e, AMap.find? (seekPass cache root ci) x = some e →
      e.rc = (List.count x (flatChildren cache ((AMap.keys cache).filter
        (fun k => !decide (k ∈ AMap.keys (seekPass cache root ci))))) : Int) := by
  obtain ⟨snd, _, sall, sent, _⟩ := seekPass_spec cache root ci hroot hsub
  intro x e he
  obtain ⟨_, cx, hcx, _, hrc⟩ := sent x e he
  have hkeys_sub : ∀ k ∈ AMap.keys (seekPass cache root ci), k ∈ AMap.keys cache := by
    intro k hk
    obtain ⟨ck, hck, _⟩ := sall k hk
    rw [AMap.mem_keys_iff_isSome, hck]
    rfl
  have hsplit := count_flat_split cache (AMap.keys cache)
    (AMap.keys (seekPass cache root ci)) x hnd snd hkeys_sub
  have hix0 := hInd x (mem_keys_of_find?_isSome cache x cx hcx)
  rw [hcx] at hix0
  have hix : cx.indirect =
      (List.count x (flatChildren cache (AMap.keys cache)) : Int) := by
    simpa using hix0
  omega

/-- C2: after the first traversal of the reference-state engine, every
entry's `rc` is the number of inbound reference edges to it that
originate outside the traversed subgraph (given that `indirect` counts
the inbound edges from all cached items); moreover the traversed key
set is closed under references to cached non-subscribed items. -/
theorem seekPassCountsExternalRefs (cache : Cache) (root x : String)
    (ci : CacheItem) (e : RefEntry)
    (hnd : (AMap.keys cache).Nodup)
    (hroot : cache.find? root = some ci) (hsub : ci.subscribed = false)
    (hInd : ∀ y ∈ AMap.keys cache, (cache.find? y).map (fun cy => cy.indirect) =
      some ((List.count y (flatChildren cache (AMap.keys cache)) : Int)))
    (he : AMap.find? (seekPass cache root ci) x = some e) :
    e.rc = (List.count x (flatChildren cache ((AMap.keys cache).filter
      (fun k => !decide (k ∈ AMap.keys (seekPass cache root ci))))) : Int) ∧
    (∀ p ∈ AMap.keys (seekPass cache root ci), ∀ cp, cache.find? p = some cp →
      ∀ c ∈ childRids cache cp, ∀ cc, cache.find? c = some cc →
      cc.subscribed = false → c ∈ AMap.keys (seekPass cache root ci)) :=
  ⟨seekPass_external cache root ci hnd hroot hsub hInd x e he,
   (seekPass_spec cache root ci hroot hsub).2.2.2.2⟩

theorem seekPassCountsExternalRefs_witness :
    (⟨1, TState.tsNone⟩ : RefEntry).rc =
      (List.count "b" (flatChildren c2Cache
        ((AMap.keys c2Cache).filter (fun k =>
          !decide (k ∈ AMap.keys (seekPass c2Cache "a" c2A))))) : Int) :=
  (seekPassCountsExternalRefs c2Cache "a" "b" c2A ⟨1, TState.tsNone⟩
    (by decide) (by decide) (by decide) (by decide) (by decide)).1

theorem seekVisit_eq_fresh0 (cache : Cache) (refs : RefMap)
    (w : String) (cw : CacheItem) (h : cache.find? w = some cw)
    (hs : cw.subscribed = false) (hfr : refs.find? w = none) :
    seekVisit cache 0 refs w =
      refs.set w ⟨(cw.indirect : Int) - 1, TState.tsNone⟩ := by
  simp [seekVisit_def2, h, hs, hfr]

/-- Every rid tracked after a `_seekRefs` fold is reachable from the
root through cached non-subscribed items. -/
theorem seekReach (cache : Cache) (root : String) :
    ∀ (fuel : Nat) (W : List String) (refs : RefMap),
    (∀ k ∈ AMap.keys refs, Reach cache root k) →
    (∀ w ∈ W, Reach cache root w) →
    ∀ k ∈ AMap.keys (W.foldl (seekVisit cache fuel) refs), Reach cache root k := by
  intro fuel
  induction fuel with
  | zero =>
    intro W
    induction W with
    | nil =>
      intro refs h1 _ k hk
      exact h1 k hk
    | cons w ws ihw =>
      intro refs h1 h2 k hk
      rw [List.foldl_cons] at hk
      have h2' : ∀ w' ∈ ws, Reach cache root w' :=
        fun w' hw' => h2 w' (List.mem_cons.mpr (Or.inr hw'))
      cases hc : cache.find? w with
      | none =>
        rw [seekVisit_eq_skip_none cache 0 refs w hc] at hk
        exact ihw refs h1 h2' k hk
      | some cw =>
        cases hcs : cw.subscribed with
        | true =>
          rw [seekVisit_eq_skip_sub cache 0 refs w cw hc hcs] at hk
          exact ihw refs h1 h2' k hk
        | false =>
          cases hfr : refs.find? w with
          | some r =>
            rw [seekVisit_eq_revisit cache 0 refs w cw r hc hcs hfr] at hk
            refine ihw _ ?_ h2' k hk
            intro k2 hk2
            rw [AMap.keys_set_of_isSome refs w _ (by rw [hfr]; rfl)] at hk2
            exact h1 k2 hk2
          | none =>
            rw [seekVisit_eq_fresh0 cache refs w cw hc hcs hfr] at hk
            refine ihw _ ?_ h2' k hk
            intro k2 hk2
            rw [AMap.keys_set_of_none refs w _ hfr] at hk2
            rcases List.mem_append.mp hk2 with hm | hm
            · exact h1 k2 hm
            · rw [List.mem_singleton] at hm
              rw [hm]
              exact h2 w (List.mem_cons.mpr (Or.inl rfl))
  | succ f ihf =>
    intro W
    induction W with
    | nil =>
      intro refs h1 _ k hk
      exact h1 k hk
    | cons w ws ihw =>
      intro refs h1 h2 k hk
      rw [List.foldl_cons] at hk
      have h2' : ∀ w' ∈ ws, Reach cache root w' :=
        fun w' hw' => h2 w' (List.mem_cons.mpr (Or.inr hw'))
      cases hc : cache.find? w with
      | none =>
        rw [seekVisit_eq_skip_none cache (f + 1) refs w hc] at hk
        exact ihw refs h1 h2' k hk
      | some cw =>
        cases hcs : cw.subscribed with
        | true =>
          rw [seekVisit_eq_skip_sub cache (f + 1) refs w cw hc hcs] at hk
          exact ihw refs h1 h2' k hk
        | false =>
          cases hfr : refs.find? w with
          | some r =>
            rw [seekVisit_eq_revisit cache (f + 1) refs w cw r hc hcs hfr] at hk
            refine ihw _ ?_ h2' k hk
            intro k2 hk2
            rw [AMap.keys_set_of_isSome refs w _ (by rw [hfr]; rfl)] at hk2
            exact h1 k2 hk2
          | none =>
            rw [seekVisit_eq_fresh cache f refs w cw hc hcs hfr] at hk
            have hw : Reach cache root w := h2 w (List.mem_cons.mpr (Or.inl rfl))
            refine ihw _ ?_ h2' k hk
            intro k2 hk2
            refine ihf (childRids cache cw)
              (refs.set w ⟨(cw.indirect : Int) - 1, TState.tsNone⟩) ?_ ?_ k2 hk2
            · intro k3 hk3
              rw [AMap.keys_set_of_none refs w _ hfr] at hk3
              rcases List.mem_append.mp hk3 with hm | hm
              · exact h1 k3 hm
              · rw [List.mem_singleton] at hm
                subst hm
                exact hw
            · intro c hcc
              exact Reach.step hw hc hcs hcc

theorem getRefState_eq (cache : Cache) (rid : String) (ci : CacheItem)
    (h : cache.find? rid = some ci) (hs : ci.subscribed = false) :
    getRefState cache rid =
      markVisit cache (markFuel cache) (seekPass cache rid ci) MState.mdel rid := by
  rw [getRefState.eq_def, h]
  simp [hs, seekPass]

/-- Safety of the delete classification: a rid marked `stateDelete` by
`_getRefState` is a cached, non-subscribed item with no direct
listeners, and every cached parent referencing it is marked
`stateDelete` as well. -/
theorem getRefState_delete_safe (cache : Cache) (root : String) (ci : CacheItem)
    (hnd : (AMap.keys cache).Nodup)
    (hroot : cache.find? root = some ci) (hsub : ci.subscribed = false)
    (hInd : ∀ y ∈ AMap.keys cache, (cache.find? y).map (fun cy => cy.indirect) =
      some ((List.count y (flatChildren cache (AMap.keys cache)) : Int))) :
    (AMap.keys (getRefState cache root)).Nodup ∧
    ∀ x rx, AMap.find? (getRefState cache root) x = some rx →
      rx.st = TState.tsDelete →
      ∃ cx, cache.find? x = some cx ∧ cx.subscribed = false ∧ cx.direct = 0 ∧
        ∀ p cp, cache.find? p = some cp → x ∈ childRids cache cp →
          ∃ rp, AMap.find? (getRefState cache root) p = some rp ∧
            rp.st = TState.tsDelete := by
  obtain ⟨snd, sroot, sall, sent, sclosed⟩ := seekPass_spec cache root ci hroot hsub
  have hpot : markPot (seekPass cache root ci) + 1 ≤ markFuel cache := by
    have h1 := markPot_le (seekPass cache root ci)
    have h2 : (seekPass cache root ci).length ≤ cache.length := by
      refine refMap_length_le cache _ snd ?_
      intro k hk
      obtain ⟨ck, hck, _⟩ := sall k hk
      rw [hck]
      rfl
    rw [markFuel]
    omega
  have htok : TokInv (seekPass cache root ci) MState.mdel := by
    intro t ht
    cases ht
  obtain ⟨mptw, mp4, mp7, mp8⟩ :=
    markVisit_spec cache (markFuel cache) (seekPass cache root ci) MState.mdel root
      hpot htok
  rw [getRefState_eq cache root ci hroot hsub]
  have mkeys : AMap.keys (markVisit cache (markFuel cache) (seekPass cache root ci)
      MState.mdel root) = AMap.keys (seekPass cache root ci) := mptw.1
  -- the root entry ends marked
  have hrootsp : (AMap.find? (seekPass cache root ci) root).isSome = true := by
    rw [← AMap.mem_keys_iff_isSome]
    exact sroot
  have hrootmk : ∃ r', AMap.find? (markVisit cache (markFuel cache)
      (seekPass cache root ci) MState.mdel root) root = some r' ∧
      r'.st ≠ TState.tsNone := by
    cases hr0 : AMap.find? (seekPass cache root ci) root with
    | none => rw [hr0] at hrootsp; cases hrootsp
    | some r0 =>
      obtain ⟨r', hr', hmk, _⟩ := mp4 r0 hr0 ci hroot hsub
      exact ⟨r', hr', hmk⟩
  -- every reachable cached non-subscribed rid ends marked
  have hreach_marked : ∀ k, Reach cache root k →
      ∀ ck, cache.find? k = some ck → ck.subscribed = false →
      ∃ rk, AMap.find? (markVisit cache (markFuel cache) (seekPass cache root ci)
        MState.mdel root) k = some rk ∧ rk.st ≠ TState.tsNone := by
    intro k hk
    induction hk with
    | base =>
      intro ck hck hcks
      obtain ⟨r', hr', hmk⟩ := hrootmk
      exact ⟨r', hr', hmk⟩
    | step hp hcp hcps hch ih =>
      rename_i p c cp
      intro cc hcc hccs
      obtain ⟨rp, hrp, hrpmk⟩ := ih cp hcp hcps
      have hpk : p ∈ AMap.keys (seekPass cache root ci) := by
        rw [← mkeys, AMap.mem_keys_iff_isSome, hrp]
        rfl
      have hpsome : (AMap.find? (seekPass cache root ci) p).isSome = true := by
        rw [← AMap.mem_keys_iff_isSome]
        exact hpk
      cases hrp0 : AMap.find? (seekPass cache root ci) p with
      | none => rw [hrp0] at hpsome; cases hpsome
      | some rp0 =>
        have hrp0n : rp0.st = TState.tsNone := (sent p rp0 hrp0).1
        have hck : c ∈ AMap.keys (seekPass cache root ci) :=
          sclosed p hpk cp hcp c hch cc hcc hccs
        exact mp8 p rp0 rp hrp0 (by rw [hrp0n]; simp) hrp hrpmk cp hcp c hch
          cc hcc hccs hck
  refine ⟨by rw [mkeys]; exact snd, ?_⟩
  have hall_marked : ∀ k ∈ AMap.keys (seekPass cache root ci),
      ∃ rk, AMap.find? (markVisit cache (markFuel cache) (seekPass cache root ci)
        MState.mdel root) k = some rk ∧ rk.st ≠ TState.tsNone := by
    intro k hk
    have hreach : Reach cache root k := by
      have := seekReach cache root (seekFuel cache) (childRids cache ci)
        [(root, ⟨ci.indirect, TState.tsNone⟩)] ?_ ?_ k (by rw [← seekPass]; exact hk)
      · exact this
      · intro k2 hk2
        simp [AMap.keys] at hk2
        rw [hk2]
        exact Reach.base
      · intro w hw
        exact Reach.step Reach.base hroot hsub hw
    obtain ⟨ck, hck, hcks⟩ := sall k hk
    exact hreach_marked k hreach ck hck hcks
  -- main conclusion
  intro x rx hfx hdel
  obtain ⟨r0, hr0, hrc, hrank, hcov, hdelorig⟩ := mptw.2.2 x rx hfx
  have hr0n : r0.st = TState.tsNone := (sent x r0 hr0).1
  rcases hdelorig hdel with hd0 | ⟨_, ck, hck, hcksub, hckdir, hrc0le⟩
  · rw [hr0n] at hd0
    cases hd0
  · refine ⟨ck, hck, hcksub, hckdir, ?_⟩
    -- the external edge count into x is zero
    have hext := seekPass_external cache root ci hnd hroot hsub hInd x r0 hr0
    have hcnt0 : List.count x (flatChildren cache ((AMap.keys cache).filter
        (fun k => !decide (k ∈ AMap.keys (seekPass cache root ci))))) = 0 := by
      omega
    intro p cp hcp hchild
    by_cases hpk : p ∈ AMap.keys (seekPass cache root ci)
    · obtain ⟨rp, hrp, hrpmk⟩ := hall_marked p hpk
      cases hst : rp.st with
      | tsNone => exact absurd hst hrpmk
      | tsDelete => exact ⟨rp, hrp, hst⟩
      | tsKeep =>
        exfalso
        have hpsome : (AMap.find? (seekPass cache root ci) p).isSome = true := by
          rw [← AMap.mem_keys_iff_isSome]
          exact hpk
        cases hrp0 : AMap.find? (seekPass cache root ci) p with
        | none => rw [hrp0] at hpsome; cases hpsome
        | some rp0 =>
          have hrp0n : rp0.st = TState.tsNone := (sent p rp0 hrp0).1
          have hxk : x ∈ AMap.keys (seekPass cache root ci) := by
            rw [← mkeys, AMap.mem_keys_iff_isSome, hfx]
            rfl
          obtain ⟨rc1, hrc1, hrc1cov⟩ := mp7 p rp0 rp hrp0
            (by rw [hrp0n]; intro hcv; rcases hcv with hcv | hcv <;> cases hcv)
            hrp (Or.inl hst) cp hcp x hchild ck hck hcksub hxk
          rw [hfx] at hrc1
          cases hrc1
          rw [hdel] at hrc1cov
          rcases hrc1cov with hcv | hcv <;> cases hcv
      | tsStale =>
        exfalso
        have hpsome : (AMap.find? (seekPass cache root ci) p).isSome = true := by
          rw [← AMap.mem_keys_iff_isSome]
          exact hpk
        cases hrp0 : AMap.find? (seekPass cache root ci) p with
        | none => rw [hrp0] at hpsome; cases hpsome
        | some rp0 =>
          have hrp0n : rp0.st = TState.tsNone := (sent p rp0 hrp0).1
          have hxk : x ∈ AMap.keys (seekPass cache root ci) := by
            rw [← mkeys, AMap.mem_keys_iff_isSome, hfx]
            rfl
          obtain ⟨rc1, hrc1, hrc1cov⟩ := mp7 p rp0 rp hrp0
            (by rw [hrp0n]; intro hcv; rcases hcv with hcv | hcv <;> cases hcv)
            hrp (Or.inr hst) cp hcp x hchild ck hck hcksub hxk
          rw [hfx] at hrc1
          cases hrc1
          rw [hdel] at hrc1cov
          rcases hrc1cov with hcv | hcv <;> cases hcv
    · exfalso
      have hpfil : p ∈ (AMap.keys cache).filter
          (fun k => !decide (k ∈ AMap.keys (seekPass cache root ci))) := by
        rw [List.mem_filter]
        refine ⟨?_, by simp [hpk]⟩
        rw [AMap.mem_keys_iff_isSome, hcp]
        rfl
      have hmem : x ∈ flatChildren cache ((AMap.keys cache).filter
          (fun k => !decide (k ∈ AMap.keys (seekPass cache root ci)))) :=
        mem_flatChildren_of_mem cache p cp x _ hpfil hcp hchild
      rw [← List.count_pos_iff] at hmem
      omega

theorem mem_of_find? {β : Type} (m : List (String × β)) (k : String) (v : β)
    (h : AMap.find? m k = some v) : (k, v) ∈ m := by
  induction m with
  | nil => cases h
  | cons kv rest ih =>
    obtain ⟨k1, w⟩ := kv
    rw [AMap.find?_cons] at h
    by_cases h1 : k1 = k
    · rw [if_pos h1] at h
      cases h
      subst h1
      exact List.mem_cons.mpr (Or.inl rfl)
    · rw [if_neg h1] at h
      exact List.mem_cons.mpr (Or.inr (ih h))

theorem find?_of_mem_nodup {β : Type} (m : List (String × β)) (k : String) (v : β)
    (h : (k, v) ∈ m) (hnd : (AMap.keys m).Nodup) : AMap.find? m k = some v := by
  induction m with
  | nil => cases h
  | cons kv rest ih =>
    obtain ⟨k1, w⟩ := kv
    rw [AMap.keys_cons, List.nodup_cons] at hnd
    rcases List.mem_cons.mp h with h1 | h1
    · cases h1
      rw [AMap.find?_cons, if_pos rfl]
    · have hk : k ∈ AMap.keys rest := by
        rw [AMap.keys, List.mem_map]
        exact ⟨(k, v), h1, rfl⟩
      have hne : k1 ≠ k := fun hh => hnd.1 (hh ▸ hk)
      rw [AMap.find?_cons, if_neg hne]
      exact ih h1 hnd.2

theorem keys_erase_sublist {β : Type} (m : AMap β) (k : String) :
    (AMap.keys (m.erase k)).Sublist (AMap.keys m) := by
  induction m with
  | nil => simp [AMap.erase, AMap.keys]
  | cons kv rest ih =>
    obtain ⟨k1, w⟩ := kv
    rw [AMap.erase_cons]
    by_cases h1 : k1 = k
    · rw [if_pos h1, AMap.keys_cons]
      exact List.sublist_cons_self k1 (AMap.keys rest)
    · rw [if_neg h1, AMap.keys_cons, AMap.keys_cons]
      exact ih.cons₂ k1

theorem find?_erase_of_none {β : Type} (m : AMap β) (k x : String)
    (h : AMap.find? m x = none) : AMap.find? (m.erase k) x = none := by
  by_cases hk : x = k
  · subst hk
    induction m with
    | nil => simp [AMap.erase, AMap.find?]
    | cons kv rest ih =>
      obtain ⟨k1, w⟩ := kv
      rw [AMap.find?_cons] at h
      by_cases h1 : k1 = x
      · rw [if_pos h1] at h
        cases h
      · rw [if_neg h1] at h
        rw [AMap.erase_cons, if_neg h1, AMap.find?_cons, if_neg h1]
        exact ih h
  · rw [AMap.find?_erase_ne m hk]
    exact h

theorem setStale_cache (st : ClientState) (r : String) :
    (setStale st r).cache = st.cache := by
  simp only [setStale, addStale]
  split <;> rfl

theorem removeIndirectIfCached_keys (c : Cache) (rid : String) :
    AMap.keys (removeIndirectIfCached c rid) = AMap.keys c := by
  rw [removeIndirectIfCached.eq_def]
  cases hf : c.find? rid with
  | none => rfl
  | some ci => exact AMap.keys_set_of_isSome c rid _ (by rw [hf]; rfl)

theorem rawFold_isSome (rr : List String) :
    ∀ (c : Cache) (x : String),
    (((rr.foldl removeIndirectIfCached c).find? x).isSome) = ((c.find? x).isSome) := by
  induction rr with
  | nil => intro c x; rfl
  | cons r rs ih =>
    intro c x
    rw [List.foldl_cons, ih, removeIndirectIfCached_isSome]

theorem rawFold_keys (rr : List String) :
    ∀ (c : Cache), AMap.keys (rr.foldl removeIndirectIfCached c) = AMap.keys c := by
  induction rr with
  | nil => intro c; rfl
  | cons r rs ih =>
    intro c
    rw [List.foldl_cons, ih, removeIndirectIfCached_keys]

theorem deleteRef_eq_none (st : ClientState) (k : String)
    (h : st.cache.find? k = none) : deleteRef st k = st := by
  rw [deleteRef.eq_def, h]

theorem deleteRef_cache (st : ClientState) (k : String) (ci : CacheItem)
    (h : st.cache.find? k = some ci) :
    (deleteRef st k).cache =
      ((rawRids ci).foldl removeIndirectIfCached st.cache).erase k := by
  rw [deleteRef.eq_def, h]
  rfl

theorem deleteRef_none_cases (st : ClientState) (k x : String)
    (h : (deleteRef st k).cache.find? x = none) :
    st.cache.find? x = none ∨ x = k := by
  cases hf : st.cache.find? k with
  | none =>
    rw [deleteRef_eq_none st k hf] at h
    exact Or.inl h
  | some ci =>
    rw [deleteRef_cache st k ci hf] at h
    by_cases hx : x = k
    · exact Or.inr hx
    · rw [AMap.find?_erase_ne _ hx] at h
      left
      have := rawFold_isSome (rawRids ci) st.cache x
      rw [h] at this
      cases hfx : st.cache.find? x with
      | none => rfl
      | some v => rw [hfx] at this; cases this

theorem deleteRef_absent (st : ClientState) (k x : String)
    (h : st.cache.find? x = none) : (deleteRef st k).cache.find? x = none := by
  cases hf : st.cache.find? k with
  | none => rw [deleteRef_eq_none st k hf]; exact h
  | some ci =>
    rw [deleteRef_cache st k ci hf]
    refine find?_erase_of_none _ k x ?_
    have := rawFold_isSome (rawRids ci) st.cache x
    rw [h] at this
    cases hfx : ((rawRids ci).foldl removeIndirectIfCached st.cache).find? x with
    | none => rfl
    | some v => rw [hfx] at this; cases this

theorem deleteRef_self (st : ClientState) (k : String)
    (hnd : (AMap.keys st.cache).Nodup) : (deleteRef st k).cache.find? k = none := by
  cases hf : st.cache.find? k with
  | none => rw [deleteRef_eq_none st k hf]; exact hf
  | some ci =>
    rw [deleteRef_cache st k ci hf]
    refine AMap.find?_erase_self _ k ?_
    rw [rawFold_keys]
    exact hnd

theorem deleteRef_nodup (st : ClientState) (k : String)
    (hnd : (AMap.keys st.cache).Nodup) :
    (AMap.keys (deleteRef st k).cache).Nodup := by
  cases hf : st.cache.find? k with
  | none => rw [deleteRef_eq_none st k hf]; exact hnd
  | some ci =>
    rw [deleteRef_cache st k ci hf]
    refine List.Nodup.sublist (keys_erase_sublist _ k) ?_
    rw [rawFold_keys]
    exact hnd

theorem tdFold_absent (l : List (String × RefEntry)) :
    ∀ (st : ClientState) (x : String), st.cache.find? x = none →
    ((l.foldl (fun st kv =>
      match kv.2.st with
      | TState.tsStale => setStale st kv.1
      | TState.tsDelete => deleteRef st kv.1
      | _ => st) st).cache.find? x = none) := by
  induction l with
  | nil => intro st x h; exact h
  | cons kv t ih =>
    intro st x h
    rw [List.foldl_cons]
    cases hst : kv.2.st
    · simp only [hst]
      exact ih st x h
    · simp only [hst]
      exact ih _ x (deleteRef_absent st kv.1 x h)
    · simp only [hst]
      exact ih st x h
    · simp only [hst]
      refine ih _ x ?_
      rw [setStale_cache]
      exact h

theorem tdFold_nodup (l : List (String × RefEntry)) :
    ∀ (st : ClientState), (AMap.keys st.cache).Nodup →
    (AMap.keys ((l.foldl (fun st kv =>
      match kv.2.st with
      | TState.tsStale => setStale st kv.1
      | TState.tsDelete => deleteRef st kv.1
      | _ => st) st).cache)).Nodup := by
  induction l with
  | nil => intro st h; exact h
  | cons kv t ih =>
    intro st h
    rw [List.foldl_cons]
    cases hst : kv.2.st
    · simp only [hst]
      exact ih st h
    · simp only [hst]
      exact ih _ (deleteRef_nodup st kv.1 h)
    · simp only [hst]
      exact ih st h
    · simp only [hst]
      refine ih _ ?_
      rw [setStale_cache]
      exact h

theorem tdFold_evict_origin (l : List (String × RefEntry)) :
    ∀ (st : ClientState) (x : String),
    ((l.foldl (fun st kv =>
      match kv.2.st with
      | TState.tsStale => setStale st kv.1
      | TState.tsDelete => deleteRef st kv.1
      | _ => st) st).cache.find? x = none) →
    st.cache.find? x = none ∨ ∃ kv ∈ l, kv.1 = x ∧ kv.2.st = TState.tsDelete := by
  induction l with
  | nil => intro st x h; exact Or.inl h
  | cons kv t ih =>
    intro st x h
    rw [List.foldl_cons] at h
    rcases ih _ x h with h1 | ⟨kv2, hm, he, hd⟩
    · cases hst : kv.2.st
      · simp only [hst] at h1
        exact Or.inl h1
      · simp only [hst] at h1
        rcases deleteRef_none_cases st kv.1 x h1 with h2 | h2
        · exact Or.inl h2
        · exact Or.inr ⟨kv, List.mem_cons.mpr (Or.inl rfl), h2.symm, hst⟩
      · simp only [hst] at h1
        exact Or.inl h1
      · simp only [hst] at h1
        rw [setStale_cache] at h1
        exact Or.inl h1
    · exact Or.inr ⟨kv2, List.mem_cons.mpr (Or.inr hm), he, hd⟩

theorem tdFold_deletes (l : List (String × RefEntry)) :
    ∀ (st : ClientState) (x : String) (rx : RefEntry),
    (x, rx) ∈ l → rx.st = TState.tsDelete → (AMap.keys st.cache).Nodup →
    ((l.foldl (fun st kv =>
      match kv.2.st with
      | TState.tsStale => setStale st kv.1
      | TState.tsDelete => deleteRef st kv.1
      | _ => st) st).cache.find? x = none) := by
  induction l with
  | nil => intro st x rx h; cases h
  | cons kv t ih =>
    intro st x rx hm hd hnd
    rw [List.foldl_cons]
    rcases List.mem_cons.mp hm with h1 | h1
    · obtain ⟨k1, r1⟩ := kv
      cases h1
      simp only [hd]
      refine tdFold_absent t _ x ?_
      exact deleteRef_self st x hnd
    · cases hst : kv.2.st
      · simp only [hst]
        exact ih st x rx h1 hd hnd
      · simp only [hst]
        exact ih _ x rx h1 hd (deleteRef_nodup st kv.1 hnd)
      · simp only [hst]
        exact ih st x rx h1 hd hnd
      · simp only [hst]
        refine ih _ x rx h1 hd ?_
        rw [setStale_cache]
        exact hnd

/-- C1: `_tryDelete` never evicts a subscribed item, an item with
direct listeners, or an item with a live inbound reference: whenever it
evicts `x`, the item `x` was unsubscribed with no direct listeners, and
every cached item referencing `x` is evicted in the same call (so no
still-cached item holds a reference to `x` afterwards).  The `indirect`
accounting hypothesis states that each cached item's indirect count
equals its number of inbound reference edges. -/
theorem noEvictionOfReferencedResource
    (st : ClientState) (root x : String) (cix : CacheItem)
    (hnd : (AMap.keys st.cache).Nodup)
    (hInd : ∀ y ∈ AMap.keys st.cache, (st.cache.find? y).map (fun cy => cy.indirect) =
      some ((List.count y (flatChildren st.cache (AMap.keys st.cache)) : Int)))
    (hx : st.cache.find? x = some cix)
    (hevict : (tryDelete st root).cache.find? x = none) :
    cix.subscribed = false ∧ cix.direct = 0 ∧
    ∀ p cip, st.cache.find? p = some cip → x ∈ childRids st.cache cip →
      (tryDelete st root).cache.find? p = none := by
  simp only [tryDelete] at hevict ⊢
  rcases tdFold_evict_origin (getRefState st.cache root) st x hevict with
    h0 | ⟨kv, hkvm, hkv1, hkvdel⟩
  · rw [hx] at h0
    cases h0
  cases hrootf : st.cache.find? root with
  | none =>
    have hRM : getRefState st.cache root = [] := by
      rw [getRefState.eq_def, hrootf]
    rw [hRM] at hkvm
    cases hkvm
  | some cir =>
    cases hrsub : cir.subscribed with
    | true =>
      have hRM : getRefState st.cache root = [] := by
        rw [getRefState.eq_def, hrootf]
        simp [hrsub]
      rw [hRM] at hkvm
      cases hkvm
    | false =>
      obtain ⟨hRMnd, hsafe⟩ :=
        getRefState_delete_safe st.cache root cir hnd hrootf hrsub hInd
      obtain ⟨k1, r1⟩ := kv
      have hk1 : k1 = x := hkv1
      have hkvm2 : (x, r1) ∈ getRefState st.cache root := by
        rw [← hk1]
        exact hkvm
      have hfindRM : AMap.find? (getRefState st.cache root) x = some r1 :=
        find?_of_mem_nodup _ x r1 hkvm2 hRMnd
      obtain ⟨cx, hcx, hcxs, hcxd, hparents⟩ := hsafe x r1 hfindRM hkvdel
      rw [hx] at hcx
      cases hcx
      refine ⟨hcxs, hcxd, ?_⟩
      intro p cip hcp hchild
      obtain ⟨rp, hrp, hrpdel⟩ := hparents p cip hcp hchild
      exact tdFold_deletes (getRefState st.cache root) st p rp
        (mem_of_find? _ p rp hrp) hrpdel hnd

theorem noEvictionOfReferencedResource_witness :
    c1B.subscribed = false ∧ c1B.direct = 0 :=
  ⟨(noEvictionOfReferencedResource c1St "a" "b" c1B (by decide) (by decide)
      (by decide) (by decide)).1,
   (noEvictionOfReferencedResource c1St "a" "b" c1B (by decide) (by decide)
      (by decide) (by decide)).2.1⟩

end Res
